import Mathlib

/-
  Verification of the mind-map core (graph model, layout engine, mutation
  operations, outline converter) of the arvindkc-mind-maps repository.

  The TypeScript sources are shallowly embedded: JS strings are modeled as
  lists of characters, JS numbers as rationals (the algorithms only use
  +, -, *, /, min, max and comparisons), Map/Set lookups as list searches
  with the same first/last-match semantics, and the unbounded recursions of
  the source (which terminate exactly on acyclic child graphs) as
  fuel-indexed functions returning none when the fuel runs out; the fuel
  supplied by the embedding exceeds the recursion depth of every
  terminating run, so a none result corresponds exactly to a
  non-terminating (stack-overflowing) run of the source.
-/

namespace MindMaps

/- The Batteries rational operations are irreducible by default, which
blocks the evaluation of concrete layout computations inside decide; they
are soundness-irrelevant reducibility markers, so they are relaxed here. -/
set_option allowUnsafeReducibility true
attribute [local semireducible] Rat.add Rat.sub Rat.mul Rat.inv Rat.ofScientific

/-- JS strings modeled as lists of characters. -/
abbrev Str := List Char

/-- The character class matched by the JS regex \s (WhiteSpace and
LineTerminator code points), used by trim(), match(/^\s*/) and \s+. -/
def jsWhitespace : List Char :=
  [' ', '\t', '\n', '\x0b', '\x0c', '\r',
   ' ', ' ', ' ', ' ', ' ', ' ', ' ',
   ' ', ' ', ' ', ' ', ' ', ' ',
   ' ', ' ', ' ', ' ', '　', '﻿']

/-- Whether a character is JS whitespace. -/
def isSpace (c : Char) : Bool := jsWhitespace.contains c

/-- JS String.trim(): strip whitespace from both ends. -/
def trim (l : Str) : Str :=
  List.rdropWhile isSpace (l.dropWhile isSpace)

/-- OutlineItem from src/types.ts: a line of the outline text form. -/
structure OutlineItem where
  text : Str
  depth : Nat
deriving DecidableEq

/-- JS text.split(newline): n separators yield n+1 pieces. -/
def splitNl : Str → List Str
  | [] => [[]]
  | c :: rest =>
    if c = '\n' then [] :: splitNl rest
    else
      match splitNl rest with
      | [] => [[c]]
      | h :: t => (c :: h) :: t

/-- The single application of replace(bullet-then-whitespace, empty) in
parseOutlineLine: strip one leading dash-or-star bullet together with the
maximal whitespace run that follows it. -/
def stripBullet : Str → Str
  | [] => []
  | [c] => [c]
  | c :: c2 :: rest =>
    if (c == '-' || c == '*') && isSpace c2 then (c2 :: rest).dropWhile isSpace
    else c :: c2 :: rest

/-- parseOutlineLine from src/lib/outline.ts: blank lines and lines whose
content is empty after bullet stripping yield none; tabs in the leading
whitespace count one depth level each, every two leading spaces count one. -/
def parseOutlineLine (line : Str) : Option OutlineItem :=
  if trim line = [] then none
  else
    let lw := line.takeWhile isSpace
    let tabDepth := (lw.filter (fun c => c == '\t')).length
    let spaceDepth := (lw.filter (fun c => c == ' ')).length / 2
    let depth := tabDepth + spaceDepth
    let text := trim (stripBullet (trim line))
    if text = [] then none
    else some { text := text, depth := depth }

/-- The normalization loop of parseOutlineText for the items after the
first: clamp each depth to at most the previous normalized depth plus one
and floor it at one. -/
def normalizeTail (prev : Nat) : List OutlineItem → List OutlineItem
  | [] => []
  | item :: rest =>
    let d := max 1 (min item.depth (prev + 1))
    { item with depth := d } :: normalizeTail d rest

/-- The normalization pass of parseOutlineText: the first item is forced
to depth 0, the rest are clamped by normalizeTail. -/
def normalizeOutline : List OutlineItem → List OutlineItem
  | [] => []
  | first :: rest => { first with depth := 0 } :: normalizeTail 0 rest

/-- parseOutlineText from src/lib/outline.ts. -/
def parseOutlineText (s : Str) : List OutlineItem :=
  normalizeOutline ((splitNl s).filterMap parseOutlineLine)

/-- One serialized line of outlineToText: two spaces per depth level, a
dash, a space, then the text. -/
def itemLine (item : OutlineItem) : Str :=
  List.replicate (2 * item.depth) ' ' ++ '-' :: ' ' :: item.text

/-- JS Array.join(newline). -/
def joinNl : List Str → Str
  | [] => []
  | [l] => l
  | l :: rest => l ++ '\n' :: joinNl rest

/-- outlineToText from src/lib/outline.ts. -/
def outlineToText (outline : List OutlineItem) : Str :=
  joinNl (outline.map itemLine)

lemma normalizeTail_head_bound (prev : Nat) (l : List OutlineItem) :
    ∀ b, (normalizeTail prev l)[0]? = some b → 1 ≤ b.depth ∧ b.depth ≤ prev + 1 := by
  cases l with
  | nil => intro b h; simp [normalizeTail] at h
  | cons item rest =>
    intro b h
    simp only [normalizeTail, List.getElem?_cons_zero, Option.some.injEq] at h
    subst h
    constructor
    · exact le_max_left _ _
    · simp only [max_le_iff]
      exact ⟨Nat.succ_le_succ (Nat.zero_le _), min_le_right _ _⟩

lemma normalizeTail_chain (l : List OutlineItem) :
    ∀ prev i a b, (normalizeTail prev l)[i]? = some a →
      (normalizeTail prev l)[i+1]? = some b →
      1 ≤ b.depth ∧ b.depth ≤ a.depth + 1 := by
  induction l with
  | nil => intro prev i a b h; simp [normalizeTail] at h
  | cons item rest ih =>
    intro prev i a b ha hb
    cases i with
    | zero =>
      simp only [normalizeTail, List.getElem?_cons_zero, Option.some.injEq] at ha
      simp only [normalizeTail, List.getElem?_cons_succ] at hb
      have := normalizeTail_head_bound _ rest b hb
      subst ha
      exact this
    | succ j =>
      simp only [normalizeTail, List.getElem?_cons_succ] at ha hb
      exact ih _ j a b ha hb

lemma parseOutlineText_chain (s : Str) :
    ∀ i a b, (parseOutlineText s)[i]? = some a →
      (parseOutlineText s)[i+1]? = some b →
      1 ≤ b.depth ∧ b.depth ≤ a.depth + 1 := by
  intro i a b ha hb
  unfold parseOutlineText at ha hb
  cases hpl : (splitNl s).filterMap parseOutlineLine with
  | nil => rw [hpl] at ha; simp [normalizeOutline] at ha
  | cons first rest =>
    rw [hpl] at ha hb
    cases i with
    | zero =>
      simp only [normalizeOutline, List.getElem?_cons_zero, Option.some.injEq] at ha
      simp only [normalizeOutline, List.getElem?_cons_succ] at hb
      have := normalizeTail_head_bound 0 rest b hb
      subst ha
      simpa using this
    | succ j =>
      simp only [normalizeOutline, List.getElem?_cons_succ] at ha hb
      exact normalizeTail_chain rest 0 j a b ha hb

lemma parseOutlineText_head_depth (s : Str) :
    ∀ a, (parseOutlineText s)[0]? = some a → a.depth = 0 := by
  intro a h
  unfold parseOutlineText at h
  cases hpl : (splitNl s).filterMap parseOutlineLine with
  | nil => rw [hpl] at h; simp [normalizeOutline] at h
  | cons first rest =>
    rw [hpl] at h
    simp only [normalizeOutline, List.getElem?_cons_zero, Option.some.injEq] at h
    subst h
    rfl

/-- C5: for every input string, parseOutlineText yields a first item of
depth 0, every later item has depth at least 1 and exceeds the previous
item depth by at most 1; on the four-line example with over-indented
lines the normalized depths are 0, 1, 2, 1. -/
theorem parse_never_jumps (s : Str) :
    (∀ a, (parseOutlineText s)[0]? = some a → a.depth = 0) ∧
    (∀ i a b, (parseOutlineText s)[i]? = some a → (parseOutlineText s)[i+1]? = some b →
      1 ≤ b.depth ∧ b.depth ≤ a.depth + 1) ∧
    (parseOutlineText ("- Root\n      - Child\n            - TooDeep\n  - Sibling".toList)).map
      OutlineItem.depth = [0, 1, 2, 1] :=
  ⟨parseOutlineText_head_depth s, parseOutlineText_chain s, by decide⟩

/-- Witness for C5 at the concrete example: the step from the Child item
to the TooDeep item obeys the depth bounds. -/
theorem parse_never_jumps_witness :
    1 ≤ (OutlineItem.mk "TooDeep".toList 2).depth ∧
      (OutlineItem.mk "TooDeep".toList 2).depth ≤ (OutlineItem.mk "Child".toList 1).depth + 1 :=
  (parse_never_jumps ("- Root\n      - Child\n            - TooDeep\n  - Sibling".toList)).2.1 1
    (OutlineItem.mk "Child".toList 1) (OutlineItem.mk "TooDeep".toList 2) (by decide) (by decide)

section RoundTrip

lemma mem_of_mem_dropWhile {p : Char → Bool} {c : Char} {l : Str}
    (h : c ∈ l.dropWhile p) : c ∈ l := by
  induction l with
  | nil => simp at h
  | cons a as ih =>
    rw [List.dropWhile_cons] at h
    by_cases hp : p a = true
    · rw [if_pos hp] at h; exact List.mem_cons_of_mem _ (ih h)
    · rw [if_neg hp] at h; exact h

lemma mem_of_mem_rdropWhile {p : Char → Bool} {c : Char} {l : Str}
    (h : c ∈ List.rdropWhile p l) : c ∈ l := by
  unfold List.rdropWhile at h
  rw [List.mem_reverse] at h
  have := mem_of_mem_dropWhile h
  rwa [List.mem_reverse] at this

lemma mem_of_mem_trim {c : Char} {l : Str} (h : c ∈ trim l) : c ∈ l := by
  unfold trim at h
  exact mem_of_mem_dropWhile (mem_of_mem_rdropWhile h)

lemma mem_of_mem_stripBullet {c : Char} {l : Str} (h : c ∈ stripBullet l) : c ∈ l := by
  cases l with
  | nil => simp [stripBullet] at h
  | cons a rest =>
    cases rest with
    | nil => simpa [stripBullet] using h
    | cons b rest2 =>
      rw [stripBullet] at h
      by_cases hc : ((a == '-' || a == '*') && isSpace b) = true
      · rw [if_pos hc] at h
        exact List.mem_cons_of_mem _ (mem_of_mem_dropWhile h)
      · rw [if_neg hc] at h; exact h

lemma dropWhile_head_false {p : Char → Bool} {l r : Str} {c : Char}
    (h : l.dropWhile p = c :: r) : p c = false := by
  induction l with
  | nil => simp at h
  | cons a as ih =>
    rw [List.dropWhile_cons] at h
    by_cases hp : p a = true
    · rw [if_pos hp] at h; exact ih h
    · rw [if_neg hp] at h
      cases h
      simpa using hp

lemma trim_head_false {l : Str} {c : Char} {cs : Str} (h : trim l = c :: cs) :
    isSpace c = false := by
  unfold trim at h
  obtain ⟨t, ht⟩ := List.rdropWhile_prefix isSpace (l.dropWhile isSpace)
  rw [h] at ht
  exact dropWhile_head_false ht.symm

lemma trim_getLast_false {l : Str} {c : Char} (h : (trim l).getLast? = some c) :
    isSpace c = false := by
  have hne : trim l ≠ [] := by intro hh; rw [hh] at h; simp at h
  have hlast := List.rdropWhile_last_not isSpace (l.dropWhile isSpace) hne
  rw [List.getLast?_eq_getLast _ hne] at h
  have : (trim l).getLast hne = c := by exact_mod_cast Option.some_injective _ h
  rw [← this]
  simpa using hlast

lemma trim_trim (l : Str) : trim (trim l) = trim l := by
  have h1 : (trim l).dropWhile isSpace = trim l := by
    cases hA : trim l with
    | nil => simp
    | cons c cs =>
      rw [List.dropWhile_cons, if_neg]
      simp [trim_head_false hA]
  show List.rdropWhile isSpace ((trim l).dropWhile isSpace) = trim l
  rw [h1]
  exact List.rdropWhile_idempotent _ _

lemma splitNl_no_nl (s : Str) : ∀ l ∈ splitNl s, ('\n' : Char) ∉ l := by
  induction s with
  | nil =>
    intro l hl
    simp only [splitNl, List.mem_singleton] at hl
    simp [hl]
  | cons c rest ih =>
    intro l hl
    by_cases h : c = '\n'
    · rw [splitNl, if_pos h] at hl
      rcases List.mem_cons.mp hl with h2 | h2
      · simp [h2]
      · exact ih l h2
    · rw [splitNl, if_neg h] at hl
      cases hsp : splitNl rest with
      | nil =>
        rw [hsp] at hl
        simp only [List.mem_singleton] at hl
        subst hl
        intro hmem
        rcases List.mem_cons.mp hmem with h2 | h2
        · exact h h2.symm
        · simp at h2
      | cons h0 t0 =>
        rw [hsp] at hl
        rcases List.mem_cons.mp hl with h2 | h2
        · subst h2
          intro hmem
          rcases List.mem_cons.mp hmem with h3 | h3
          · exact h h3.symm
          · exact ih h0 (hsp ▸ List.mem_cons_self _ _) h3
        · exact ih l (hsp ▸ List.mem_cons_of_mem _ h2)

lemma splitNl_append (l m : Str) (hl : ('\n' : Char) ∉ l) (h0 : Str) (t0 : List Str)
    (hm : splitNl m = h0 :: t0) : splitNl (l ++ m) = (l ++ h0) :: t0 := by
  induction l with
  | nil => simpa using hm
  | cons c cs ih =>
    have hc : c ≠ '\n' := fun e => hl (e ▸ List.mem_cons_self _ _)
    have hcs : ('\n' : Char) ∉ cs := fun hx => hl (List.mem_cons_of_mem _ hx)
    rw [List.cons_append, splitNl, if_neg hc, ih hcs]
    rfl

lemma splitNl_single (l : Str) (hl : ('\n' : Char) ∉ l) : splitNl l = [l] := by
  have := splitNl_append l [] hl [] [] rfl
  simpa using this

lemma splitNl_joinNl (ls : List Str) (h : ∀ l ∈ ls, ('\n' : Char) ∉ l) (hne : ls ≠ []) :
    splitNl (joinNl ls) = ls := by
  induction ls with
  | nil => exact absurd rfl hne
  | cons l rest ih =>
    cases rest with
    | nil => exact splitNl_single l (h l (List.mem_cons_self _ _))
    | cons l2 rest2 =>
      have hj : joinNl (l :: l2 :: rest2) = l ++ '\n' :: joinNl (l2 :: rest2) := rfl
      have hm : splitNl ('\n' :: joinNl (l2 :: rest2)) = [] :: splitNl (joinNl (l2 :: rest2)) := by
        rw [splitNl, if_pos rfl]
      rw [hj, splitNl_append l _ (h l (List.mem_cons_self _ _)) [] _ hm,
        ih (fun x hx => h x (List.mem_cons_of_mem _ hx)) (by simp)]
      simp

lemma itemLine_no_nl {it : OutlineItem} (h : ('\n' : Char) ∉ it.text) :
    ('\n' : Char) ∉ itemLine it := by
  intro hmem
  unfold itemLine at hmem
  rcases List.mem_append.mp hmem with h2 | h2
  · have := List.eq_of_mem_replicate h2
    simp at this
  · rcases List.mem_cons.mp h2 with h3 | h3
    · simp at h3
    · rcases List.mem_cons.mp h3 with h4 | h4
      · simp at h4
      · exact h h4

lemma takeWhile_replicate_cons {p : Char → Bool} {a b : Char} {n : Nat} {t : Str}
    (ha : p a = true) (hb : p b = false) :
    (List.replicate n a ++ b :: t).takeWhile p = List.replicate n a := by
  induction n with
  | zero => simp [List.takeWhile_cons, hb]
  | succ k ih => simp [List.replicate_succ, List.takeWhile_cons, ha, ih]

lemma dropWhile_replicate_cons {p : Char → Bool} {a b : Char} {n : Nat} {t : Str}
    (ha : p a = true) (hb : p b = false) :
    (List.replicate n a ++ b :: t).dropWhile p = b :: t := by
  induction n with
  | zero => simp [List.dropWhile_cons, hb]
  | succ k ih => simp [List.replicate_succ, List.dropWhile_cons, ha, ih]

lemma filter_replicate_char (n : Nat) (a : Char) (q : Char → Bool) :
    (List.replicate n a).filter q = if q a then List.replicate n a else [] := by
  induction n with
  | zero => simp
  | succ k ih =>
    rw [List.replicate_succ, List.filter_cons]
    by_cases h : q a = true
    · simp only [h, if_true, ih, List.replicate_succ]
    · simp only [h, if_false, ih]
      simp [h]

lemma trim_itemLine (it : OutlineItem) (h1 : it.text ≠ [])
    (h2 : trim it.text = it.text) :
    trim (itemLine it) = '-' :: ' ' :: it.text := by
  obtain ⟨c0, cs0, hc0⟩ : ∃ c0 cs0, it.text = c0 :: cs0 := by
    cases hx : it.text with
    | nil => exact absurd hx h1
    | cons a b => exact ⟨a, b, rfl⟩
  unfold trim itemLine
  rw [dropWhile_replicate_cons (by decide) (by decide)]
  apply List.rdropWhile_eq_self_iff.mpr
  intro hl
  have hlq : ('-' :: ' ' :: it.text).getLast? = it.text.getLast? := by
    rw [hc0, List.getLast?_cons_cons, List.getLast?_cons_cons]
  have hsome := List.getLast?_eq_getLast ('-' :: ' ' :: it.text) hl
  have hfalse : isSpace (('-' :: ' ' :: it.text).getLast hl) = false := by
    apply trim_getLast_false (l := it.text)
    rw [h2, ← hlq, hsome]
  rw [hfalse]
  simp

lemma parse_itemLine (it : OutlineItem) (h1 : it.text ≠ [])
    (h2 : trim it.text = it.text) :
    parseOutlineLine (itemLine it) = some { text := it.text, depth := it.depth } := by
  have htr := trim_itemLine it h1 h2
  have hdw : it.text.dropWhile isSpace = it.text := by
    cases hx : it.text with
    | nil => simp
    | cons a b =>
      rw [List.dropWhile_cons, if_neg]
      have hhead : isSpace a = false := trim_head_false (l := it.text) (by rw [h2, hx])
      simp [hhead]
  have e1 : (itemLine it).takeWhile isSpace = List.replicate (2 * it.depth) ' ' := by
    unfold itemLine
    exact takeWhile_replicate_cons (by decide) (by decide)
  have e2 : ((List.replicate (2 * it.depth) ' ').filter (fun c => c == '\t')).length = 0 := by
    rw [filter_replicate_char]
    simp
  have e3 : ((List.replicate (2 * it.depth) ' ').filter (fun c => c == ' ')).length
      = 2 * it.depth := by
    rw [filter_replicate_char]
    simp
  have e4 : stripBullet ('-' :: ' ' :: it.text) = it.text := by
    rw [stripBullet, if_pos (by decide)]
    rw [List.dropWhile_cons, if_pos (by decide)]
    exact hdw
  unfold parseOutlineLine
  rw [htr, if_neg (show ¬('-' :: ' ' :: it.text = []) from by simp)]
  simp only [e1, e2, e3, e4, htr, h2]
  rw [if_neg h1]
  have h5 : 2 * it.depth / 2 = it.depth := by omega
  rw [h5]
  simp

lemma dropWhile_eq_nil_of_eq_nil {p : Char → Bool} : ([] : Str).dropWhile p = [] := rfl

/-- The invariants of every item produced by parseOutlineText: nonempty
trimmed text without newline characters. -/
def GoodItem (it : OutlineItem) : Prop :=
  it.text ≠ [] ∧ trim it.text = it.text ∧ ('\n' : Char) ∉ it.text

lemma parseOutlineLine_good {line : Str} {it : OutlineItem}
    (hnl : ('\n' : Char) ∉ line) (h : parseOutlineLine line = some it) : GoodItem it := by
  unfold parseOutlineLine at h
  by_cases h0 : trim line = []
  · rw [if_pos h0] at h; simp at h
  · rw [if_neg h0] at h
    simp only [] at h
    by_cases h1 : trim (stripBullet (trim line)) = []
    · rw [if_pos h1] at h; simp at h
    · rw [if_neg h1] at h
      have hit := (Option.some_inj.mp h).symm
      refine ⟨?_, ?_, ?_⟩
      · rw [hit]; exact h1
      · rw [hit]; exact trim_trim _
      · rw [hit]
        intro hmem
        exact hnl (mem_of_mem_trim (mem_of_mem_stripBullet (mem_of_mem_trim hmem)))

lemma normalizeTail_mem_text {it : OutlineItem} {l : List OutlineItem} {prev : Nat}
    (h : it ∈ normalizeTail prev l) : ∃ it0 ∈ l, it.text = it0.text := by
  induction l generalizing prev with
  | nil => simp [normalizeTail] at h
  | cons a rest ih =>
    simp only [normalizeTail] at h
    rcases List.mem_cons.mp h with h2 | h2
    · exact ⟨a, List.mem_cons_self _ _, by rw [h2]⟩
    · obtain ⟨it0, hm, he⟩ := ih h2
      exact ⟨it0, List.mem_cons_of_mem _ hm, he⟩

lemma parseOutlineText_good (s : Str) : ∀ it ∈ parseOutlineText s, GoodItem it := by
  intro it hit
  have hparsed : ∀ it0 ∈ (splitNl s).filterMap parseOutlineLine, GoodItem it0 := by
    intro it0 hit0
    obtain ⟨line, hline, hsome⟩ := List.mem_filterMap.mp hit0
    exact parseOutlineLine_good (splitNl_no_nl s line hline) hsome
  unfold parseOutlineText at hit
  cases hpl : (splitNl s).filterMap parseOutlineLine with
  | nil => rw [hpl] at hit; simp [normalizeOutline] at hit
  | cons first rest =>
    rw [hpl] at hit
    simp only [normalizeOutline] at hit
    have htext : ∃ it0 ∈ first :: rest, it.text = it0.text := by
      rcases List.mem_cons.mp hit with h2 | h2
      · exact ⟨first, List.mem_cons_self _ _, by rw [h2]⟩
      · obtain ⟨it0, hm, he⟩ := normalizeTail_mem_text h2
        exact ⟨it0, List.mem_cons_of_mem _ hm, he⟩
    obtain ⟨it0, hm, he⟩ := htext
    have hg := hparsed it0 (hpl ▸ hm)
    exact ⟨by rw [he]; exact hg.1, by rw [he]; exact hg.2.1, by rw [he]; exact hg.2.2⟩

lemma filterMap_parse_itemLine (items : List OutlineItem)
    (hg : ∀ it ∈ items, GoodItem it) :
    (items.map itemLine).filterMap parseOutlineLine = items := by
  induction items with
  | nil => simp
  | cons a rest ih =>
    have hga := hg a (List.mem_cons_self _ _)
    rw [List.map_cons, List.filterMap_cons, parse_itemLine a hga.1 hga.2.1]
    rw [ih (fun it hit => hg it (List.mem_cons_of_mem _ hit))]

lemma normalizeTail_fix (l : List OutlineItem) :
    ∀ prev, normalizeTail prev (normalizeTail prev l) = normalizeTail prev l := by
  induction l with
  | nil => intro prev; rfl
  | cons a rest ih =>
    intro prev
    simp only [normalizeTail]
    have hd : max 1 (min (max 1 (min a.depth (prev + 1))) (prev + 1))
        = max 1 (min a.depth (prev + 1)) := by omega
    rw [hd, ih]

lemma normalizeOutline_fix (l : List OutlineItem) :
    normalizeOutline (normalizeOutline l) = normalizeOutline l := by
  cases l with
  | nil => rfl
  | cons first rest =>
    simp only [normalizeOutline]
    rw [normalizeTail_fix]

lemma normalize_parseOutlineText (s : Str) :
    normalizeOutline (parseOutlineText s) = parseOutlineText s := by
  unfold parseOutlineText
  exact normalizeOutline_fix _

lemma parse_serialize_parse (s : Str) :
    parseOutlineText (outlineToText (parseOutlineText s)) = parseOutlineText s := by
  cases hit : parseOutlineText s with
  | nil => rfl
  | cons a rest =>
    have hg : ∀ it ∈ parseOutlineText s, GoodItem it := parseOutlineText_good s
    rw [hit] at hg
    have hnl : ∀ l ∈ (a :: rest).map itemLine, ('\n' : Char) ∉ l := by
      intro l hl
      obtain ⟨it, hmem, he⟩ := List.mem_map.mp hl
      rw [← he]
      exact itemLine_no_nl (hg it hmem).2.2
    conv_lhs => rw [outlineToText, parseOutlineText]
    rw [splitNl_joinNl _ hnl (by simp)]
    rw [filterMap_parse_itemLine _ hg]
    rw [← hit, normalize_parseOutlineText]

end RoundTrip

/-- C6: serialization is stable under re-parsing: for every input string,
serializing the parse of the serialized parse equals the first
serialization; moreover parse is the identity on serialized parses, which
gives the round-trip law on the image of parseOutlineText. -/
theorem serialize_parse_stable (s : Str) :
    outlineToText (parseOutlineText (outlineToText (parseOutlineText s))) =
      outlineToText (parseOutlineText s) ∧
    parseOutlineText (outlineToText (parseOutlineText s)) = parseOutlineText s :=
  ⟨congrArg outlineToText (parse_serialize_parse s), parse_serialize_parse s⟩

section GraphModel

/-- MindBranchSide from src/types.ts. -/
inductive Side
  | left
  | right
  | center
deriving DecidableEq

/-- MindNodeModelData from src/types.ts: a display label and an optional
branch side. -/
structure NodeData where
  label : Str
  side : Option Side
deriving DecidableEq

/-- An xyflow position, with rational coordinates standing for JS numbers. -/
structure Pos where
  x : ℚ
  y : ℚ
deriving DecidableEq

/-- An xyflow Node carrying MindNodeModelData. -/
structure MindNode where
  id : Str
  selected : Bool
  position : Pos
  data : NodeData
deriving DecidableEq

/-- An xyflow Edge: identifier plus source and target node ids. -/
structure GEdge where
  id : Str
  source : Str
  target : Str
deriving DecidableEq

/-- The children-map accumulation shared by getChildrenMap (layout.ts) and
the walks of outline.ts and graphOps.ts: one Map entry per source id whose
list collects the edge targets in edge-list order; looking a key up
therefore returns the targets of the edges with that source, in order. -/
def childrenOf (edges : List GEdge) (id : Str) : List Str :=
  (edges.filter (fun e => e.source == id)).map (fun e => e.target)

/-- Whether some edge points at the id (membership in the targets Set). -/
def hasIncoming (edges : List GEdge) (id : Str) : Bool :=
  edges.any (fun e => e.target == id)

/-- getRootId from src/lib/layout.ts and src/lib/graphOps.ts: the first
node without an incoming edge, else the first node, else none. -/
def getRootId (nodes : List MindNode) (edges : List GEdge) : Option Str :=
  match nodes.find? (fun n => !hasIncoming edges n.id) with
  | some n => some n.id
  | none => nodes.head?.map (fun n => n.id)

/-- Lookup in a Map built with new Map(nodes.map(n, [n.id, n])): with
duplicate keys the last insertion wins. -/
def nodeMapGet (nodes : List MindNode) (id : Str) : Option MindNode :=
  nodes.reverse.find? (fun n => n.id == id)

/-- getParentId from src/lib/graphOps.ts: source of the first edge whose
target is the node. -/
def getParentId (nodeId : Str) (edges : List GEdge) : Option Str :=
  (edges.find? (fun e => e.target == nodeId)).map (fun e => e.source)

/-- Decimal digit character. -/
def digitChar (d : Nat) : Char := Char.ofNat (48 + d)

/-- The digit loop of the decimal rendering, structural in a fuel that
bounds the number of digits (the value itself more than suffices). -/
def natDigitsGo : Nat → Nat → Str → Str
  | 0, n, acc => digitChar (n % 10) :: acc
  | fuel+1, n, acc =>
    if n < 10 then digitChar n :: acc
    else natDigitsGo fuel (n / 10) (digitChar (n % 10) :: acc)

/-- Decimal representation of a natural number, as a JS template literal
renders a non-negative integer. -/
def natDigits (n : Nat) : Str := natDigitsGo n n []

end GraphModel

section OutlineWalk

/-- The children.forEach loop of the buildOutline walk, applied to the
recursive continuation for one fuel step less. -/
def walkChildren (f : Str → Nat → Option (List OutlineItem)) :
    List Str → Nat → Option (List OutlineItem)
  | [], _ => some []
  | c :: cs, depth =>
    (f c depth).bind (fun l1 =>
      (walkChildren f cs depth).map (fun l2 => l1 ++ l2))

/-- The recursive walk of buildOutline (src/lib/outline.ts), fuel-indexed:
the source recursion has no visited set and terminates exactly when no
children chain revisits a present node; callers pass fuel exceeding the
depth of every terminating run, so none models a non-terminating run. -/
def walkOutline (nm : Str → Option MindNode) (cm : Str → List Str) :
    Nat → Str → Nat → Option (List OutlineItem)
  | 0, _, _ => none
  | fuel+1, nodeId, depth =>
    match nm nodeId with
    | none => some []
    | some node =>
      (walkChildren (walkOutline nm cm fuel) (cm nodeId) (depth + 1)).map
        (fun rest => { text := node.data.label, depth := depth } :: rest)

/-- The roots.forEach loop of buildOutline, concatenating the walks of
every root (a node without incoming edges) in node-list order. -/
def walkRoots (nm : Str → Option MindNode) (cm : Str → List Str) (fuel : Nat) :
    List MindNode → Option (List OutlineItem)
  | [] => some []
  | r :: rs =>
    (walkOutline nm cm fuel r.id 0).bind (fun l1 =>
      (walkRoots nm cm fuel rs).map (fun l2 => l1 ++ l2))

/-- buildOutline from src/lib/outline.ts. -/
def buildOutline (nodes : List MindNode) (edges : List GEdge) : Option (List OutlineItem) :=
  walkRoots (nodeMapGet nodes) (childrenOf edges) (nodes.length + 2)
    (nodes.filter (fun n => !hasIncoming edges n.id))

end OutlineWalk

section LayoutEngine

/-- Layout constant BASE_X_STEP from src/lib/layout.ts. -/
def BASE_X_STEP : ℚ := 240

/-- Layout constant Y_STEP from src/lib/layout.ts. -/
def Y_STEP : ℚ := 108

/-- Layout constant NODE_SLOT from src/lib/layout.ts (minimum vertical
slot of a subtree). -/
def NODE_SLOT : ℚ := 64

/-- The children.reduce sum of a fueled valuation (used for subtreeSpan
and countSubtree sums). -/
def optSum (f : Str → Option ℚ) : List Str → Option ℚ
  | [] => some 0
  | c :: cs => (f c).bind (fun s1 => (optSum f cs).map (fun s2 => s1 + s2))

/-- subtreeSpan from src/lib/layout.ts, fuel-indexed (the memo map only
caches values of this pure function and is dropped): a leaf spans
NODE_SLOT, an inner node the sum of its children spans plus 12 per gap,
floored at NODE_SLOT. -/
def subtreeSpan (cm : Str → List Str) : Nat → Str → Option ℚ
  | 0, _ => none
  | fuel+1, nodeId =>
    match cm nodeId with
    | [] => some NODE_SLOT
    | children =>
      (optSum (subtreeSpan cm fuel) children).map
        (fun s => max NODE_SLOT (s + ((children.length : ℚ) - 1) * 12))

/-- The children.reduce sum of subtreeSpan values. -/
def spanSum (cm : Str → List Str) (fuel : Nat) : List Str → Option ℚ :=
  optSum (subtreeSpan cm fuel)

/-- Math.max over a fueled valuation of the children (the children list
is nonempty at every use and every depth is at least 1, so folding from 0
agrees with the variadic Math.max of the source). -/
def optMax (f : Str → Option ℚ) : List Str → Option ℚ
  | [] => some 0
  | c :: cs => (f c).bind (fun d1 => (optMax f cs).map (fun d2 => max d1 d2))

/-- getDepth from src/lib/layout.ts, fuel-indexed: 1 for a leaf, else one
more than the maximum child depth. -/
def getDepth (cm : Str → List Str) : Nat → Str → Option ℚ
  | 0, _ => none
  | fuel+1, nodeId =>
    match cm nodeId with
    | [] => some 1
    | children => (optMax (getDepth cm fuel) children).map (fun d => 1 + d)

/-- countSubtree from src/lib/layout.ts, fuel-indexed: the number of nodes
of the child-map subtree. -/
def countSubtree (cm : Str → List Str) : Nat → Str → Option ℚ
  | 0, _ => none
  | fuel+1, nodeId =>
    match cm nodeId with
    | [] => some 1
    | children => (optSum (countSubtree cm fuel) children).map (fun s => 1 + s)

/-- computeXStep from src/lib/layout.ts. -/
def computeXStep (canvasWidth maxDepth rootCenterX : ℚ) (hasLeft hasRight : Bool) : ℚ :=
  let leftSpace := max 180 (rootCenterX - 80)
  let rightSpace := max 180 (canvasWidth - rootCenterX - 80)
  let sideDepth := max 1 (maxDepth - 1)
  if hasLeft && hasRight then
    max 150 (min BASE_X_STEP (min leftSpace rightSpace / sideDepth))
  else if hasLeft then max 150 (min BASE_X_STEP (leftSpace / sideDepth))
  else if hasRight then max 150 (min BASE_X_STEP (rightSpace / sideDepth))
  else BASE_X_STEP

/-- In-place mutation of the node object a JS Map lookup returns: with
duplicate ids the Map holds (and the mutation therefore hits) the last
matching occurrence, so the last entry whose id matches is replaced and
every other entry is untouched. -/
def updateLast (nodes : List MindNode) (id : Str) (f : MindNode → MindNode) :
    List MindNode :=
  match nodes with
  | [] => []
  | n :: rest =>
    if rest.any (fun m => m.id == id) then n :: updateLast rest id f
    else if n.id == id then f n :: rest
    else n :: rest

/-- JS Map.set on an association list: overwrite an existing key in place,
else append. -/
def mapSet (m : List (Str × Side)) (k : Str) (v : Side) : List (Str × Side) :=
  if m.any (fun p => p.1 == k) then m.map (fun p => if p.1 == k then (k, v) else p)
  else m ++ [(k, v)]

/-- JS Map.has on an association list. -/
def mapHas (m : List (Str × Side)) (k : Str) : Bool := m.any (fun p => p.1 == k)

/-- The mutable state threaded through placeSubtree: the copied node array
and the sideByNode map. -/
structure PlaceState where
  nodes : List MindNode
  sideByNode : List (Str × Side)
deriving DecidableEq

/-- The children.forEach loop of placeSubtree, threading the cursor and
the state through the recursive continuation. -/
def placeChildren (cm : Str → List Str) (spanFuel : Nat)
    (f : Str → ℚ → ℚ → PlaceState → Option PlaceState) :
    List Str → ℚ → ℚ → PlaceState → Option PlaceState
  | [], _, _, st => some st
  | c :: cs, parentX, cursor, st =>
    (subtreeSpan cm spanFuel c).bind (fun childSpan =>
      (f c parentX (cursor + childSpan / 2) st).bind
        (fun st2 => placeChildren cm spanFuel f cs parentX
          (cursor + childSpan + 12) st2))

/-- The side a placement direction assigns: left for direction -1, right
otherwise. -/
def dirSide (dir : ℚ) : Side := if dir = -1 then Side.left else Side.right

/-- The two mutations placeSubtree performs on its node: position it at
the given point, tag its side, and record the side in sideByNode. -/
def placeUpd (nodeId : Str) (newX centerY : ℚ) (side : Side) (st : PlaceState) :
    PlaceState :=
  { nodes := updateLast st.nodes nodeId (fun n =>
      { n with position := { x := newX, y := centerY },
               data := { n.data with side := some side } }),
    sideByNode := mapSet st.sideByNode nodeId side }

/-- placeSubtree from src/lib/layout.ts, fuel-indexed: position the node
one x-step from the parent at the given slice center, tag its side from
the direction, then stack the children slices (12 apart) centered on the
node. A missing node id returns the state unchanged, as the source does. -/
def placeSubtree (cm : Str → List Str) (spanFuel : Nat) (xStep dir : ℚ) :
    Nat → Str → ℚ → ℚ → PlaceState → Option PlaceState
  | 0, _, _, _, _ => none
  | fuel+1, nodeId, parentX, centerY, st =>
    match nodeMapGet st.nodes nodeId with
    | none => some st
    | some _ =>
      let newX := parentX + dir * xStep
      let st1 := placeUpd nodeId newX centerY (dirSide dir) st
      match cm nodeId with
      | [] => some st1
      | children =>
        (spanSum cm spanFuel children).bind (fun totalSpan =>
          let totalWithGaps := totalSpan + ((children.length : ℚ) - 1) * 12
          placeChildren cm spanFuel (placeSubtree cm spanFuel xStep dir fuel)
            children newX (centerY - totalWithGaps / 2) st1)

/-- The rootChildren.forEach partition of positionTree: a child tagged
left or right (in the original node array) keeps its side, an untagged
child goes right on even indices and left on odd ones. -/
def partitionSides (nodes : List MindNode) : List (Nat × Str) → List Str × List Str
  | [] => ([], [])
  | (index, childId) :: rest =>
    let lr := partitionSides nodes rest
    let side := (nodeMapGet nodes childId).bind (fun n => n.data.side)
    if side = some Side.left then (childId :: lr.1, lr.2)
    else if side = some Side.right then (lr.1, childId :: lr.2)
    else if index % 2 = 0 then (lr.1, childId :: lr.2)
    else (childId :: lr.1, lr.2)

/-- The branchIds.forEach loop of placeSide, threading the cursor. -/
def placeBranches (cm : Str → List Str) (spanFuel : Nat) (xStep dir : ℚ) (fuel : Nat) :
    List Str → ℚ → ℚ → PlaceState → Option PlaceState
  | [], _, _, st => some st
  | b :: bs, centerX, cursor, st =>
    (subtreeSpan cm spanFuel b).bind (fun span =>
      (placeSubtree cm spanFuel xStep dir fuel b centerX (cursor + span / 2) st).bind
        (fun st2 => placeBranches cm spanFuel xStep dir fuel bs centerX
          (cursor + span + Y_STEP * (0.25 : ℚ)) st2))

/-- placeSide from positionTree in src/lib/layout.ts: center the stacked
branch spans (gap Y_STEP times 0.25) on centerY and place each branch. -/
def placeSide (cm : Str → List Str) (spanFuel : Nat) (xStep dir : ℚ) (fuel : Nat)
    (branchIds : List Str) (centerX centerY : ℚ) (st : PlaceState) : Option PlaceState :=
  match branchIds with
  | [] => some st
  | _ =>
    (spanSum cm spanFuel branchIds).bind (fun totalSpan =>
      let totalWithGaps := totalSpan + ((branchIds.length : ℚ) - 1) * (Y_STEP * (0.25 : ℚ))
      placeBranches cm spanFuel xStep dir fuel branchIds centerX
        (centerY - totalWithGaps / 2) st)

/-- LayoutOptions from src/lib/layout.ts. -/
structure LayoutOptions where
  centerX : ℚ
  centerY : ℚ
  canvasWidth : ℚ
deriving DecidableEq

/-- positionTree from src/lib/layout.ts, fuel-indexed through getDepth,
subtreeSpan and placeSubtree: none models the source blowing the stack on
a cyclic child graph; every acyclic input stays within the supplied fuel.
This auxiliary form also returns the final sideByNode map, whose keys are
the root plus exactly the nodes the placement recursion reached. -/
def positionTreeAux (nodes : List MindNode) (edges : List GEdge)
    (options : Option LayoutOptions) :
    Option (List MindNode × List (Str × Side)) :=
  match getRootId nodes edges with
  | none => some (nodes, [])
  | some rootId =>
    let cm := childrenOf edges
    let canvasWidth := (options.map (fun o => o.canvasWidth)).getD 1200
    let centerX := (options.map (fun o => o.centerX)).getD (canvasWidth / 2)
    let centerY := (options.map (fun o => o.centerY)).getD 380
    match nodeMapGet nodes rootId with
    | none => some (nodes, [])
    | some _ =>
      let nodes1 := updateLast nodes rootId (fun n =>
        { n with position := { x := centerX, y := centerY },
                 data := { n.data with side := some Side.center } })
      let lr := partitionSides nodes (cm rootId).enum
      (getDepth cm (edges.length + 2) rootId).bind (fun maxDepth =>
        let xStep := computeXStep canvasWidth maxDepth centerX (!lr.1.isEmpty) (!lr.2.isEmpty)
        let st0 : PlaceState := { nodes := nodes1, sideByNode := [(rootId, Side.center)] }
        (placeSide cm (edges.length + 2) xStep (-1) (nodes.length + 2) lr.1 centerX centerY st0).bind
          (fun st1 =>
            (placeSide cm (edges.length + 2) xStep 1 (nodes.length + 2) lr.2 centerX centerY st1).map
              (fun st2 =>
                (st2.nodes.map (fun n =>
                  if mapHas st2.sideByNode n.id then n
                  else { n with data := { n.data with
                    side := some (if n.id == rootId then Side.center else Side.right) } }),
                 st2.sideByNode))))

/-- positionTree from src/lib/layout.ts: the returned node array of
positionTreeAux. -/
def positionTree (nodes : List MindNode) (edges : List GEdge)
    (options : Option LayoutOptions) : Option (List MindNode) :=
  (positionTreeAux nodes edges options).map (fun q => q.1)

end LayoutEngine

section Mutations

/-- The non-root branch of chooseRootChildSide: the side of the parent if
it is left, else right (also when the parent is missing or untagged). -/
def parentSideFallback (nodes : List MindNode) (parentId : Str) : Side :=
  match nodes.find? (fun n => n.id == parentId) with
  | some parent => if parent.data.side = some Side.left then Side.left else Side.right
  | none => Side.right

/-- The rootChildren.forEach accumulation of chooseRootChildSide: count
each root child subtree on its preferred side, untagged children
alternating right-then-left by index; returns (left load, right load). -/
def sideLoads (nodes : List MindNode) (cm : Str → List Str) (fuel : Nat) :
    List (Nat × Str) → Option (ℚ × ℚ)
  | [] => some (0, 0)
  | (index, childId) :: rest =>
    (countSubtree cm fuel childId).bind (fun cnt =>
      (sideLoads nodes cm fuel rest).map (fun lr =>
        let preferred := (nodes.find? (fun n => n.id == childId)).bind (fun n => n.data.side)
        let side := if preferred = some Side.left then Side.left
          else if preferred = some Side.right then Side.right
          else if index % 2 = 0 then Side.right else Side.left
        if side = Side.left then (lr.1 + cnt, lr.2) else (lr.1, lr.2 + cnt)))

/-- chooseRootChildSide from src/lib/layout.ts, fuel-indexed through
countSubtree: for a non-root (or missing-root) parent the parent side is
inherited; for the root parent the side is picked by room clamps and then
by the smaller accumulated subtree load, ties going left. -/
def chooseRootChildSide (nodes : List MindNode) (edges : List GEdge) (parentId : Str)
    (canvasWidth rootCenterX : ℚ) : Option Side :=
  match getRootId nodes edges with
  | none => some (parentSideFallback nodes parentId)
  | some rootId =>
    if parentId = rootId then
      (sideLoads nodes (childrenOf edges) (edges.length + 2) (childrenOf edges rootId).enum).map
        (fun loads =>
          let leftRoom := rootCenterX - 120
          let rightRoom := canvasWidth - rootCenterX - 120
          if leftRoom < 170 ∧ rightRoom > leftRoom then Side.right
          else if rightRoom < 170 ∧ leftRoom > rightRoom then Side.left
          else if loads.1 ≤ loads.2 then Side.left else Side.right)
    else some (parentSideFallback nodes parentId)

/-- The parameters of addChildNode from src/lib/graphOps.ts; the
createNodeId callback is modeled by its returned id. -/
structure AddChildParams where
  nodes : List MindNode
  edges : List GEdge
  parentId : Str
  canvasWidth : ℚ
  canvasHeight : ℚ
  newId : Str
deriving DecidableEq

/-- The rootCenterX computation of addChildNode: the x of the root node
when one is found, else half the canvas width. -/
def rootCenterXOf (p : AddChildParams) : ℚ :=
  let rootNode : Option MindNode :=
    match getRootId p.nodes p.edges with
    | some rid => p.nodes.find? (fun n => n.id == rid)
    | none => none
  match rootNode with
  | some rn => rn.position.x
  | none => p.canvasWidth * (0.5 : ℚ)

/-- addChildNode from src/lib/graphOps.ts, fuel-indexed through
chooseRootChildSide: build the new node (selected, placeholder label,
side from the root balancing rule or the parent side), deselect every
other node and append one edge from parentId to the new id. -/
def addChildNode (p : AddChildParams) :
    Option (List MindNode × List GEdge × Str) :=
  let parentNode := p.nodes.find? (fun n => n.id == p.parentId)
  let rootId := getRootId p.nodes p.edges
  let rootCenterX := rootCenterXOf p
  (if some p.parentId = rootId then
      chooseRootChildSide p.nodes p.edges p.parentId p.canvasWidth rootCenterX
    else
      some (if (parentNode.map (fun n => n.data.side)) = some (some Side.left)
        then Side.left else Side.right)).map (fun side =>
    let initialX := (match parentNode with
        | some pn => pn.position.x
        | none => p.canvasWidth * (0.5 : ℚ)) +
      (if side = Side.left then -140 else 140)
    let initialY := match parentNode with
      | some pn => pn.position.y
      | none => p.canvasHeight * (0.5 : ℚ)
    let newNode : MindNode :=
      { id := p.newId, selected := true,
        position := { x := initialX, y := initialY },
        data := { label := "New Topic".toList, side := some side } }
    let nextEdges := p.edges ++
      [{ id := p.parentId ++ '-' :: p.newId, source := p.parentId, target := p.newId }]
    (p.nodes.map (fun n => { n with selected := false }) ++ [newNode], nextEdges, p.newId))

/-- The result record of removeNodeAndAdoptChildren. -/
structure RemoveResult where
  nodes : List MindNode
  edges : List GEdge
  selectedAfterDeleteId : Option Str
deriving DecidableEq

/-- removeNodeAndAdoptChildren from src/lib/graphOps.ts: drop the node and
its incident edges, re-attach its direct children to its former parent
(skipping would-be duplicate edges), and select the former parent (else
the first remaining node, else none). -/
def removeNodeAndAdoptChildren (nodes : List MindNode) (edges : List GEdge)
    (nodeId : Str) : RemoveResult :=
  let parentId := getParentId nodeId edges
  let childIds := (edges.filter (fun e => e.source == nodeId)).map (fun e => e.target)
  let nextNodes := nodes.filter (fun n => !(n.id == nodeId))
  let baseEdges := edges.filter (fun e => !(e.source == nodeId) && !(e.target == nodeId))
  let adoptedEdges := match parentId with
    | none => []
    | some pid =>
      (childIds.filter (fun cid =>
          !(baseEdges.any (fun e => e.source == pid && e.target == cid)))).map
        (fun cid => ({ id := pid ++ '-' :: cid, source := pid, target := cid } : GEdge))
  { nodes := nextNodes, edges := baseEdges ++ adoptedEdges,
    selectedAfterDeleteId := match parentId with
      | some pid => some pid
      | none => nextNodes.head?.map (fun n => n.id) }

end Mutations

section OutlineToGraph

/-- Node id outlineToGraph assigns to the outline item at an index:
the reserved root id for the first item, node-<index> for the rest. -/
def outlineNodeId (index : Nat) : Str :=
  if index = 0 then "root".toList else "node-".toList ++ natDigits index

/-- The nodes outlineToGraph creates before layout: only the first item is
selected, and the provisional position comes from depth and index. -/
def outlineNodes (outline : List OutlineItem) : List MindNode :=
  outline.enum.map (fun p =>
    { id := outlineNodeId p.1,
      selected := p.1 == 0,
      position := { x := (p.2.depth : ℚ) * 280 + 40, y := (p.1 : ℚ) * 105 + 40 },
      data := { label := p.2.text, side := none } })

/-- The stack loop of outlineToGraph: entries with depth at least the
current depth are popped; the remaining top, when present, becomes the
parent of the current node. -/
def outlineEdges : List (Str × Nat) → List (Str × Nat) → List GEdge
  | [], _ => []
  | (id, depth) :: rest, stack =>
    let s1 := stack.dropWhile (fun q => decide (depth ≤ q.2))
    match s1.head? with
    | some parent =>
      { id := parent.1 ++ '-' :: id, source := parent.1, target := id } ::
        outlineEdges rest ((id, depth) :: s1)
    | none => outlineEdges rest ((id, depth) :: s1)

/-- outlineToGraph from src/lib/outline.ts, fuel-indexed through the
positionTree call it makes on the built graph. -/
def outlineToGraph (outline : List OutlineItem) :
    Option (List MindNode × List GEdge) :=
  if outline = [] then
    some ([{ id := "root".toList, selected := true,
             position := { x := 40, y := 40 },
             data := { label := "Central Idea".toList, side := none } }], [])
  else
    let nodes := outlineNodes outline
    let edges := outlineEdges (outline.enum.map (fun p => (outlineNodeId p.1, p.2.depth))) []
    (positionTree nodes edges none).map (fun placed =>
      (placed.map (fun n =>
        { n with position := { x := n.position.x + 40, y := n.position.y + 40 } }), edges))

end OutlineToGraph

section GraphLemmas

lemma getRootId_mem {nodes : List MindNode} {edges : List GEdge} {rid : Str}
    (h : getRootId nodes edges = some rid) : ∃ n ∈ nodes, n.id = rid := by
  unfold getRootId at h
  cases hf : nodes.find? (fun n => !hasIncoming edges n.id) with
  | some n =>
    rw [hf] at h
    exact ⟨n, List.mem_of_find?_eq_some hf, by simpa using h⟩
  | none =>
    rw [hf] at h
    cases nodes with
    | nil => simp at h
    | cons n0 rest =>
      refine ⟨n0, List.mem_cons_self _ _, ?_⟩
      simpa using h

end GraphLemmas

section ClaimC3

/-- C3 amended: for every graph and every parentId that is not the id of
any node in the node list, addChildNode is not a no-op on the edge set:
it still returns normally (no exception) and appends exactly one edge
from the missing parentId to the new node id, leaving the other edges
unchanged; the node list gains the new (selected) node. -/
theorem addChildNode_missing_parent (p : AddChildParams)
    (h : ∀ n ∈ p.nodes, n.id ≠ p.parentId) :
    ∃ r, addChildNode p = some r ∧
      r.2.1 = p.edges ++
        [{ id := p.parentId ++ '-' :: p.newId, source := p.parentId, target := p.newId }] ∧
      r.1.length = p.nodes.length + 1 := by
  have hfind : p.nodes.find? (fun n => n.id == p.parentId) = none := by
    rw [List.find?_eq_none]
    intro n hn
    simpa using h n hn
  have hcond : ¬ (some p.parentId = getRootId p.nodes p.edges) := by
    intro he
    obtain ⟨n, hn, hid⟩ := getRootId_mem he.symm
    exact h n hn hid
  simp only [addChildNode, hfind]
  rw [if_neg hcond]
  refine ⟨_, rfl, ?_, ?_⟩
  · simp
  · simp

/-- The concrete input of the C3 counterexample and witness: a one-node
graph, no edges, and the absent parent id ghost. -/
def ghostParams : AddChildParams :=
  { nodes := [{ id := "root".toList, selected := true,
                position := { x := 40, y := 40 },
                data := { label := "Central Idea".toList, side := none } }],
    edges := [], parentId := "ghost".toList,
    canvasWidth := 1200, canvasHeight := 800, newId := "n1".toList }

/-- C3 counterexample: with the absent parent id ghost, the edge set
addChildNode returns is not the input edge set (which is empty): the
claimed silent no-op on the edge set does not happen. -/
theorem addChildNode_missing_parent_cex :
    (addChildNode ghostParams).map (fun r => r.2.1) =
      some [{ id := "ghost-n1".toList, source := "ghost".toList, target := "n1".toList }] ∧
    (addChildNode ghostParams).map (fun r => r.2.1) ≠ some ghostParams.edges := by
  constructor
  · decide
  · decide

/-- Witness for the amended C3 at the ghost input. -/
theorem addChildNode_missing_parent_witness :
    ∃ r, addChildNode ghostParams = some r ∧
      r.2.1 = ghostParams.edges ++
        [{ id := ghostParams.parentId ++ '-' :: ghostParams.newId,
           source := ghostParams.parentId, target := ghostParams.newId }] ∧
      r.1.length = ghostParams.nodes.length + 1 :=
  addChildNode_missing_parent ghostParams (by decide)

end ClaimC3

section TreeInvariants

/-- The number of incoming edges of an id. -/
def incomingCount (edges : List GEdge) (id : Str) : Nat :=
  (edges.filter (fun e => e.target == id)).length

/-- Bounded-length reachability along the edge relation: reachesIn k a b
holds when some directed path of at most k edges goes from a to b. A
minimal path repeats no node, so on a graph whose edge endpoints all lie
in the node list a bound of the node count loses nothing. -/
def reachesIn (edges : List GEdge) : Nat → Str → Str → Bool
  | 0, a, b => a == b
  | k+1, a, b => a == b || (childrenOf edges a).any (fun c => reachesIn edges k c b)

/-- The tree invariants of the data model (spec section 3): unique node
ids, exactly one root (node without an incoming edge), no node with more
than one incoming edge, every edge endpoint present in the node list, and
every node reachable from the root. -/
def TreeInv (nodes : List MindNode) (edges : List GEdge) : Prop :=
  (nodes.map (fun n => n.id)).Nodup ∧
  (nodes.filter (fun n => !hasIncoming edges n.id)).length = 1 ∧
  (∀ n ∈ nodes, incomingCount edges n.id ≤ 1) ∧
  (∀ e ∈ edges, (∃ n ∈ nodes, n.id = e.source) ∧ (∃ n ∈ nodes, n.id = e.target)) ∧
  (∀ r ∈ nodes.filter (fun n => !hasIncoming edges n.id), ∀ n ∈ nodes,
    reachesIn edges nodes.length r.id n.id = true)

instance (nodes : List MindNode) (edges : List GEdge) : Decidable (TreeInv nodes edges) := by
  unfold TreeInv
  exact inferInstance

lemma length_le_one_eq {α : Type} {l : List α} (h : l.length ≤ 1) {a b : α}
    (ha : a ∈ l) (hb : b ∈ l) : a = b := by
  cases l with
  | nil => simp at ha
  | cons x rest =>
    cases rest with
    | nil =>
      simp only [List.mem_singleton] at ha hb
      rw [ha, hb]
    | cons y t => simp at h

lemma parent_unique {edges : List GEdge} {nodeId p : Str}
    (hcount : incomingCount edges nodeId ≤ 1)
    (hp : getParentId nodeId edges = some p) :
    ∀ e ∈ edges, e.target = nodeId → e.source = p := by
  intro e hmem htgt
  unfold getParentId at hp
  cases hf : edges.find? (fun e2 => e2.target == nodeId) with
  | none => rw [hf] at hp; simp at hp
  | some e0 =>
    rw [hf] at hp
    simp only [Option.map_some', Option.some.injEq] at hp
    have he0mem := List.mem_of_find?_eq_some hf
    have he0tgt : e0.target = nodeId := by
      have := List.find?_some hf
      simpa using this
    have : e = e0 := by
      apply length_le_one_eq hcount
      · exact List.mem_filter.mpr ⟨hmem, by simp [htgt]⟩
      · exact List.mem_filter.mpr ⟨he0mem, by simp [he0tgt]⟩
    rw [this, hp]

lemma filter_ne_length {nodes : List MindNode} {nodeId : Str}
    (hnodup : (nodes.map (fun n => n.id)).Nodup)
    (hmem : ∃ n ∈ nodes, n.id = nodeId) :
    (nodes.filter (fun m => !(m.id == nodeId))).length + 1 = nodes.length := by
  induction nodes with
  | nil => simp at hmem
  | cons a rest ih =>
    rw [List.map_cons, List.nodup_cons] at hnodup
    obtain ⟨n, hn, hid⟩ := hmem
    rcases List.mem_cons.mp hn with rfl | hn2
    · rw [List.filter_cons]
      have hc : (!(n.id == nodeId)) = false := by simp [hid]
      rw [hc]
      have hall : rest.filter (fun m => !(m.id == nodeId)) = rest := by
        rw [List.filter_eq_self]
        intro m hm
        have hne : m.id ≠ nodeId := by
          intro e
          apply hnodup.1
          have hnm : n.id = m.id := by rw [hid, e]
          rw [hnm]
          exact List.mem_map_of_mem _ hm
        simp [hne]
      simp [hall]
    · have hane : a.id ≠ nodeId := by
        intro e
        apply hnodup.1
        rw [e, ← hid]
        exact List.mem_map_of_mem _ hn2
      rw [List.filter_cons]
      have hc : (!(a.id == nodeId)) = true := by simp [hane]
      rw [hc]
      simp only [if_true]
      rw [List.length_cons, List.length_cons]
      rw [← ih hnodup.2 ⟨n, hn2, hid⟩]

end TreeInvariants

section ClaimC7

/-- C7: on a graph satisfying the tree invariants, deleting a present
non-root node (one with an incoming edge) with removeNodeAndAdoptChildren
yields one node fewer; every former direct child of the node gets an
incoming edge from the node's former parent; and the former parent is the
returned selection target. -/
theorem removeNode_adopts (nodes : List MindNode) (edges : List GEdge) (nodeId : Str)
    (hinv : TreeInv nodes edges)
    (hmem : ∃ n ∈ nodes, n.id = nodeId)
    (hnonroot : hasIncoming edges nodeId = true) :
    ∃ p, getParentId nodeId edges = some p ∧
      (removeNodeAndAdoptChildren nodes edges nodeId).nodes.length + 1 = nodes.length ∧
      (∀ e ∈ edges, e.source = nodeId →
        ∃ e2 ∈ (removeNodeAndAdoptChildren nodes edges nodeId).edges,
          e2.source = p ∧ e2.target = e.target) ∧
      (removeNodeAndAdoptChildren nodes edges nodeId).selectedAfterDeleteId = some p := by
  obtain ⟨e0, he0mem, he0tgt⟩ : ∃ e0 ∈ edges, e0.target = nodeId := by
    obtain ⟨e0, hm, hb⟩ := List.any_eq_true.mp hnonroot
    exact ⟨e0, hm, by simpa using hb⟩
  have hpsome : ∃ p, getParentId nodeId edges = some p := by
    unfold getParentId
    have : (edges.find? (fun e2 => e2.target == nodeId)).isSome = true := by
      rw [List.find?_isSome]
      exact ⟨e0, he0mem, by simp [he0tgt]⟩
    obtain ⟨e1, he1⟩ := Option.isSome_iff_exists.mp this
    exact ⟨e1.source, by rw [he1]; rfl⟩
  obtain ⟨p, hp⟩ := hpsome
  refine ⟨p, hp, ?_, ?_, ?_⟩
  · simp only [removeNodeAndAdoptChildren]
    exact filter_ne_length hinv.1 hmem
  · intro e hemem hesrc
    simp only [removeNodeAndAdoptChildren, hp]
    set baseEdges := edges.filter (fun e2 => !(e2.source == nodeId) && !(e2.target == nodeId))
      with hbase
    by_cases hdup : baseEdges.any (fun e2 => e2.source == p && e2.target == e.target) = true
    · obtain ⟨e2, he2mem, hb2⟩ := List.any_eq_true.mp hdup
      refine ⟨e2, List.mem_append_left _ he2mem, ?_, ?_⟩
      · have := (Bool.and_eq_true _ _).mp hb2
        simpa using this.1
      · have := (Bool.and_eq_true _ _).mp hb2
        simpa using this.2
    · refine ⟨{ id := p ++ '-' :: e.target, source := p, target := e.target },
        List.mem_append_right _ ?_, rfl, rfl⟩
      apply List.mem_map_of_mem
      apply List.mem_filter.mpr
      constructor
      · exact List.mem_map_of_mem _ (List.mem_filter.mpr ⟨hemem, by simp [hesrc]⟩)
      · simpa using hdup
  · simp only [removeNodeAndAdoptChildren, hp]

/-- Witness graph for C7: a three-node chain. -/
def chainNodes : List MindNode :=
  [{ id := "root".toList, selected := true, position := { x := 0, y := 0 },
     data := { label := "Root".toList, side := none } },
   { id := "a".toList, selected := false, position := { x := 0, y := 10 },
     data := { label := "A".toList, side := none } },
   { id := "b".toList, selected := false, position := { x := 0, y := 20 },
     data := { label := "B".toList, side := none } }]

/-- Witness edges for C7: root to a, a to b. -/
def chainEdges : List GEdge :=
  [{ id := "root-a".toList, source := "root".toList, target := "a".toList },
   { id := "a-b".toList, source := "a".toList, target := "b".toList }]

/-- Witness for C7: deleting the middle node of the chain. -/
theorem removeNode_adopts_witness :
    ∃ p, getParentId "a".toList chainEdges = some p ∧
      (removeNodeAndAdoptChildren chainNodes chainEdges "a".toList).nodes.length + 1 =
        chainNodes.length ∧
      (∀ e ∈ chainEdges, e.source = "a".toList →
        ∃ e2 ∈ (removeNodeAndAdoptChildren chainNodes chainEdges "a".toList).edges,
          e2.source = p ∧ e2.target = e.target) ∧
      (removeNodeAndAdoptChildren chainNodes chainEdges "a".toList).selectedAfterDeleteId =
        some p :=
  removeNode_adopts chainNodes chainEdges "a".toList (by decide) (by decide) (by decide)

end ClaimC7

section ClaimC1

lemma find?_map_pos {l : List MindNode} {id : Str} {f : MindNode → Pos} :
    (l.map (fun n => { n with position := f n })).find? (fun n => n.id == id) =
      (l.find? (fun n => n.id == id)).map (fun n => { n with position := f n }) := by
  induction l with
  | nil => rfl
  | cons a rest ih =>
    rw [List.map_cons, List.find?_cons, List.find?_cons]
    by_cases hc : (a.id == id) = true
    · simp only [hc, Option.map_some']
    · simp only [Bool.not_eq_true] at hc
      simp only [hc, ih]

lemma nodeMapGet_map_pos (nodes : List MindNode) (id : Str) (f : MindNode → Pos) :
    nodeMapGet (nodes.map (fun n => { n with position := f n })) id =
      (nodeMapGet nodes id).map (fun n => { n with position := f n }) := by
  unfold nodeMapGet
  rw [← List.map_reverse]
  exact find?_map_pos

lemma walkChildren_congr {f1 f2 : Str → Nat → Option (List OutlineItem)}
    (h : ∀ c d, f1 c d = f2 c d) :
    ∀ l d, walkChildren f1 l d = walkChildren f2 l d := by
  intro l
  induction l with
  | nil => intro d; rfl
  | cons c cs ih =>
    intro d
    simp only [walkChildren, h, ih]

lemma walkOutline_map_pos (nodes : List MindNode) (cm : Str → List Str)
    (f : MindNode → Pos) :
    ∀ fuel id d,
      walkOutline (nodeMapGet (nodes.map (fun n => { n with position := f n }))) cm fuel id d =
        walkOutline (nodeMapGet nodes) cm fuel id d := by
  intro fuel
  induction fuel with
  | zero => intro id d; rfl
  | succ k ih =>
    intro id d
    simp only [walkOutline, nodeMapGet_map_pos]
    cases nodeMapGet nodes id with
    | none => rfl
    | some node =>
      simp only [Option.map_some']
      rw [walkChildren_congr ih]

lemma walkRoots_congr {nm1 nm2 : Str → Option MindNode} {cm : Str → List Str} {fuel : Nat}
    (h : ∀ id d, walkOutline nm1 cm fuel id d = walkOutline nm2 cm fuel id d) :
    ∀ roots, walkRoots nm1 cm fuel roots = walkRoots nm2 cm fuel roots := by
  intro roots
  induction roots with
  | nil => rfl
  | cons r rs ih => simp only [walkRoots, h, ih]

lemma walkRoots_map_pos {nm1 nm2 : Str → Option MindNode} {cm : Str → List Str} {fuel : Nat}
    (f : MindNode → Pos)
    (h : ∀ id d, walkOutline nm1 cm fuel id d = walkOutline nm2 cm fuel id d) :
    ∀ roots, walkRoots nm1 cm fuel (roots.map (fun n => { n with position := f n })) =
      walkRoots nm2 cm fuel roots := by
  intro roots
  induction roots with
  | nil => rfl
  | cons r rs ih => simp only [List.map_cons, walkRoots, h, ih]

/-- C1 counterexample graph: a root whose children sit at y 10 (A) and
y 100 (B). -/
def yNodes : List MindNode :=
  [{ id := "root".toList, selected := false, position := { x := 0, y := 0 },
     data := { label := "Root".toList, side := none } },
   { id := "a".toList, selected := false, position := { x := 0, y := 10 },
     data := { label := "A".toList, side := none } },
   { id := "b".toList, selected := false, position := { x := 0, y := 100 },
     data := { label := "B".toList, side := none } }]

/-- The edges of the C1 graph in the order root to A, then root to B. -/
def yEdgesFwd : List GEdge :=
  [{ id := "root-a".toList, source := "root".toList, target := "a".toList },
   { id := "root-b".toList, source := "root".toList, target := "b".toList }]

/-- The same edges listed in the order root to B, then root to A. -/
def yEdgesRev : List GEdge :=
  [{ id := "root-b".toList, source := "root".toList, target := "b".toList },
   { id := "root-a".toList, source := "root".toList, target := "a".toList }]

/-- C1 counterexample: with the edge list reversed, buildOutline emits B
before A even though A sits above B (y 10 versus y 100): the outline is
not in ascending y order and does depend on the edge-list order. -/
theorem buildOutline_not_y_sorted :
    buildOutline yNodes yEdgesRev =
      some [{ text := "Root".toList, depth := 0 }, { text := "B".toList, depth := 1 },
            { text := "A".toList, depth := 1 }] ∧
    buildOutline yNodes yEdgesRev ≠
      some [{ text := "Root".toList, depth := 0 }, { text := "A".toList, depth := 1 },
            { text := "B".toList, depth := 1 }] := by
  constructor
  · decide
  · decide

/-- C1 amended: buildOutline is a pre-order walk whose child order is the
edge-list order and which ignores node positions entirely: re-positioning
every node arbitrarily never changes the outline, and on the example root
with children A (y 10) and B (y 100) the outline is Root, A, B exactly
when the edges are listed as root to A before root to B, and Root, B, A
when the edge list is reversed. -/
theorem buildOutline_edge_order :
    (∀ (nodes : List MindNode) (edges : List GEdge) (f : MindNode → Pos),
      buildOutline (nodes.map (fun n => { n with position := f n })) edges =
        buildOutline nodes edges) ∧
    buildOutline yNodes yEdgesFwd =
      some [{ text := "Root".toList, depth := 0 }, { text := "A".toList, depth := 1 },
            { text := "B".toList, depth := 1 }] ∧
    buildOutline yNodes yEdgesRev =
      some [{ text := "Root".toList, depth := 0 }, { text := "B".toList, depth := 1 },
            { text := "A".toList, depth := 1 }] := by
  refine ⟨?_, by decide, by decide⟩
  intro nodes edges f
  unfold buildOutline
  rw [List.length_map]
  have hfil : (nodes.map (fun n => { n with position := f n })).filter
      (fun n => !hasIncoming edges n.id) =
      (nodes.filter (fun n => !hasIncoming edges n.id)).map
        (fun n => { n with position := f n }) := by
    rw [List.filter_map]
    rfl
  rw [hfil]
  exact walkRoots_map_pos f (walkOutline_map_pos nodes (childrenOf edges) f _) _

end ClaimC1

section ClaimC4

/-- The per-child subtree spans (children.map over subtreeSpan), defined
when every child span is. -/
def spansOf (cm : Str → List Str) (fuel : Nat) : List Str → Option (List ℚ)
  | [] => some []
  | c :: cs =>
    (subtreeSpan cm fuel c).bind (fun s => (spansOf cm fuel cs).map (fun r => s :: r))

/-- The vertical slices the placeChildren cursor loop allots: each child
in turn receives the interval from the cursor to cursor plus its span,
and the cursor then advances past the slice and the gap. -/
def childSlices (gap : ℚ) : ℚ → List ℚ → List (ℚ × ℚ)
  | _, [] => []
  | start, s :: rest => (start, start + s) :: childSlices gap (start + s + gap) rest

lemma subtreeSpan_leaf {cm : Str → List Str} {fuel : Nat} {id : Str}
    (h : cm id = []) : subtreeSpan cm (fuel + 1) id = some NODE_SLOT := by
  rw [subtreeSpan, h]

lemma subtreeSpan_node {cm : Str → List Str} {fuel : Nat} {id : Str} {c : Str} {cs : List Str}
    (h : cm id = c :: cs) :
    subtreeSpan cm (fuel + 1) id = (optSum (subtreeSpan cm fuel) (c :: cs)).map
      (fun s => max NODE_SLOT (s + (((c :: cs).length : ℚ) - 1) * 12)) := by
  rw [subtreeSpan, h]

lemma subtreeSpan_ge {cm : Str → List Str} {fuel : Nat} {id : Str} {s : ℚ}
    (h : subtreeSpan cm fuel id = some s) : NODE_SLOT ≤ s := by
  cases fuel with
  | zero => simp [subtreeSpan] at h
  | succ k =>
    cases hc : cm id with
    | nil =>
      rw [subtreeSpan_leaf hc] at h
      simp only [Option.some.injEq] at h
      rw [← h]
    | cons c cs =>
      rw [subtreeSpan_node hc] at h
      cases ho : optSum (subtreeSpan cm k) (c :: cs) with
      | none => rw [ho] at h; simp at h
      | some t =>
        rw [ho] at h
        simp only [Option.map_some', Option.some.injEq] at h
        rw [← h]
        exact le_max_left _ _

lemma spansOf_ge {cm : Str → List Str} {fuel : Nat} :
    ∀ {children : List Str} {spans : List ℚ},
      spansOf cm fuel children = some spans → ∀ s ∈ spans, NODE_SLOT ≤ s := by
  intro children
  induction children with
  | nil =>
    intro spans h s hs
    simp only [spansOf, Option.some.injEq] at h
    rw [← h] at hs
    simp at hs
  | cons c cs ih =>
    intro spans h s hs
    simp only [spansOf] at h
    cases h1 : subtreeSpan cm fuel c with
    | none => rw [h1] at h; simp at h
    | some s1 =>
      rw [h1] at h
      cases h2 : spansOf cm fuel cs with
      | none => rw [h2] at h; simp at h
      | some rest =>
        rw [h2] at h
        simp only [Option.some_bind, Option.map_some', Option.some.injEq] at h
        rw [← h] at hs
        rcases List.mem_cons.mp hs with rfl | hs2
        · exact subtreeSpan_ge h1
        · exact ih h2 s hs2

lemma childSlices_start_le {gap : ℚ} (hgap : 0 ≤ gap) :
    ∀ {spans : List ℚ}, (∀ s ∈ spans, 0 ≤ s) →
      ∀ (start : ℚ) (j : Nat) (b : ℚ × ℚ),
        (childSlices gap start spans)[j]? = some b → start ≤ b.1 := by
  intro spans
  induction spans with
  | nil => intro _ start j b hb; simp [childSlices] at hb
  | cons s rest ih =>
    intro h start j b hb
    cases j with
    | zero =>
      simp only [childSlices, List.getElem?_cons_zero, Option.some.injEq] at hb
      rw [← hb]
    | succ j2 =>
      simp only [childSlices, List.getElem?_cons_succ] at hb
      have := ih (fun x hx => h x (List.mem_cons_of_mem _ hx)) (start + s + gap) j2 b hb
      have hs : 0 ≤ s := h s (List.mem_cons_self _ _)
      linarith

lemma childSlices_sep :
    ∀ {spans : List ℚ}, (∀ s ∈ spans, 0 ≤ s) →
      ∀ (start : ℚ) (i j : Nat) (a b : ℚ × ℚ), i < j →
        (childSlices 12 start spans)[i]? = some a →
        (childSlices 12 start spans)[j]? = some b → a.2 + 12 ≤ b.1 := by
  intro spans
  induction spans with
  | nil => intro _ start i j a b _ ha; simp [childSlices] at ha
  | cons s rest ih =>
    intro h start i j a b hij ha hb
    obtain ⟨j2, rfl⟩ : ∃ j2, j = j2 + 1 := ⟨j - 1, by omega⟩
    cases i with
    | zero =>
      simp only [childSlices, List.getElem?_cons_zero, Option.some.injEq,
        List.getElem?_cons_succ] at ha hb
      have := childSlices_start_le (by norm_num)
        (fun x hx => h x (List.mem_cons_of_mem _ hx)) (start + s + 12) j2 b hb
      rw [← ha]
      exact this
    | succ i2 =>
      simp only [childSlices, List.getElem?_cons_succ] at ha hb
      exact ih (fun x hx => h x (List.mem_cons_of_mem _ hx)) _ i2 j2 a b (by omega) ha hb

/-- C4: every subtree span is at least NODE_SLOT; a leaf gets exactly
NODE_SLOT; and the vertical slices the placement loop allots to distinct
siblings never overlap: any earlier slice ends at least the 12-unit gap
before a later slice starts, and every slice has positive width. -/
theorem subtreeSpan_sibling_slices :
    (∀ (cm : Str → List Str) (fuel : Nat) (id : Str) (s : ℚ),
      subtreeSpan cm fuel id = some s → NODE_SLOT ≤ s) ∧
    (∀ (cm : Str → List Str) (fuel : Nat) (id : Str),
      cm id = [] → subtreeSpan cm (fuel + 1) id = some NODE_SLOT) ∧
    (∀ (cm : Str → List Str) (fuel : Nat) (children : List Str) (spans : List ℚ)
      (start : ℚ) (i j : Nat) (a b : ℚ × ℚ),
      spansOf cm fuel children = some spans → i < j →
      (childSlices 12 start spans)[i]? = some a →
      (childSlices 12 start spans)[j]? = some b →
      a.2 + 12 ≤ b.1 ∧ a.1 < a.2) := by
  have hpos : ∀ (cm : Str → List Str) (fuel : Nat) (children : List Str) (spans : List ℚ),
      spansOf cm fuel children = some spans → ∀ s ∈ spans, 0 ≤ s := by
    intro cm fuel children spans h s hs
    have := spansOf_ge h s hs
    have h64 : (0 : ℚ) ≤ NODE_SLOT := by norm_num [NODE_SLOT]
    linarith
  refine ⟨fun cm fuel id s h => subtreeSpan_ge h, ?_, ?_⟩
  · intro cm fuel id hleaf
    rw [subtreeSpan, hleaf]
  · intro cm fuel children spans start i j a b hsp hij ha hb
    refine ⟨childSlices_sep (hpos cm fuel children spans hsp) start i j a b hij ha hb, ?_⟩
    -- the i-th slice has width spans[i], at least NODE_SLOT
    have hwidth : ∀ (sp : List ℚ), (∀ s ∈ sp, NODE_SLOT ≤ s) →
        ∀ (st : ℚ) (k : Nat) (c : ℚ × ℚ), (childSlices 12 st sp)[k]? = some c → c.1 < c.2 := by
      intro sp
      induction sp with
      | nil => intro _ st k c hc; simp [childSlices] at hc
      | cons s rest ih =>
        intro hge st k c hc
        cases k with
        | zero =>
          simp only [childSlices, List.getElem?_cons_zero, Option.some.injEq] at hc
          rw [← hc]
          have := hge s (List.mem_cons_self _ _)
          have h64 : (0 : ℚ) < NODE_SLOT := by norm_num [NODE_SLOT]
          simp only []
          linarith
        | succ k2 =>
          simp only [childSlices, List.getElem?_cons_succ] at hc
          exact ih (fun x hx => hge x (List.mem_cons_of_mem _ hx)) _ k2 c hc
    exact hwidth spans (spansOf_ge hsp) start i a ha

end ClaimC4

section ClaimC9

/-- The C9 counterexample input: a bare balanced root (no children yet)
receiving its first child. -/
def bareRootParams : AddChildParams :=
  { nodes := [{ id := "root".toList, selected := true,
                position := { x := 600, y := 380 },
                data := { label := "Root".toList, side := none } }],
    edges := [], parentId := "root".toList, canvasWidth := 1200, canvasHeight := 800,
    newId := "n1".toList }

/-- C9 counterexample: the first child of a bare root would get side
right under the claimed even-to-right alternation rule (index 0 is even),
but addChildNode gives it side left (the load-balancing tie rule). -/
theorem addChildNode_root_side_cex :
    (addChildNode bareRootParams).map
      (fun r => r.1.getLast?.map (fun n => n.data.side)) =
      some (some (some Side.left)) ∧
    (addChildNode bareRootParams).map
      (fun r => r.1.getLast?.map (fun n => n.data.side)) ≠
      some (some (some Side.right)) := by
  constructor
  · decide
  · decide

/-- C9 amended: a non-root parent passes its own left/right tag to the
new node; a root parent gets the side chooseRootChildSide picks (room
clamps, else the smaller accumulated subtree load with ties to the left —
the even-right odd-left alternation only enters there as the default side
of untagged existing root children); in particular the first child of a
bare balanced root goes left, not right. -/
theorem addChildNode_side_rule :
    (∀ (p : AddChildParams) (parent : MindNode),
      p.nodes.find? (fun n => n.id == p.parentId) = some parent →
      some p.parentId ≠ getRootId p.nodes p.edges →
      ∃ r, addChildNode p = some r ∧
        ((parent.data.side = some Side.left →
          r.1.getLast?.map (fun n => n.data.side) = some (some Side.left)) ∧
         (parent.data.side = some Side.right →
          r.1.getLast?.map (fun n => n.data.side) = some (some Side.right)))) ∧
    (∀ (p : AddChildParams) (rid : Str) (side : Side),
      getRootId p.nodes p.edges = some rid → p.parentId = rid →
      chooseRootChildSide p.nodes p.edges p.parentId p.canvasWidth (rootCenterXOf p) =
        some side →
      ∃ r, addChildNode p = some r ∧
        r.1.getLast?.map (fun n => n.data.side) = some (some side)) ∧
    (addChildNode bareRootParams).map
      (fun r => r.1.getLast?.map (fun n => n.data.side)) =
      some (some (some Side.left)) := by
  refine ⟨?_, ?_, by decide⟩
  · intro p parent hfind hnr
    simp only [addChildNode, hfind]
    rw [if_neg hnr]
    refine ⟨_, rfl, ?_, ?_⟩
    · intro hside
      have hcond : (Option.map (fun n => n.data.side)
          (some parent)) = some (some Side.left) := by simp [hside]
      rw [if_pos hcond]
      rw [List.getLast?_concat]
      simp
    · intro hside
      have hcond : ¬ ((Option.map (fun n => n.data.side)
          (some parent)) = some (some Side.left)) := by simp [hside]
      rw [if_neg hcond]
      rw [List.getLast?_concat]
      simp
  · intro p rid side hrid hpid hchoose
    have hcond : some p.parentId = getRootId p.nodes p.edges := by rw [hrid, hpid]
    simp only [addChildNode]
    rw [if_pos hcond, hchoose]
    refine ⟨_, rfl, ?_⟩
    rw [List.getLast?_concat]
    simp

end ClaimC9

section PlacementLemmas

lemma updateLast_map {α : Type} {l : List MindNode} {id : Str} {f : MindNode → MindNode}
    {g : MindNode → α} (hf : ∀ n, g (f n) = g n) :
    (updateLast l id f).map g = l.map g := by
  induction l with
  | nil => rfl
  | cons n rest ih =>
    rw [updateLast]
    by_cases h1 : rest.any (fun m => m.id == id) = true
    · rw [if_pos h1, List.map_cons, List.map_cons, ih]
    · rw [if_neg h1]
      by_cases h2 : (n.id == id) = true
      · rw [if_pos h2, List.map_cons, List.map_cons, hf]
      · rw [if_neg h2]

lemma updateLast_ids {l : List MindNode} {id : Str} {f : MindNode → MindNode}
    (hf : ∀ n, (f n).id = n.id) :
    (updateLast l id f).map (fun n => n.id) = l.map (fun n => n.id) :=
  updateLast_map hf

lemma updateLast_getElem_ne {l : List MindNode} {id : Str} {f : MindNode → MindNode} :
    ∀ {i : Nat} {n : MindNode}, l[i]? = some n → n.id ≠ id →
      (updateLast l id f)[i]? = some n := by
  induction l with
  | nil => intro i n h; simp at h
  | cons a rest ih =>
    intro i n h hne
    rw [updateLast]
    by_cases h1 : rest.any (fun m => m.id == id) = true
    · rw [if_pos h1]
      cases i with
      | zero => simpa using h
      | succ j =>
        simp only [List.getElem?_cons_succ] at h ⊢
        exact ih h hne
    · rw [if_neg h1]
      by_cases h2 : (a.id == id) = true
      · rw [if_pos h2]
        cases i with
        | zero =>
          simp only [List.getElem?_cons_zero, Option.some.injEq] at h
          subst h
          simp only [beq_iff_eq] at h2
          exact absurd h2 hne
        | succ j => simpa using h
      · rw [if_neg h2]
        exact h

lemma updateLast_getElem_eq {l : List MindNode} {id : Str} {f : MindNode → MindNode}
    (hnodup : (l.map (fun n => n.id)).Nodup) :
    ∀ {i : Nat} {n : MindNode}, l[i]? = some n → n.id = id →
      (updateLast l id f)[i]? = some (f n) := by
  induction l with
  | nil => intro i n h; simp at h
  | cons a rest ih =>
    rw [List.map_cons, List.nodup_cons] at hnodup
    intro i n h heq
    rw [updateLast]
    by_cases h1 : rest.any (fun m => m.id == id) = true
    · rw [if_pos h1]
      cases i with
      | zero =>
        simp only [List.getElem?_cons_zero, Option.some.injEq] at h
        subst h
        obtain ⟨m, hm, hmid⟩ := List.any_eq_true.mp h1
        exfalso
        apply hnodup.1
        rw [heq]
        simp only [beq_iff_eq] at hmid
        rw [← hmid]
        exact List.mem_map_of_mem _ hm
      | succ j =>
        simp only [List.getElem?_cons_succ] at h ⊢
        exact ih hnodup.2 h heq
    · rw [if_neg h1]
      cases i with
      | zero =>
        simp only [List.getElem?_cons_zero, Option.some.injEq] at h
        subst h
        have h2 : (a.id == id) = true := by simp [heq]
        rw [if_pos h2]
        simp
      | succ j =>
        exfalso
        simp only [List.getElem?_cons_succ] at h
        have : n ∈ rest := List.getElem?_mem h
        apply absurd _ (fun hh => h1 hh)
        exact List.any_eq_true.mpr ⟨n, this, by simp [heq]⟩

lemma mem_updateLast_cases {l : List MindNode} {id : Str} {f : MindNode → MindNode} {m : MindNode}
    (hnodup : (l.map (fun n => n.id)).Nodup) (hf : ∀ n, (f n).id = n.id)
    (h : m ∈ updateLast l id f) :
    (m.id = id ∧ ∃ n ∈ l, n.id = id ∧ m = f n) ∨ (m.id ≠ id ∧ m ∈ l) := by
  induction l with
  | nil => simp [updateLast] at h
  | cons a rest ih =>
    rw [List.map_cons, List.nodup_cons] at hnodup
    rw [updateLast] at h
    by_cases h1 : rest.any (fun mm => mm.id == id) = true
    · rw [if_pos h1] at h
      rcases List.mem_cons.mp h with rfl | h2
      · right
        refine ⟨?_, List.mem_cons_self _ _⟩
        intro he
        obtain ⟨mm, hmm, hid⟩ := List.any_eq_true.mp h1
        apply hnodup.1
        simp only [beq_iff_eq] at hid
        rw [he, ← hid]
        exact List.mem_map_of_mem _ hmm
      · rcases ih hnodup.2 h2 with ⟨he, n, hn, hnid, hm⟩ | ⟨hne, hm⟩
        · exact Or.inl ⟨he, n, List.mem_cons_of_mem _ hn, hnid, hm⟩
        · exact Or.inr ⟨hne, List.mem_cons_of_mem _ hm⟩
    · rw [if_neg h1] at h
      by_cases h2 : (a.id == id) = true
      · rw [if_pos h2] at h
        simp only [beq_iff_eq] at h2
        rcases List.mem_cons.mp h with rfl | h3
        · exact Or.inl ⟨by rw [hf, h2], a, List.mem_cons_self _ _, h2, rfl⟩
        · right
          refine ⟨?_, List.mem_cons_of_mem _ h3⟩
          intro he
          apply absurd _ (fun hh => h1 hh)
          exact List.any_eq_true.mpr ⟨m, h3, by simp [he]⟩
      · rw [if_neg h2] at h
        simp only [beq_iff_eq] at h2
        rcases List.mem_cons.mp h with rfl | h3
        · exact Or.inr ⟨h2, List.mem_cons_self _ _⟩
        · right
          refine ⟨?_, List.mem_cons_of_mem _ h3⟩
          intro he
          apply absurd _ (fun hh => h1 hh)
          exact List.any_eq_true.mpr ⟨m, h3, by simp [he]⟩

lemma mapHas_mapSet {m : List (Str × Side)} {k j : Str} {v : Side} :
    mapHas (mapSet m k v) j = true ↔ (mapHas m j = true ∨ j = k) := by
  unfold mapSet
  by_cases h1 : m.any (fun p => p.1 == k) = true
  · rw [if_pos h1]
    unfold mapHas
    constructor
    · intro h
      obtain ⟨p, hp, hpj⟩ := List.any_eq_true.mp h
      obtain ⟨q, hq, hqp⟩ := List.mem_map.mp hp
      by_cases h2 : (q.1 == k) = true
      · rw [if_pos h2] at hqp
        right
        rw [← hqp] at hpj
        have hkj : k = j := by simpa using hpj
        exact hkj.symm
      · rw [if_neg h2] at hqp
        left
        exact List.any_eq_true.mpr ⟨q, hq, by rw [hqp]; exact hpj⟩
    · intro h
      rcases h with h | h
      · obtain ⟨p, hp, hpj⟩ := List.any_eq_true.mp h
        by_cases h2 : (p.1 == k) = true
        · refine List.any_eq_true.mpr ⟨(k, v), ?_, ?_⟩
          · exact List.mem_map.mpr ⟨p, hp, by rw [if_pos h2]⟩
          · simp only [beq_iff_eq] at hpj h2 ⊢
            rw [← h2, hpj]
        · refine List.any_eq_true.mpr ⟨p, ?_, hpj⟩
          exact List.mem_map.mpr ⟨p, hp, by rw [if_neg h2]⟩
      · obtain ⟨p, hp, hpk⟩ := List.any_eq_true.mp h1
        refine List.any_eq_true.mpr ⟨(k, v), ?_, by simp [h]⟩
        exact List.mem_map.mpr ⟨p, hp, by rw [if_pos hpk]⟩
  · rw [if_neg h1]
    unfold mapHas
    rw [List.any_append]
    simp only [List.any_cons, List.any_nil, Bool.or_false, Bool.or_eq_true, beq_iff_eq]
    constructor
    · rintro (h | h)
      · exact Or.inl h
      · exact Or.inr h.symm
    · rintro (h | h)
      · exact Or.inl h
      · exact Or.inr h.symm

lemma childrenOf_hasIncoming {edges : List GEdge} {a c : Str}
    (h : c ∈ childrenOf edges a) : hasIncoming edges c = true := by
  unfold childrenOf at h
  obtain ⟨e, he, heq⟩ := List.mem_map.mp h
  exact List.any_eq_true.mpr ⟨e, List.mem_filter.mp he |>.1, by simp [heq]⟩

end PlacementLemmas

section Preservation

/-- The per-node side invariant carried through placement: any node whose
id is in the sideByNode map either is the root entry still tagged center
or carries a left/right tag. -/
def StInv (rootId : Str) (st : PlaceState) : Prop :=
  ∀ n ∈ st.nodes, mapHas st.sideByNode n.id = true →
    (n.id = rootId ∧ n.data.side = some Side.center) ∨
    n.data.side = some Side.left ∨ n.data.side = some Side.right

/-- What one placement step preserves, composable along the recursion:
node ids stay, the sideByNode map only grows, nodes without incoming
edges stay untouched (every recursive call is on an edge target), nodes
whose id is absent from the final map stay untouched, and the side
invariant is carried. -/
def Pres (edges : List GEdge) (rootId : Str) (st st' : PlaceState) : Prop :=
  st'.nodes.map (fun n => n.id) = st.nodes.map (fun n => n.id) ∧
  st'.nodes.map (fun n => n.selected) = st.nodes.map (fun n => n.selected) ∧
  st'.nodes.map (fun n => n.data.label) = st.nodes.map (fun n => n.data.label) ∧
  (∀ k, mapHas st.sideByNode k = true → mapHas st'.sideByNode k = true) ∧
  (∀ (i : Nat) (n : MindNode), st.nodes[i]? = some n → hasIncoming edges n.id = false →
    st'.nodes[i]? = some n) ∧
  (∀ (i : Nat) (n : MindNode), st.nodes[i]? = some n → mapHas st'.sideByNode n.id = false →
    st'.nodes[i]? = some n) ∧
  ((st.nodes.map (fun n => n.id)).Nodup → StInv rootId st → StInv rootId st')

lemma Pres.refl (edges : List GEdge) (rootId : Str) (st : PlaceState) :
    Pres edges rootId st st :=
  ⟨rfl, rfl, rfl, fun _ h => h, fun _ _ h _ => h, fun _ _ h _ => h, fun _ h => h⟩

lemma Pres.trans {edges : List GEdge} {rootId : Str} {st1 st2 st3 : PlaceState}
    (h12 : Pres edges rootId st1 st2) (h23 : Pres edges rootId st2 st3) :
    Pres edges rootId st1 st3 := by
  obtain ⟨a12, s12, t12, b12, c12, d12, e12⟩ := h12
  obtain ⟨a23, s23, t23, b23, c23, d23, e23⟩ := h23
  refine ⟨a23.trans a12, s23.trans s12, t23.trans t12,
    fun k hk => b23 k (b12 k hk), ?_, ?_, ?_⟩
  · intro i n h1 h2
    exact c23 i n (c12 i n h1 h2) h2
  · intro i n h1 h2
    have hmid : mapHas st2.sideByNode n.id = false := by
      cases hm : mapHas st2.sideByNode n.id with
      | false => rfl
      | true => rw [b23 n.id hm] at h2; exact absurd h2 (by simp)
    exact d23 i n (d12 i n h1 hmid) h2
  · intro hnodup hinv
    exact e23 (by rw [a12]; exact hnodup) (e12 hnodup hinv)

lemma placeSubtree_update_pres {edges : List GEdge} {rootId nodeId : Str}
    {st : PlaceState} {newX centerY : ℚ} {side : Side}
    (hside : side = Side.left ∨ side = Side.right)
    (htgt : hasIncoming edges nodeId = true) :
    Pres edges rootId st (placeUpd nodeId newX centerY side st) := by
  unfold placeUpd
  set g : MindNode → MindNode := fun n =>
    { n with position := { x := newX, y := centerY },
             data := { n.data with side := some side } } with hgdef
  have hf : ∀ n, (g n).id = n.id := fun n => rfl
  have hgside : ∀ n, (g n).data.side = some side := fun n => rfl
  refine ⟨updateLast_ids hf, updateLast_map (fun n => rfl),
    updateLast_map (fun n => rfl), ?_, ?_, ?_, ?_⟩
  · intro k hk
    exact mapHas_mapSet.mpr (Or.inl hk)
  · intro i n h1 h2
    apply updateLast_getElem_ne h1
    intro he
    rw [he, htgt] at h2
    exact absurd h2 (by simp)
  · intro i n h1 h2
    apply updateLast_getElem_ne h1
    intro he
    have hhas : mapHas (mapSet st.sideByNode nodeId side) n.id = true :=
      mapHas_mapSet.mpr (Or.inr he)
    rw [hhas] at h2
    exact absurd h2 (by simp)
  · intro hnodup hinv
    intro m hm hhas
    rcases mem_updateLast_cases hnodup hf hm with ⟨hid, n, hn, hnid, rfl⟩ | ⟨hne, hmem⟩
    · right
      rw [hgside]
      rcases hside with rfl | rfl
      · exact Or.inl rfl
      · exact Or.inr rfl
    · rcases mapHas_mapSet.mp hhas with hold | heq
      · exact hinv m hmem hold
      · exact absurd heq hne

lemma placeChildren_pres {edges : List GEdge} {rootId : Str}
    {cm : Str → List Str} {spanFuel : Nat}
    {f : Str → ℚ → ℚ → PlaceState → Option PlaceState}
    (hf : ∀ c px cy st st', f c px cy st = some st' →
      hasIncoming edges c = true → Pres edges rootId st st') :
    ∀ (children : List Str), (∀ c ∈ children, hasIncoming edges c = true) →
      ∀ px cursor st st',
        placeChildren cm spanFuel f children px cursor st = some st' →
        Pres edges rootId st st' := by
  intro children
  induction children with
  | nil =>
    intro _ px cursor st st' h
    simp only [placeChildren, Option.some.injEq] at h
    rw [← h]
    exact Pres.refl edges rootId st
  | cons c cs ih =>
    intro htgt px cursor st st' h
    simp only [placeChildren] at h
    cases h1 : subtreeSpan cm spanFuel c with
    | none => rw [h1] at h; simp at h
    | some span =>
      rw [h1] at h
      simp only [Option.some_bind] at h
      cases h2 : f c px (cursor + span / 2) st with
      | none => rw [h2] at h; simp at h
      | some st2 =>
        rw [h2] at h
        simp only [Option.some_bind] at h
        have p1 := hf c px (cursor + span / 2) st st2 h2 (htgt c (List.mem_cons_self _ _))
        have p2 := ih (fun x hx => htgt x (List.mem_cons_of_mem _ hx)) px
          (cursor + span + 12) st2 st' h
        exact p1.trans p2

lemma placeSubtree_missing {cm : Str → List Str} {spanFuel : Nat} {xStep dir : ℚ}
    {k : Nat} {c : Str} {px cy : ℚ} {st : PlaceState}
    (hg : nodeMapGet st.nodes c = none) :
    placeSubtree cm spanFuel xStep dir (k+1) c px cy st = some st := by
  rw [placeSubtree, hg]

lemma placeSubtree_found_leaf {cm : Str → List Str} {spanFuel : Nat} {xStep dir : ℚ}
    {k : Nat} {c : Str} {px cy : ℚ} {st : PlaceState} {node : MindNode}
    (hg : nodeMapGet st.nodes c = some node) (hc : cm c = []) :
    placeSubtree cm spanFuel xStep dir (k+1) c px cy st =
      some (placeUpd c (px + dir * xStep) cy (dirSide dir) st) := by
  rw [placeSubtree, hg, hc]

lemma placeSubtree_found_node {cm : Str → List Str} {spanFuel : Nat} {xStep dir : ℚ}
    {k : Nat} {c : Str} {px cy : ℚ} {st : PlaceState} {node : MindNode}
    {ch : Str} {chs : List Str}
    (hg : nodeMapGet st.nodes c = some node) (hc : cm c = ch :: chs) :
    placeSubtree cm spanFuel xStep dir (k+1) c px cy st =
      (spanSum cm spanFuel (ch :: chs)).bind (fun totalSpan =>
        placeChildren cm spanFuel (placeSubtree cm spanFuel xStep dir k) (ch :: chs)
          (px + dir * xStep)
          (cy - (totalSpan + (((ch :: chs).length : ℚ) - 1) * 12) / 2)
          (placeUpd c (px + dir * xStep) cy (dirSide dir) st)) := by
  rw [placeSubtree, hg, hc]

lemma placeSubtree_pres {edges : List GEdge} {rootId : Str}
    {spanFuel : Nat} {xStep dir : ℚ} :
    ∀ (fuel : Nat) (c : Str) (px cy : ℚ) (st st' : PlaceState),
      placeSubtree (childrenOf edges) spanFuel xStep dir fuel c px cy st = some st' →
      hasIncoming edges c = true →
      Pres edges rootId st st' := by
  have hside : ∀ d : ℚ, dirSide d = Side.left ∨ dirSide d = Side.right := by
    intro d
    unfold dirSide
    by_cases h : d = -1
    · rw [if_pos h]; exact Or.inl rfl
    · rw [if_neg h]; exact Or.inr rfl
  intro fuel
  induction fuel with
  | zero => intro c px cy st st' h; simp [placeSubtree] at h
  | succ k ih =>
    intro c px cy st st' h htgt
    cases hg : nodeMapGet st.nodes c with
    | none =>
      rw [placeSubtree_missing hg] at h
      simp only [Option.some.injEq] at h
      rw [← h]
      exact Pres.refl edges rootId st
    | some node =>
      cases hc : childrenOf edges c with
      | nil =>
        rw [placeSubtree_found_leaf hg hc] at h
        simp only [Option.some.injEq] at h
        rw [← h]
        exact placeSubtree_update_pres (hside dir) htgt
      | cons ch chs =>
        rw [placeSubtree_found_node hg hc] at h
        cases hsum : spanSum (childrenOf edges) spanFuel (ch :: chs) with
        | none => rw [hsum] at h; simp at h
        | some totalSpan =>
          rw [hsum] at h
          simp only [Option.some_bind] at h
          have hch : ∀ x ∈ ch :: chs, hasIncoming edges x = true := by
            intro x hx
            exact childrenOf_hasIncoming (a := c) (by rw [hc]; exact hx)
          have hrest := placeChildren_pres
            (fun c2 px2 cy2 st2 st2' hcall htgt2 => ih c2 px2 cy2 st2 st2' hcall htgt2)
            (ch :: chs) hch _ _ _ _ h
          exact (placeSubtree_update_pres (hside dir) htgt).trans hrest

end Preservation

section PlaceSidePres

lemma placeBranches_pres {edges : List GEdge} {rootId : Str}
    {spanFuel : Nat} {xStep dir : ℚ} {fuel : Nat} :
    ∀ (branchIds : List Str), (∀ b ∈ branchIds, hasIncoming edges b = true) →
      ∀ cx cursor st st',
        placeBranches (childrenOf edges) spanFuel xStep dir fuel branchIds cx cursor st =
          some st' →
        Pres edges rootId st st' := by
  intro branchIds
  induction branchIds with
  | nil =>
    intro _ cx cursor st st' h
    simp only [placeBranches, Option.some.injEq] at h
    rw [← h]
    exact Pres.refl edges rootId st
  | cons b bs ih =>
    intro htgt cx cursor st st' h
    simp only [placeBranches] at h
    cases h1 : subtreeSpan (childrenOf edges) spanFuel b with
    | none => rw [h1] at h; simp at h
    | some span =>
      rw [h1] at h
      simp only [Option.some_bind] at h
      cases h2 : placeSubtree (childrenOf edges) spanFuel xStep dir fuel b cx
          (cursor + span / 2) st with
      | none => rw [h2] at h; simp at h
      | some st2 =>
        rw [h2] at h
        simp only [Option.some_bind] at h
        have p2 := ih (fun x hx => htgt x (List.mem_cons_of_mem _ hx)) cx
          (cursor + span + Y_STEP * (0.25 : ℚ)) st2 st' h
        exact (placeSubtree_pres fuel b cx (cursor + span / 2) st st2 h2
          (htgt b (List.mem_cons_self _ _))).trans p2

lemma placeSide_pres {edges : List GEdge} (rootId : Str)
    {spanFuel : Nat} {xStep dir : ℚ} {fuel : Nat}
    {branchIds : List Str} (htgt : ∀ b ∈ branchIds, hasIncoming edges b = true)
    {cx cy : ℚ} {st st' : PlaceState}
    (h : placeSide (childrenOf edges) spanFuel xStep dir fuel branchIds cx cy st = some st') :
    Pres edges rootId st st' := by
  cases branchIds with
  | nil =>
    simp only [placeSide, Option.some.injEq] at h
    rw [← h]
    exact Pres.refl edges rootId st
  | cons b bs =>
    simp only [placeSide] at h
    cases h1 : spanSum (childrenOf edges) spanFuel (b :: bs) with
    | none => rw [h1] at h; simp at h
    | some totalSpan =>
      rw [h1] at h
      simp only [Option.some_bind] at h
      exact placeBranches_pres (b :: bs) htgt _ _ _ _ h

lemma partitionSides_mem {nodes : List MindNode} :
    ∀ {l : List (Nat × Str)} {x : Str},
      (x ∈ (partitionSides nodes l).1 ∨ x ∈ (partitionSides nodes l).2) →
      ∃ k, (k, x) ∈ l := by
  intro l
  induction l with
  | nil => intro x h; simp [partitionSides] at h
  | cons p rest ih =>
    intro x h
    obtain ⟨index, childId⟩ := p
    simp only [partitionSides] at h
    set lr := partitionSides nodes rest with hlr
    by_cases h1 : (nodeMapGet nodes childId).bind (fun n => n.data.side) = some Side.left
    · rw [if_pos h1] at h
      rcases h with h | h
      · rcases List.mem_cons.mp h with rfl | h2
        · exact ⟨index, List.mem_cons_self _ _⟩
        · obtain ⟨k, hk⟩ := ih (Or.inl h2)
          exact ⟨k, List.mem_cons_of_mem _ hk⟩
      · obtain ⟨k, hk⟩ := ih (Or.inr h)
        exact ⟨k, List.mem_cons_of_mem _ hk⟩
    · rw [if_neg h1] at h
      by_cases h2 : (nodeMapGet nodes childId).bind (fun n => n.data.side) = some Side.right
      · rw [if_pos h2] at h
        rcases h with h | h
        · obtain ⟨k, hk⟩ := ih (Or.inl h)
          exact ⟨k, List.mem_cons_of_mem _ hk⟩
        · rcases List.mem_cons.mp h with rfl | h3
          · exact ⟨index, List.mem_cons_self _ _⟩
          · obtain ⟨k, hk⟩ := ih (Or.inr h3)
            exact ⟨k, List.mem_cons_of_mem _ hk⟩
      · rw [if_neg h2] at h
        by_cases h3 : index % 2 = 0
        · rw [if_pos h3] at h
          rcases h with h | h
          · obtain ⟨k, hk⟩ := ih (Or.inl h)
            exact ⟨k, List.mem_cons_of_mem _ hk⟩
          · rcases List.mem_cons.mp h with rfl | h4
            · exact ⟨index, List.mem_cons_self _ _⟩
            · obtain ⟨k, hk⟩ := ih (Or.inr h4)
              exact ⟨k, List.mem_cons_of_mem _ hk⟩
        · rw [if_neg h3] at h
          rcases h with h | h
          · rcases List.mem_cons.mp h with rfl | h4
            · exact ⟨index, List.mem_cons_self _ _⟩
            · obtain ⟨k, hk⟩ := ih (Or.inl h4)
              exact ⟨k, List.mem_cons_of_mem _ hk⟩
          · obtain ⟨k, hk⟩ := ih (Or.inr h)
            exact ⟨k, List.mem_cons_of_mem _ hk⟩

lemma mem_enum_snd {α : Type} : ∀ {l : List α} {k : Nat} {x : α}, (k, x) ∈ l.enum → x ∈ l := by
  intro l k x h
  have := List.mem_enum_iff_getElem?.mp h
  exact List.getElem?_mem this

end PlaceSidePres

section ClaimC8

lemma nodeMapGet_isSome {nodes : List MindNode} {rid : Str}
    (h : ∃ n ∈ nodes, n.id = rid) : ∃ m, nodeMapGet nodes rid = some m := by
  unfold nodeMapGet
  obtain ⟨n, hn, hid⟩ := h
  have hsome : (nodes.reverse.find? (fun x => x.id == rid)).isSome = true := by
    rw [List.find?_isSome]
    exact ⟨n, List.mem_reverse.mpr hn, by simp [hid]⟩
  exact Option.isSome_iff_exists.mp hsome

lemma getRootId_no_incoming {nodes : List MindNode} {edges : List GEdge}
    (h : ∃ n ∈ nodes, hasIncoming edges n.id = false) :
    ∃ rid, getRootId nodes edges = some rid ∧ hasIncoming edges rid = false ∧
      ∃ n ∈ nodes, n.id = rid := by
  obtain ⟨n, hn, hfalse⟩ := h
  have hsome : (nodes.find? (fun m => !hasIncoming edges m.id)).isSome = true := by
    rw [List.find?_isSome]
    exact ⟨n, hn, by simp [hfalse]⟩
  obtain ⟨m, hm⟩ := Option.isSome_iff_exists.mp hsome
  refine ⟨m.id, ?_, ?_, m, List.mem_of_find?_eq_some hm, rfl⟩
  · unfold getRootId
    rw [hm]
  · have := List.find?_some hm
    simpa using this

lemma mapHas_single {rid k : Str} {v : Side} :
    mapHas [(rid, v)] k = true ↔ k = rid := by
  unfold mapHas
  simp only [List.any_cons, List.any_nil, Bool.or_false, beq_iff_eq]
  constructor
  · intro h; exact h.symm
  · intro h; exact h.symm

/-- C8 counterexample: on the two-node cycle the placement recursion of
the source never terminates (it overflows the stack), so positionTree
produces no assignment at all; the embedding returns none. -/
theorem positionTree_cycle_cex :
    positionTree
      [{ id := "a".toList, selected := false, position := { x := 0, y := 0 },
         data := { label := "A".toList, side := none } },
       { id := "b".toList, selected := false, position := { x := 0, y := 0 },
         data := { label := "B".toList, side := none } }]
      [{ id := "a-b".toList, source := "a".toList, target := "b".toList },
       { id := "b-a".toList, source := "b".toList, target := "a".toList }]
      none = none := by decide

/-- The root-recentering update positionTree applies to the root node. -/
def rootCenter (centerX centerY : ℚ) (n : MindNode) : MindNode :=
  { n with position := { x := centerX, y := centerY },
           data := { n.data with side := some Side.center } }

/-- The defensive fallback pass of positionTree: a node the recursion
never tagged is given side right (center for the root) in place. -/
def fallbackSide (rootId : Str) (sideByNode : List (Str × Side)) (n : MindNode) : MindNode :=
  if mapHas sideByNode n.id then n
  else { n with data := { n.data with
    side := some (if n.id == rootId then Side.center else Side.right) } }

lemma rootCenter_id (cx cy : ℚ) (n : MindNode) : (rootCenter cx cy n).id = n.id := rfl

lemma fallbackSide_id {rootId : Str} {s : List (Str × Side)} (n : MindNode) :
    (fallbackSide rootId s n).id = n.id := by
  unfold fallbackSide
  by_cases h : mapHas s n.id = true
  · rw [if_pos h]
  · rw [if_neg h]

lemma fallbackSide_sel {rootId : Str} {s : List (Str × Side)} (n : MindNode) :
    (fallbackSide rootId s n).selected = n.selected := by
  unfold fallbackSide
  by_cases h : mapHas s n.id = true
  · rw [if_pos h]
  · rw [if_neg h]

lemma fallbackSide_has {rootId : Str} {s : List (Str × Side)} {n : MindNode}
    (h : mapHas s n.id = true) : fallbackSide rootId s n = n := by
  unfold fallbackSide
  rw [if_pos h]

lemma fallbackSide_miss {rootId : Str} {s : List (Str × Side)} {n : MindNode}
    (h : mapHas s n.id = false) (hne : n.id ≠ rootId) :
    fallbackSide rootId s n =
      { n with data := { n.data with side := some Side.right } } := by
  unfold fallbackSide
  rw [if_neg (by rw [h]; exact Bool.false_ne_true)]
  rw [if_neg (by simp [hne])]

lemma positionTreeAux_found {nodes : List MindNode} {edges : List GEdge}
    {opts : Option LayoutOptions} {rootId : Str} {rnode : MindNode}
    (hr : getRootId nodes edges = some rootId)
    (hrn : nodeMapGet nodes rootId = some rnode) :
    positionTreeAux nodes edges opts =
      (let cm := childrenOf edges
       let canvasWidth := (opts.map (fun o => o.canvasWidth)).getD 1200
       let centerX := (opts.map (fun o => o.centerX)).getD (canvasWidth / 2)
       let centerY := (opts.map (fun o => o.centerY)).getD 380
       let nodes1 := updateLast nodes rootId (rootCenter centerX centerY)
       let lr := partitionSides nodes (cm rootId).enum
       (getDepth cm (edges.length + 2) rootId).bind (fun maxDepth =>
         let xStep := computeXStep canvasWidth maxDepth centerX (!lr.1.isEmpty) (!lr.2.isEmpty)
         let st0 : PlaceState := { nodes := nodes1, sideByNode := [(rootId, Side.center)] }
         (placeSide cm (edges.length + 2) xStep (-1) (nodes.length + 2) lr.1 centerX
             centerY st0).bind
           (fun st1 =>
             (placeSide cm (edges.length + 2) xStep 1 (nodes.length + 2) lr.2 centerX
                 centerY st1).map
               (fun st2 =>
                 (st2.nodes.map (fallbackSide rootId st2.sideByNode),
                  st2.sideByNode))))) := by
  unfold positionTreeAux
  split
  next heq =>
    rw [hr] at heq
    simp at heq
  next x heq =>
    rw [hr] at heq
    injection heq with heq
    subst heq
    split
    next heq2 =>
      rw [hrn] at heq2
      simp at heq2
    next val heq2 =>
      rfl

/-- Reachability from a along the child map in at most k steps through
listed ids only: every node on such a path, endpoints included, is drawn
from the id list. These are exactly the chains the placement recursion
can run through, since a missing id stops it. -/
def preach (I : List Str) (cm : Str → List Str) : Nat → Str → Str → Bool
  | 0, a, b => decide (a ∈ I) && a == b
  | k+1, a, b => decide (a ∈ I) && (a == b || (cm a).any (fun c => preach I cm k c b))

lemma preach_zero {I : List Str} {cm : Str → List Str} {a b : Str}
    (h : preach I cm 0 a b = true) : a ∈ I ∧ a = b := by
  rw [preach] at h
  obtain ⟨h1, h2⟩ := Bool.and_eq_true_iff.mp h
  exact ⟨of_decide_eq_true h1, by simpa using h2⟩

lemma preach_succ {I : List Str} {cm : Str → List Str} {k : Nat} {a b : Str}
    (h : preach I cm (k+1) a b = true) :
    a ∈ I ∧ (a = b ∨ ∃ c ∈ cm a, preach I cm k c b = true) := by
  rw [preach] at h
  obtain ⟨h1, h2⟩ := Bool.and_eq_true_iff.mp h
  refine ⟨of_decide_eq_true h1, ?_⟩
  rcases Bool.or_eq_true_iff.mp h2 with h3 | h3
  · exact Or.inl (by simpa using h3)
  · obtain ⟨c, hc, hr⟩ := List.any_eq_true.mp h3
    exact Or.inr ⟨c, hc, hr⟩

lemma preach_refl {I : List Str} {cm : Str → List Str} {a : Str} (h : a ∈ I) :
    preach I cm 0 a a = true := by
  rw [preach]
  exact Bool.and_eq_true_iff.mpr ⟨decide_eq_true h, by simp⟩

lemma preach_cons {I : List Str} {cm : Str → List Str} {k : Nat} {a c b : Str}
    (ha : a ∈ I) (hc : c ∈ cm a) (h : preach I cm k c b = true) :
    preach I cm (k+1) a b = true := by
  rw [preach]
  refine Bool.and_eq_true_iff.mpr ⟨decide_eq_true ha, ?_⟩
  exact Bool.or_eq_true_iff.mpr (Or.inr (List.any_eq_true.mpr ⟨c, hc, h⟩))

lemma nodeMapGet_some_mem {l : List MindNode} {c : Str} {node : MindNode}
    (hg : nodeMapGet l c = some node) : node.id = c ∧ node ∈ l := by
  unfold nodeMapGet at hg
  refine ⟨by simpa using List.find?_some hg, ?_⟩
  exact List.mem_reverse.mp (List.mem_of_find?_eq_some hg)

lemma placeChildren_ids {cm : Str → List Str} {spanFuel : Nat}
    {f : Str → ℚ → ℚ → PlaceState → Option PlaceState}
    (hf : ∀ c px cy st st', f c px cy st = some st' →
      st'.nodes.map (fun n => n.id) = st.nodes.map (fun n => n.id)) :
    ∀ (l : List Str) (px cur : ℚ) (st st' : PlaceState),
      placeChildren cm spanFuel f l px cur st = some st' →
      st'.nodes.map (fun n => n.id) = st.nodes.map (fun n => n.id) := by
  intro l
  induction l with
  | nil =>
    intro px cur st st' h
    rw [placeChildren] at h
    injection h with h
    rw [← h]
  | cons x xs ih =>
    intro px cur st st' h
    rw [placeChildren] at h
    rw [Option.bind_eq_some] at h
    obtain ⟨sp, hsp, h⟩ := h
    rw [Option.bind_eq_some] at h
    obtain ⟨st2, hst2, h⟩ := h
    rw [ih _ _ _ _ h, hf _ _ _ _ _ hst2]

lemma placeSubtree_ids {cm : Str → List Str} {spanFuel : Nat} {xStep dir : ℚ} :
    ∀ (fuel : Nat) (c : Str) (px cy : ℚ) (st st' : PlaceState),
      placeSubtree cm spanFuel xStep dir fuel c px cy st = some st' →
      st'.nodes.map (fun n => n.id) = st.nodes.map (fun n => n.id) := by
  intro fuel
  induction fuel with
  | zero =>
    intro c px cy st st' h
    rw [placeSubtree] at h
    exact absurd h (by simp)
  | succ k ih =>
    intro c px cy st st' h
    cases hg : nodeMapGet st.nodes c with
    | none =>
      rw [placeSubtree_missing hg] at h
      injection h with h
      rw [← h]
    | some node =>
      cases hc : cm c with
      | nil =>
        rw [placeSubtree_found_leaf hg hc] at h
        injection h with h
        rw [← h]
        exact updateLast_ids (fun n => rfl)
      | cons ch chs =>
        rw [placeSubtree_found_node hg hc] at h
        rw [Option.bind_eq_some] at h
        obtain ⟨tot, htot, h⟩ := h
        rw [placeChildren_ids (fun c2 px2 cy2 s s2 hcall => ih c2 px2 cy2 s s2 hcall)
          _ _ _ _ _ h]
        exact updateLast_ids (fun n => rfl)

lemma placeChildren_untouched {cm : Str → List Str} {spanFuel : Nat}
    {f : Str → ℚ → ℚ → PlaceState → Option PlaceState}
    (hfid : ∀ c px cy st st', f c px cy st = some st' →
      st'.nodes.map (fun n => n.id) = st.nodes.map (fun n => n.id))
    (hf : ∀ c px cy st st', f c px cy st = some st' →
      ∀ (i : Nat) (n : MindNode), st.nodes[i]? = some n →
        (∀ k, preach (st.nodes.map (fun m => m.id)) cm k c n.id = false) →
        st'.nodes[i]? = some n) :
    ∀ (l : List Str) (px cur : ℚ) (st st' : PlaceState),
      placeChildren cm spanFuel f l px cur st = some st' →
      ∀ (i : Nat) (n : MindNode), st.nodes[i]? = some n →
        (∀ x ∈ l, ∀ k, preach (st.nodes.map (fun m => m.id)) cm k x n.id = false) →
        st'.nodes[i]? = some n := by
  intro l
  induction l with
  | nil =>
    intro px cur st st' h i n hi _
    rw [placeChildren] at h
    injection h with h
    rw [← h]
    exact hi
  | cons x xs ih =>
    intro px cur st st' h i n hi hall
    rw [placeChildren] at h
    rw [Option.bind_eq_some] at h
    obtain ⟨sp, hsp, h⟩ := h
    rw [Option.bind_eq_some] at h
    obtain ⟨st2, hst2, h⟩ := h
    have hi2 : st2.nodes[i]? = some n :=
      hf x _ _ _ _ hst2 i n hi (fun k => hall x (List.mem_cons_self _ _) k)
    have hids2 := hfid x _ _ _ _ hst2
    refine ih _ _ _ _ h i n hi2 ?_
    intro y hy k
    rw [hids2]
    exact hall y (List.mem_cons_of_mem _ hy) k

lemma placeSubtree_untouched {cm : Str → List Str} {spanFuel : Nat} {xStep dir : ℚ} :
    ∀ (fuel : Nat) (c : Str) (px cy : ℚ) (st st' : PlaceState),
      placeSubtree cm spanFuel xStep dir fuel c px cy st = some st' →
      ∀ (i : Nat) (n : MindNode), st.nodes[i]? = some n →
        (∀ k, preach (st.nodes.map (fun m => m.id)) cm k c n.id = false) →
        st'.nodes[i]? = some n := by
  intro fuel
  induction fuel with
  | zero =>
    intro c px cy st st' h
    rw [placeSubtree] at h
    exact absurd h (by simp)
  | succ kf ih =>
    intro c px cy st st' h i n hi hnr
    cases hg : nodeMapGet st.nodes c with
    | none =>
      rw [placeSubtree_missing hg] at h
      injection h with h
      rw [← h]
      exact hi
    | some node =>
      have hcin : c ∈ st.nodes.map (fun m => m.id) :=
        List.mem_map.mpr ⟨node, (nodeMapGet_some_mem hg).2, (nodeMapGet_some_mem hg).1⟩
      have hcne : c ≠ n.id := by
        intro he
        subst he
        have h2 : preach (st.nodes.map (fun m => m.id)) cm 0 n.id n.id = true :=
          preach_refl hcin
        rw [hnr 0] at h2
        simp at h2
      cases hc : cm c with
      | nil =>
        rw [placeSubtree_found_leaf hg hc] at h
        injection h with h
        rw [← h]
        exact updateLast_getElem_ne hi (fun he => hcne he.symm)
      | cons ch chs =>
        rw [placeSubtree_found_node hg hc] at h
        rw [Option.bind_eq_some] at h
        obtain ⟨tot, htot, h⟩ := h
        have hupd : (placeUpd c (px + dir * xStep) cy (dirSide dir) st).nodes[i]? =
            some n := updateLast_getElem_ne hi (fun he => hcne he.symm)
        refine placeChildren_untouched
          (fun c2 px2 cy2 s s2 hcall => placeSubtree_ids kf c2 px2 cy2 s s2 hcall)
          (fun c2 px2 cy2 s s2 hcall => ih c2 px2 cy2 s s2 hcall)
          _ _ _ _ _ h i n hupd ?_
        intro x hx k
        have hupids : (placeUpd c (px + dir * xStep) cy (dirSide dir) st).nodes.map
            (fun m => m.id) = st.nodes.map (fun m => m.id) :=
          updateLast_ids (fun m => rfl)
        rw [hupids]
        cases hp : preach (st.nodes.map (fun m => m.id)) cm k x n.id with
        | false => rfl
        | true =>
          exfalso
          have hstep := preach_cons hcin (by rw [hc]; exact hx) hp
          rw [hnr (k+1)] at hstep
          exact absurd hstep (by simp)

lemma placeBranches_untouched {cm : Str → List Str} {spanFuel : Nat} {xStep dir : ℚ}
    {fuel : Nat} :
    ∀ (l : List Str) (cx cur : ℚ) (st st' : PlaceState),
      placeBranches cm spanFuel xStep dir fuel l cx cur st = some st' →
      ∀ (i : Nat) (n : MindNode), st.nodes[i]? = some n →
        (∀ b ∈ l, ∀ k, preach (st.nodes.map (fun m => m.id)) cm k b n.id = false) →
        st'.nodes[i]? = some n := by
  intro l
  induction l with
  | nil =>
    intro cx cur st st' h i n hi _
    rw [placeBranches] at h
    injection h with h
    rw [← h]
    exact hi
  | cons b bs ih =>
    intro cx cur st st' h i n hi hall
    rw [placeBranches] at h
    rw [Option.bind_eq_some] at h
    obtain ⟨sp, hsp, h⟩ := h
    rw [Option.bind_eq_some] at h
    obtain ⟨st2, hst2, h⟩ := h
    have hi2 := placeSubtree_untouched fuel b _ _ _ _ hst2 i n hi
      (fun k => hall b (List.mem_cons_self _ _) k)
    have hids2 := placeSubtree_ids fuel b _ _ _ _ hst2
    refine ih _ _ _ _ h i n hi2 ?_
    intro y hy k
    rw [hids2]
    exact hall y (List.mem_cons_of_mem _ hy) k

lemma placeSide_untouched {cm : Str → List Str} {spanFuel : Nat} {xStep dir : ℚ}
    {fuel : Nat} {branchIds : List Str} {cx cy : ℚ} {st st' : PlaceState}
    (h : placeSide cm spanFuel xStep dir fuel branchIds cx cy st = some st') :
    ∀ (i : Nat) (n : MindNode), st.nodes[i]? = some n →
      (∀ b ∈ branchIds, ∀ k, preach (st.nodes.map (fun m => m.id)) cm k b n.id = false) →
      st'.nodes[i]? = some n := by
  intro i n hi hall
  cases branchIds with
  | nil =>
    have h2 : some st = some st' := h
    injection h2 with h2
    rw [← h2]
    exact hi
  | cons b bs =>
    have h2 : (spanSum cm spanFuel (b :: bs)).bind (fun totalSpan =>
        placeBranches cm spanFuel xStep dir fuel (b :: bs) cx
          (cy - (totalSpan + (((b :: bs).length : ℚ) - 1) * (Y_STEP * (0.25 : ℚ))) / 2) st)
        = some st' := h
    rw [Option.bind_eq_some] at h2
    obtain ⟨tot, htot, h2⟩ := h2
    exact placeBranches_untouched (b :: bs) _ _ _ _ h2 i n hi hall

lemma placeBranches_each {cm : Str → List Str} {spanFuel : Nat} {xStep dir : ℚ}
    {fuel : Nat} :
    ∀ (l : List Str) (cx cur : ℚ) (st st' : PlaceState),
      placeBranches cm spanFuel xStep dir fuel l cx cur st = some st' →
      ∀ b ∈ l, ∃ (px py : ℚ) (s s2 : PlaceState),
        s.nodes.map (fun n => n.id) = st.nodes.map (fun n => n.id) ∧
        placeSubtree cm spanFuel xStep dir fuel b px py s = some s2 := by
  intro l
  induction l with
  | nil =>
    intro cx cur st st' _ b hb
    simp at hb
  | cons y ys ih =>
    intro cx cur st st' h b hb
    rw [placeBranches] at h
    rw [Option.bind_eq_some] at h
    obtain ⟨sp, hsp, h⟩ := h
    rw [Option.bind_eq_some] at h
    obtain ⟨st2, hst2, h⟩ := h
    rcases List.mem_cons.mp hb with rfl | hb2
    · exact ⟨cx, cur + sp / 2, st, st2, rfl, hst2⟩
    · obtain ⟨px, py, s, s2, hsid, hcall⟩ := ih _ _ _ _ h b hb2
      refine ⟨px, py, s, s2, ?_, hcall⟩
      rw [hsid]
      exact placeSubtree_ids fuel y _ _ _ _ hst2

lemma placeSide_each {cm : Str → List Str} {spanFuel : Nat} {xStep dir : ℚ}
    {fuel : Nat} {branchIds : List Str} {cx cy : ℚ} {st st' : PlaceState}
    (h : placeSide cm spanFuel xStep dir fuel branchIds cx cy st = some st') :
    ∀ b ∈ branchIds, ∃ (px py : ℚ) (s s2 : PlaceState),
      s.nodes.map (fun n => n.id) = st.nodes.map (fun n => n.id) ∧
      placeSubtree cm spanFuel xStep dir fuel b px py s = some s2 := by
  intro b hb
  cases branchIds with
  | nil => simp at hb
  | cons y ys =>
    have h2 : (spanSum cm spanFuel (y :: ys)).bind (fun totalSpan =>
        placeBranches cm spanFuel xStep dir fuel (y :: ys) cx
          (cy - (totalSpan + (((y :: ys).length : ℚ) - 1) * (Y_STEP * (0.25 : ℚ))) / 2) st)
        = some st' := h
    rw [Option.bind_eq_some] at h2
    obtain ⟨tot, htot, h2⟩ := h2
    exact placeBranches_each (y :: ys) _ _ _ _ h2 b hb

lemma placeChildren_stuck {cm : Str → List Str} {spanFuel : Nat}
    {f : Str → ℚ → ℚ → PlaceState → Option PlaceState}
    (hfid : ∀ c px cy st st', f c px cy st = some st' →
      st'.nodes.map (fun n => n.id) = st.nodes.map (fun n => n.id))
    {I : List Str} {x : Str}
    (hx : ∀ (px cy : ℚ) (st : PlaceState), st.nodes.map (fun n => n.id) = I →
      f x px cy st = none) :
    ∀ (l : List Str) (px cur : ℚ) (st : PlaceState), x ∈ l →
      st.nodes.map (fun n => n.id) = I →
      placeChildren cm spanFuel f l px cur st = none := by
  intro l
  induction l with
  | nil =>
    intro px cur st hmem
    simp at hmem
  | cons y ys ih =>
    intro px cur st hmem hst
    rw [placeChildren]
    cases hsp : subtreeSpan cm spanFuel y with
    | none => rfl
    | some sp =>
      simp only [Option.some_bind]
      rcases List.mem_cons.mp hmem with rfl | hmem2
      · rw [hx px (cur + sp / 2) st hst]
        rfl
      · cases hcall : f y px (cur + sp / 2) st with
        | none => rfl
        | some st2 =>
          simp only [Option.some_bind]
          refine ih px (cur + sp + 12) st2 hmem2 ?_
          rw [hfid y _ _ _ _ hcall]
          exact hst

/-- On a child graph with a cycle through the chosen root over listed
ids, the placement recursion never terminates: any node that still
reaches the root through listed ids exhausts every amount of fuel, just
as the source recursion overflows the stack. -/
lemma placeSubtree_stuck {cm : Str → List Str} {spanFuel : Nat} {xStep dir : ℚ}
    {I : List Str} {rootId c0 : Str} {k0 : Nat}
    (hc0 : c0 ∈ cm rootId) (hk0 : preach I cm k0 c0 rootId = true) :
    ∀ (fuel : Nat) (c : Str) (k : Nat), preach I cm k c rootId = true →
      ∀ (px cy : ℚ) (st : PlaceState), st.nodes.map (fun n => n.id) = I →
        placeSubtree cm spanFuel xStep dir fuel c px cy st = none := by
  intro fuel
  induction fuel with
  | zero =>
    intro c k hk px cy st hst
    rw [placeSubtree]
  | succ kf ih =>
    intro c k hk px cy st hst
    have hcI : c ∈ I := by
      cases k with
      | zero => exact (preach_zero hk).1
      | succ k2 => exact (preach_succ hk).1
    obtain ⟨node, hg⟩ : ∃ node, nodeMapGet st.nodes c = some node := by
      have hcin : c ∈ st.nodes.map (fun n => n.id) := by
        rw [hst]
        exact hcI
      obtain ⟨m, hm, hmid⟩ := List.mem_map.mp hcin
      exact nodeMapGet_isSome ⟨m, hm, hmid⟩
    obtain ⟨ch, hchmem, k2, hk2⟩ : ∃ ch ∈ cm c, ∃ k2, preach I cm k2 ch rootId = true := by
      cases k with
      | zero =>
        obtain ⟨_, hceq⟩ := preach_zero hk
        rw [hceq]
        exact ⟨c0, hc0, k0, hk0⟩
      | succ k2 =>
        obtain ⟨_, hcase⟩ := preach_succ hk
        rcases hcase with hceq | ⟨ch, hch, hp⟩
        · rw [hceq]
          exact ⟨c0, hc0, k0, hk0⟩
        · exact ⟨ch, hch, k2, hp⟩
    cases hc : cm c with
    | nil =>
      rw [hc] at hchmem
      simp at hchmem
    | cons y ys =>
      rw [placeSubtree_found_node hg hc]
      cases hsum : spanSum cm spanFuel (y :: ys) with
      | none => rfl
      | some tot =>
        simp only [Option.some_bind]
        refine placeChildren_stuck
          (fun c2 px2 cy2 s s2 hcall => placeSubtree_ids kf c2 px2 cy2 s s2 hcall)
          (fun px2 cy2 s hs => ih ch k2 hk2 px2 cy2 s hs)
          (y :: ys) _ _ _ ?_ ?_
        · rw [← hc]
          exact hchmem
        · have hupids : (placeUpd c (px + dir * xStep) cy (dirSide dir) st).nodes.map
              (fun n => n.id) = st.nodes.map (fun n => n.id) :=
            updateLast_ids (fun n => rfl)
          rw [hupids]
          exact hst

/-- The heart of the amended C8, for either root choice: from the
recentered initial state, two successful placeSide passes (left then
right) over children of the root leave a final state whose fallback pass
satisfies the claimed side assignment. The root entry is untouched by
the recursion, because a branch that reached back to the root would sit
on a cycle and exhaust any fuel, contradicting the successful passes. -/
lemma positionTree_sides_core {edges : List GEdge} {nodes : List MindNode}
    {rootId : Str} {spanFuel fuel : Nat} {xStep cX cY : ℚ} {l1 l2 : List Str}
    {st1 st2 : PlaceState}
    (hnodup : (nodes.map (fun n => n.id)).Nodup)
    (hrootmem : ∃ n ∈ nodes, n.id = rootId)
    (hl1 : ∀ b ∈ l1, b ∈ childrenOf edges rootId)
    (hl2 : ∀ b ∈ l2, b ∈ childrenOf edges rootId)
    (hs1 : placeSide (childrenOf edges) spanFuel xStep (-1) fuel l1 cX cY
      { nodes := updateLast nodes rootId (rootCenter cX cY),
        sideByNode := [(rootId, Side.center)] } = some st1)
    (hs2 : placeSide (childrenOf edges) spanFuel xStep 1 fuel l2 cX cY st1 = some st2) :
    (st2.nodes.map (fallbackSide rootId st2.sideByNode)).map (fun n => n.id) =
        nodes.map (fun n => n.id) ∧
    (∀ n ∈ st2.nodes.map (fallbackSide rootId st2.sideByNode), n.id = rootId →
        n.data.side = some Side.center) ∧
    (∀ n ∈ st2.nodes.map (fallbackSide rootId st2.sideByNode), n.id ≠ rootId →
        mapHas st2.sideByNode n.id = true →
        n.data.side = some Side.left ∨ n.data.side = some Side.right) ∧
    (∀ (i : Nat) (n m : MindNode),
        (st2.nodes.map (fallbackSide rootId st2.sideByNode))[i]? = some n →
        nodes[i]? = some m → mapHas st2.sideByNode n.id = false →
        n.data.side = some Side.right ∧ n.position = m.position) := by
  have htgt : ∀ b, (b ∈ l1 ∨ b ∈ l2) → hasIncoming edges b = true := by
    intro b hb
    rcases hb with hb | hb
    · exact childrenOf_hasIncoming (hl1 b hb)
    · exact childrenOf_hasIncoming (hl2 b hb)
  have hpres := (placeSide_pres rootId
      (fun b hb => htgt b (Or.inl hb)) hs1).trans
    (placeSide_pres rootId (fun b hb => htgt b (Or.inr hb)) hs2)
  obtain ⟨hids, hsels, hlabs, hmono, hunreach, hnotin, hinvp⟩ := hpres
  have hrootHas : mapHas st2.sideByNode rootId = true :=
    hmono rootId (mapHas_single.mpr rfl)
  have hupids : (updateLast nodes rootId (rootCenter cX cY)).map (fun n => n.id) =
      nodes.map (fun n => n.id) := updateLast_ids (fun n => rfl)
  have hids2 : st2.nodes.map (fun n => n.id) = nodes.map (fun n => n.id) := by
    rw [hids]
    exact hupids
  have hnodup2 : (st2.nodes.map (fun n => n.id)).Nodup := by
    rw [hids2]
    exact hnodup
  have hinv2 : StInv rootId st2 := by
    apply hinvp
    · show ((updateLast nodes rootId (rootCenter cX cY)).map (fun n => n.id)).Nodup
      rw [hupids]
      exact hnodup
    · intro m hm hhas
      have hmr : m.id = rootId := mapHas_single.mp hhas
      rcases mem_updateLast_cases hnodup (rootCenter_id _ _) hm
        with ⟨_, n1, hn1, hn1id, rfl⟩ | ⟨hne2, _⟩
      · exact Or.inl ⟨hmr, rfl⟩
      · exact absurd hmr hne2
  obtain ⟨r, hrmem, hrid⟩ := hrootmem
  obtain ⟨j, hj⟩ := List.mem_iff_getElem?.mp hrmem
  have hj0 : (updateLast nodes rootId (rootCenter cX cY))[j]? =
      some (rootCenter cX cY r) := updateLast_getElem_eq hnodup hj hrid
  have hrcid : (rootCenter cX cY r).id = rootId := by
    rw [rootCenter_id]
    exact hrid
  have hst1ids : st1.nodes.map (fun n => n.id) = nodes.map (fun n => n.id) := by
    rw [(placeSide_pres rootId (fun b2 hb2 => htgt b2 (Or.inl hb2)) hs1).1]
    exact hupids
  have hnotpre : ∀ b, (b ∈ l1 ∨ b ∈ l2) → ∀ k,
      preach (nodes.map (fun n => n.id)) (childrenOf edges) k b rootId = false := by
    intro b hb k
    cases hp : preach (nodes.map (fun n => n.id)) (childrenOf edges) k b rootId with
    | false => rfl
    | true =>
      exfalso
      have hbcm : b ∈ childrenOf edges rootId := by
        rcases hb with hb | hb
        · exact hl1 b hb
        · exact hl2 b hb
      rcases hb with hb | hb
      · obtain ⟨px, py, s, s2, hsid, hcall⟩ := placeSide_each hs1 b hb
        have hsI : s.nodes.map (fun n => n.id) = nodes.map (fun n => n.id) := by
          rw [hsid]
          exact hupids
        rw [placeSubtree_stuck hbcm hp fuel b k hp px py s hsI] at hcall
        exact absurd hcall (by simp)
      · obtain ⟨px, py, s, s2, hsid, hcall⟩ := placeSide_each hs2 b hb
        have hsI : s.nodes.map (fun n => n.id) = nodes.map (fun n => n.id) := by
          rw [hsid]
          exact hst1ids
        rw [placeSubtree_stuck hbcm hp fuel b k hp px py s hsI] at hcall
        exact absurd hcall (by simp)
  have hst1j : st1.nodes[j]? = some (rootCenter cX cY r) := by
    refine placeSide_untouched hs1 j _ hj0 ?_
    intro b hb k
    show preach ((updateLast nodes rootId (rootCenter cX cY)).map (fun n => n.id))
      (childrenOf edges) k b (rootCenter cX cY r).id = false
    rw [hupids, hrcid]
    exact hnotpre b (Or.inl hb) k
  have hst2j : st2.nodes[j]? = some (rootCenter cX cY r) := by
    refine placeSide_untouched hs2 j _ hst1j ?_
    intro b hb k
    show preach (st1.nodes.map (fun n => n.id))
      (childrenOf edges) k b (rootCenter cX cY r).id = false
    rw [hst1ids, hrcid]
    exact hnotpre b (Or.inr hb) k
  have hj2id : (st2.nodes.map (fun n => n.id))[j]? = some rootId := by
    rw [List.getElem?_map, hst2j, Option.map_some']
    exact congrArg some hrcid
  have huniq : ∀ m2 ∈ st2.nodes, m2.id = rootId → m2.data.side = some Side.center := by
    intro m2 hm2 hm2id
    obtain ⟨i, hi⟩ := List.mem_iff_getElem?.mp hm2
    have hi' : (st2.nodes.map (fun n => n.id))[i]? = some rootId := by
      rw [List.getElem?_map, hi, Option.map_some', hm2id]
    have hlt : i < (st2.nodes.map (fun n => n.id)).length := by
      obtain ⟨h, _⟩ := List.getElem?_eq_some.mp hi'
      exact h
    have hij : i = j := List.getElem?_inj hlt hnodup2 (hi'.trans hj2id.symm)
    rw [hij, hst2j] at hi
    injection hi with hi
    rw [← hi]
    rfl
  refine ⟨?_, ?_, ?_, ?_⟩
  · rw [List.map_map]
    rw [show ((fun n : MindNode => n.id) ∘ fallbackSide rootId st2.sideByNode) =
        (fun n : MindNode => n.id) from funext (fun m => fallbackSide_id m)]
    exact hids2
  · intro n hn hnid
    obtain ⟨m, hm, rfl⟩ := List.mem_map.mp hn
    rw [fallbackSide_id] at hnid
    have hhas : mapHas st2.sideByNode m.id = true := by rw [hnid]; exact hrootHas
    rw [fallbackSide_has hhas]
    exact huniq m hm hnid
  · intro n hn hne hhas
    obtain ⟨m, hm, rfl⟩ := List.mem_map.mp hn
    rw [fallbackSide_id] at hne
    rw [fallbackSide_id] at hhas
    rw [fallbackSide_has hhas]
    rcases hinv2 m hm hhas with ⟨hmid, _⟩ | hlr
    · exact absurd hmid hne
    · exact hlr
  · intro i n m hnsi hni hhasf
    rw [List.getElem?_map] at hnsi
    cases hst2i : st2.nodes[i]? with
    | none =>
      rw [hst2i] at hnsi
      exact absurd hnsi (by simp)
    | some m2 =>
      rw [hst2i, Option.map_some'] at hnsi
      injection hnsi with hnsi
      have hm2id : m2.id = m.id := by
        have h1 : (st2.nodes.map (fun x => x.id))[i]? = some m2.id := by
          rw [List.getElem?_map, hst2i, Option.map_some']
        rw [hids2, List.getElem?_map, hni, Option.map_some'] at h1
        injection h1 with h1
        exact h1.symm
      have hnid2 : n.id = m2.id := by rw [← hnsi]; exact fallbackSide_id m2
      rw [hnid2] at hhasf
      have hner : m2.id ≠ rootId := by
        intro he
        rw [he, hrootHas] at hhasf
        exact Bool.noConfusion hhasf
      have hmne : m.id ≠ rootId := by rw [← hm2id]; exact hner
      have hup : st2.nodes[i]? = some m := by
        apply hnotin i m (updateLast_getElem_ne hni hmne)
        rw [← hm2id]
        exact hhasf
      have hm2m : m2 = m := by
        rw [hup] at hst2i
        injection hst2i with h
        exact h.symm
      subst hm2m
      rw [fallbackSide_miss hhasf hner] at hnsi
      rw [← hnsi]
      exact ⟨rfl, rfl⟩

/-- C8 amended: for every non-empty node list with pairwise-distinct ids,
whenever the placement recursion terminates (positionTreeAux returns a
result; on cyclic inputs it does not, and the source overflows the
stack), positionTree keeps the node ids in place, gives the chosen root
(the first node without incoming edges, else the first node as the
corrupt-input fallback) side center, gives every node the recursion
reached a side left or right, and gives every unreached non-root node
side right without changing its position. -/
theorem positionTree_sides (nodes : List MindNode) (edges : List GEdge)
    (opts : Option LayoutOptions) (ns : List MindNode) (visited : List (Str × Side))
    (hnodup : (nodes.map (fun n => n.id)).Nodup)
    (hne : nodes ≠ [])
    (hsome : positionTreeAux nodes edges opts = some (ns, visited)) :
    ∃ rootId, getRootId nodes edges = some rootId ∧
      ns.map (fun n => n.id) = nodes.map (fun n => n.id) ∧
      (∀ n ∈ ns, n.id = rootId → n.data.side = some Side.center) ∧
      (∀ n ∈ ns, n.id ≠ rootId → mapHas visited n.id = true →
        n.data.side = some Side.left ∨ n.data.side = some Side.right) ∧
      (∀ (i : Nat) (n m : MindNode), ns[i]? = some n → nodes[i]? = some m →
        mapHas visited n.id = false →
        n.data.side = some Side.right ∧ n.position = m.position) := by
  obtain ⟨rootId, hr, hrootmem⟩ : ∃ rid, getRootId nodes edges = some rid ∧
      ∃ n ∈ nodes, n.id = rid := by
    cases hf : nodes.find? (fun n => !hasIncoming edges n.id) with
    | some n =>
      refine ⟨n.id, ?_, n, List.mem_of_find?_eq_some hf, rfl⟩
      unfold getRootId
      rw [hf]
    | none =>
      cases hn : nodes with
      | nil => exact absurd hn hne
      | cons a t =>
        rw [hn] at hf
        refine ⟨a.id, ?_, a, List.mem_cons_self _ _, rfl⟩
        unfold getRootId
        rw [hf]
        rfl
  obtain ⟨rnode, hrn⟩ := nodeMapGet_isSome hrootmem
  refine ⟨rootId, hr, ?_⟩
  rw [positionTreeAux_found hr hrn] at hsome
  simp only [] at hsome
  rw [Option.bind_eq_some] at hsome
  obtain ⟨maxDepth, hd, hsome⟩ := hsome
  rw [Option.bind_eq_some] at hsome
  obtain ⟨st1, hs1, hsome⟩ := hsome
  rw [Option.map_eq_some'] at hsome
  obtain ⟨st2, hs2, hpair⟩ := hsome
  injection hpair with hns hvis
  have hl1 : ∀ b ∈ (partitionSides nodes ((childrenOf edges) rootId).enum).1,
      b ∈ childrenOf edges rootId := by
    intro b hb
    obtain ⟨k, hk⟩ := partitionSides_mem (Or.inl hb)
    exact mem_enum_snd hk
  have hl2 : ∀ b ∈ (partitionSides nodes ((childrenOf edges) rootId).enum).2,
      b ∈ childrenOf edges rootId := by
    intro b hb
    obtain ⟨k, hk⟩ := partitionSides_mem (Or.inr hb)
    exact mem_enum_snd hk
  obtain ⟨c1, c2, c3, c4⟩ := positionTree_sides_core hnodup hrootmem hl1 hl2 hs1 hs2
  refine ⟨?_, ?_, ?_, ?_⟩
  · rw [← hns]
    exact c1
  · intro n hn
    rw [← hns] at hn
    exact c2 n hn
  · intro n hn hne2 hhas
    rw [← hns] at hn
    rw [← hvis] at hhas
    exact c3 n hn hne2 hhas
  · intro i n m hnsi hni hhasf
    rw [← hns] at hnsi
    rw [← hvis] at hhasf
    exact c4 i n m hnsi hni hhasf

def c8Nodes : List MindNode :=
  [{ id := "root".toList, selected := true, position := { x := 0, y := 0 },
     data := { label := "R".toList, side := none } },
   { id := "a".toList, selected := false, position := { x := 5, y := 7 },
     data := { label := "A".toList, side := none } }]

def c8Edges : List GEdge :=
  [{ id := "root-a".toList, source := "root".toList, target := "a".toList }]

def c8Ns : List MindNode :=
  [{ id := "root".toList, selected := true, position := { x := 600, y := 380 },
     data := { label := "R".toList, side := some Side.center } },
   { id := "a".toList, selected := false, position := { x := 840, y := 380 },
     data := { label := "A".toList, side := some Side.right } }]

def c8Vis : List (Str × Side) :=
  [("root".toList, Side.center), ("a".toList, Side.right)]

theorem positionTree_sides_witness :
    ∃ rootId, getRootId c8Nodes c8Edges = some rootId ∧
      c8Ns.map (fun n => n.id) = c8Nodes.map (fun n => n.id) ∧
      (∀ n ∈ c8Ns, n.id = rootId → n.data.side = some Side.center) ∧
      (∀ n ∈ c8Ns, n.id ≠ rootId → mapHas c8Vis n.id = true →
        n.data.side = some Side.left ∨ n.data.side = some Side.right) ∧
      (∀ (i : Nat) (n m : MindNode), c8Ns[i]? = some n → c8Nodes[i]? = some m →
        mapHas c8Vis n.id = false →
        n.data.side = some Side.right ∧ n.position = m.position) :=
  positionTree_sides c8Nodes c8Edges none c8Ns c8Vis (by decide) (by decide) (by decide)

end ClaimC8

section ClaimC10

/-- Decimal value of a digit string, the inverse reading of natDigits. -/
def valOfStr (s : Str) : Nat := s.foldl (fun a c => a * 10 + (c.toNat - 48)) 0

lemma digitChar_toNat {d : Nat} (hd : d < 10) : (digitChar d).toNat = 48 + d := by
  interval_cases d <;> rfl

lemma valOfStr_single (c : Char) : valOfStr [c] = c.toNat - 48 := by
  unfold valOfStr
  simp only [List.foldl_cons, List.foldl_nil, Nat.zero_mul, Nat.zero_add]

lemma valOfStr_append_digit (l : Str) (c : Char) :
    valOfStr (l ++ [c]) = valOfStr l * 10 + (c.toNat - 48) := by
  unfold valOfStr
  rw [List.foldl_append]
  rfl

lemma natDigitsGo_acc : ∀ (fuel n : Nat) (acc : Str),
    natDigitsGo fuel n acc = natDigitsGo fuel n [] ++ acc := by
  intro fuel
  induction fuel with
  | zero => intro n acc; rfl
  | succ k ih =>
    intro n acc
    rw [natDigitsGo, natDigitsGo]
    by_cases h : n < 10
    · rw [if_pos h, if_pos h]
      rfl
    · rw [if_neg h, if_neg h]
      rw [ih (n / 10) (digitChar (n % 10) :: acc), ih (n / 10) [digitChar (n % 10)]]
      rw [List.append_assoc]
      rfl

lemma valOfStr_natDigitsGo : ∀ (fuel n : Nat), (n ≤ fuel ∨ n < 10) →
    valOfStr (natDigitsGo fuel n []) = n := by
  intro fuel
  induction fuel with
  | zero =>
    intro n h
    have hn : n < 10 := by omega
    show valOfStr [digitChar (n % 10)] = n
    rw [valOfStr_single, digitChar_toNat (Nat.mod_lt _ (by omega))]
    omega
  | succ k ih =>
    intro n h
    rw [natDigitsGo]
    by_cases hn : n < 10
    · rw [if_pos hn, valOfStr_single, digitChar_toNat hn]
      omega
    · rw [if_neg hn, natDigitsGo_acc, valOfStr_append_digit]
      rw [ih (n / 10) (by omega), digitChar_toNat (Nat.mod_lt _ (by omega))]
      omega

lemma natDigits_inj {m n : Nat} (h : natDigits m = natDigits n) : m = n := by
  have hm := valOfStr_natDigitsGo m m (Or.inl (Nat.le_refl m))
  have hn := valOfStr_natDigitsGo n n (Or.inl (Nat.le_refl n))
  unfold natDigits at h
  rw [← hm, ← hn, h]

lemma outlineNodeId_inj : ∀ {i j : Nat}, outlineNodeId i = outlineNodeId j → i = j := by
  intro i j h
  unfold outlineNodeId at h
  by_cases hi : i = 0 <;> by_cases hj : j = 0
  · rw [hi, hj]
  · rw [if_pos hi, if_neg hj] at h
    have h2 : ('r' : Char) :: "oot".toList = 'n' :: ("ode-".toList ++ natDigits j) := h
    injection h2 with h3 h4
    exact absurd h3 (by decide)
  · rw [if_neg hi, if_pos hj] at h
    have h2 : ('n' : Char) :: ("ode-".toList ++ natDigits i) = 'r' :: "oot".toList := h
    injection h2 with h3 h4
    exact absurd h3 (by decide)
  · rw [if_neg hi, if_neg hj] at h
    exact natDigits_inj (List.append_cancel_left h)

lemma outlineNodes_ids (outline : List OutlineItem) :
    (outlineNodes outline).map (fun n => n.id) =
      (List.range outline.length).map outlineNodeId := by
  unfold outlineNodes
  rw [List.map_map, ← List.enum_map_fst outline, List.map_map]
  rfl

lemma outlineNodes_sels (outline : List OutlineItem) :
    (outlineNodes outline).map (fun n => n.selected) =
      (List.range outline.length).map (fun k => k == 0) := by
  unfold outlineNodes
  rw [List.map_map, ← List.enum_map_fst outline, List.map_map]
  rfl

lemma mem_of_mem_dropWhile_pair {p : Str × Nat → Bool} {q : Str × Nat}
    {l : List (Str × Nat)} (h : q ∈ l.dropWhile p) : q ∈ l := by
  induction l with
  | nil => simpa [List.dropWhile] using h
  | cons a rest ih =>
    rw [List.dropWhile] at h
    by_cases hp : p a = true
    · rw [hp] at h
      exact List.mem_cons_of_mem _ (ih h)
    · rw [Bool.eq_false_iff.mpr hp] at h
      exact h

lemma getLast?_mem_pair {l : List (Str × Nat)} {q : Str × Nat}
    (h : l.getLast? = some q) : q ∈ l := by
  induction l with
  | nil => simp at h
  | cons a rest ih =>
    cases rest with
    | nil =>
      simp only [List.getLast?_singleton, Option.some.injEq] at h
      rw [h]
      exact List.mem_cons_self _ _
    | cons b t =>
      rw [List.getLast?_cons_cons] at h
      exact List.mem_cons_of_mem _ (ih h)

lemma getLast?_dropWhile_pair {p : Str × Nat → Bool} {l : List (Str × Nat)}
    (h : l.dropWhile p ≠ []) : (l.dropWhile p).getLast? = l.getLast? := by
  conv_rhs => rw [← List.takeWhile_append_dropWhile p l]
  rw [List.getLast?_append_of_ne_nil _ h]

/-- The stack loop of outlineToGraph, processed from position t with a
stack whose bottom entry has depth 0 and whose ids come from earlier
items: every item produces exactly one edge, targeting that item's id and
sourced at the id of an earlier item. -/
lemma outlineEdges_spec :
    ∀ (rest : List OutlineItem) (t : Nat) (S : List (Str × Nat)) (q0 : Str × Nat),
      S.getLast? = some q0 → q0.2 = 0 →
      (∀ q ∈ S, ∃ i, i < t ∧ q.1 = outlineNodeId i) →
      (∀ (k : Nat) (it : OutlineItem), rest[k]? = some it → 1 ≤ it.depth) →
      (outlineEdges ((List.enumFrom t rest).map
          (fun p => (outlineNodeId p.1, p.2.depth))) S).length = rest.length ∧
      (∀ (k : Nat) (e : GEdge), (outlineEdges ((List.enumFrom t rest).map
          (fun p => (outlineNodeId p.1, p.2.depth))) S)[k]? = some e →
        e.target = outlineNodeId (t + k) ∧
          ∃ i, i < t + k ∧ e.source = outlineNodeId i) := by
  intro rest
  induction rest with
  | nil =>
    intro t S q0 _ _ _ _
    refine ⟨rfl, ?_⟩
    intro k e he
    simp [outlineEdges] at he
  | cons it rest ih =>
    intro t S q0 hlast hq0 hSids hdep
    have hd1 : 1 ≤ it.depth := hdep 0 it (by simp)
    have hne : S.dropWhile (fun q => decide (it.depth ≤ q.2)) ≠ [] := by
      intro hnil
      have hall := List.dropWhile_eq_nil_iff.mp hnil
      have hq0mem : q0 ∈ S := getLast?_mem_pair hlast
      have := hall q0 hq0mem
      rw [hq0] at this
      simp at this
      omega
    obtain ⟨parent, s1, hs1⟩ :
        ∃ p s1, S.dropWhile (fun q => decide (it.depth ≤ q.2)) = p :: s1 := by
      cases hs : S.dropWhile (fun q => decide (it.depth ≤ q.2)) with
      | nil => exact absurd hs hne
      | cons p s1 => exact ⟨p, s1, rfl⟩
    have hparent : parent ∈ S :=
      mem_of_mem_dropWhile_pair (by rw [hs1]; exact List.mem_cons_self _ _)
    obtain ⟨ip, hip, hpid⟩ := hSids parent hparent
    have hstep : outlineEdges ((List.enumFrom t (it :: rest)).map
        (fun p => (outlineNodeId p.1, p.2.depth))) S =
        { id := parent.1 ++ '-' :: outlineNodeId t, source := parent.1,
          target := outlineNodeId t } ::
          outlineEdges ((List.enumFrom (t+1) rest).map
            (fun p => (outlineNodeId p.1, p.2.depth)))
            ((outlineNodeId t, it.depth) :: parent :: s1) := by
      show outlineEdges ((outlineNodeId t, it.depth) ::
          (List.enumFrom (t+1) rest).map (fun p => (outlineNodeId p.1, p.2.depth))) S = _
      rw [outlineEdges, hs1]
      rfl
    have hnext := ih (t+1) ((outlineNodeId t, it.depth) :: parent :: s1) q0
      (by
        rw [List.getLast?_cons_cons, ← hs1, getLast?_dropWhile_pair hne, hlast])
      hq0
      (by
        intro q hq
        rcases List.mem_cons.mp hq with rfl | hq2
        · exact ⟨t, by omega, rfl⟩
        · have : q ∈ S := mem_of_mem_dropWhile_pair (by rw [hs1]; exact hq2)
          obtain ⟨i, hi, hqid⟩ := hSids q this
          exact ⟨i, by omega, hqid⟩)
      (fun k it2 hk => hdep (k+1) it2 (by simpa using hk))
    obtain ⟨hlen, hpt⟩ := hnext
    constructor
    · rw [hstep, List.length_cons, hlen, List.length_cons]
    · intro k e he
      rw [hstep] at he
      cases k with
      | zero =>
        simp only [List.getElem?_cons_zero, Option.some.injEq] at he
        subst he
        refine ⟨by simp, ip, by omega, hpid⟩
      | succ k2 =>
        rw [List.getElem?_cons_succ] at he
        obtain ⟨htgt, i, hi, hsrc⟩ := hpt k2 e he
        refine ⟨?_, i, by omega, hsrc⟩
        rw [htgt]
        exact congrArg outlineNodeId (by omega)

/-- The edges outlineToGraph builds for a normalized outline: one per
item after the first, targeting that item's id, sourced at an earlier id. -/
lemma outlineEdges_top (it0 : OutlineItem) (rest : List OutlineItem)
    (h0 : it0.depth = 0)
    (h1 : ∀ (k : Nat) (it : OutlineItem), rest[k]? = some it → 1 ≤ it.depth) :
    (outlineEdges ((it0 :: rest).enum.map
        (fun p => (outlineNodeId p.1, p.2.depth))) []).length = rest.length ∧
    (∀ (k : Nat) (e : GEdge), (outlineEdges ((it0 :: rest).enum.map
        (fun p => (outlineNodeId p.1, p.2.depth))) [])[k]? = some e →
      e.target = outlineNodeId (1 + k) ∧
        ∃ i, i < 1 + k ∧ e.source = outlineNodeId i) := by
  have hstep : outlineEdges ((it0 :: rest).enum.map
      (fun p => (outlineNodeId p.1, p.2.depth))) [] =
      outlineEdges ((List.enumFrom 1 rest).map
        (fun p => (outlineNodeId p.1, p.2.depth))) [(outlineNodeId 0, it0.depth)] := by
    show outlineEdges ((outlineNodeId 0, it0.depth) ::
        (List.enumFrom 1 rest).map (fun p => (outlineNodeId p.1, p.2.depth))) [] = _
    rw [outlineEdges]
    rfl
  rw [hstep, h0]
  exact outlineEdges_spec rest 1 [(outlineNodeId 0, 0)] (outlineNodeId 0, 0) rfl rfl
    (by
      intro q hq
      rcases List.mem_cons.mp hq with rfl | hq2
      · exact ⟨0, by omega, rfl⟩
      · simp at hq2)
    h1

lemma filter_length_one {α : Type} (p : α → Bool) :
    ∀ (E : List α) (k0 : Nat), k0 < E.length →
      (∀ (k : Nat) (e : α), E[k]? = some e → (p e = true ↔ k = k0)) →
      (E.filter p).length = 1 := by
  intro E
  induction E with
  | nil => intro k0 h; simp at h
  | cons a E ih =>
    intro k0 hk0 hp
    rw [List.filter_cons]
    cases k0 with
    | zero =>
      have ha : p a = true := (hp 0 a (by simp)).mpr rfl
      rw [ha]
      have hE : E.filter p = [] := by
        rw [List.filter_eq_nil_iff]
        intro e he hpe
        obtain ⟨k, hk⟩ := List.mem_iff_getElem?.mp he
        have := (hp (k+1) e (by simp [hk])).mp hpe
        omega
      rw [if_pos rfl, hE]
      rfl
    | succ j =>
      have ha : p a = false := by
        cases h : p a with
        | false => rfl
        | true =>
          have := (hp 0 a (by simp)).mp h
          omega
      rw [ha]
      simp only [Bool.false_eq_true, if_false]
      apply ih j (by simpa using hk0)
      intro k e hk
      have hiff := hp (k+1) e (by simp [hk])
      constructor
      · intro hpe
        have := hiff.mp hpe
        omega
      · intro he
        subst he
        exact hiff.mpr rfl

lemma hasIncoming_false_of_no_target {edges : List GEdge} {id : Str}
    (h : ∀ e ∈ edges, e.target ≠ id) : hasIncoming edges id = false := by
  cases hb : hasIncoming edges id with
  | false => rfl
  | true =>
    obtain ⟨e, he, hbeq⟩ := List.any_eq_true.mp hb
    exact absurd (by simpa using hbeq) (h e he)

lemma hasIncoming_true_of_target {edges : List GEdge} {e : GEdge} {id : Str}
    (he : e ∈ edges) (h : e.target = id) : hasIncoming edges id = true :=
  List.any_eq_true.mpr ⟨e, he, by simp [h]⟩

lemma reachesIn_refl (edges : List GEdge) : ∀ (k : Nat) (a : Str),
    reachesIn edges k a a = true := by
  intro k a
  cases k with
  | zero => simp [reachesIn]
  | succ m => simp [reachesIn]

lemma reachesIn_mono (edges : List GEdge) : ∀ (k : Nat) (a b : Str),
    reachesIn edges k a b = true → reachesIn edges (k+1) a b = true := by
  intro k
  induction k with
  | zero =>
    intro a b h
    rw [reachesIn] at h
    rw [reachesIn, h]
    rfl
  | succ m ih =>
    intro a b h
    rw [reachesIn] at h
    rcases Bool.or_eq_true_iff.mp h with h2 | h2
    · rw [reachesIn, h2]
      rfl
    · obtain ⟨c, hc, hr⟩ := List.any_eq_true.mp h2
      rw [reachesIn]
      refine Bool.or_eq_true_iff.mpr (Or.inr ?_)
      exact List.any_eq_true.mpr ⟨c, hc, ih c b hr⟩

lemma reachesIn_snoc (edges : List GEdge) : ∀ (k : Nat) (a b c : Str),
    reachesIn edges k a b = true → c ∈ childrenOf edges b →
    reachesIn edges (k+1) a c = true := by
  intro k
  induction k with
  | zero =>
    intro a b c hab hc
    rw [reachesIn] at hab
    have hab2 : a = b := by simpa using hab
    subst hab2
    rw [reachesIn]
    refine Bool.or_eq_true_iff.mpr (Or.inr ?_)
    exact List.any_eq_true.mpr ⟨c, hc, reachesIn_refl edges 0 c⟩
  | succ m ih =>
    intro a b c hab hc
    rw [reachesIn] at hab
    rcases Bool.or_eq_true_iff.mp hab with h2 | h2
    · have hab2 : a = b := by simpa using h2
      subst hab2
      rw [reachesIn]
      refine Bool.or_eq_true_iff.mpr (Or.inr ?_)
      exact List.any_eq_true.mpr ⟨c, hc, reachesIn_refl edges (m+1) c⟩
    · obtain ⟨c', hc', hr⟩ := List.any_eq_true.mp h2
      rw [reachesIn]
      refine Bool.or_eq_true_iff.mpr (Or.inr ?_)
      exact List.any_eq_true.mpr ⟨c', hc', ih c' b c hr hc⟩

/-- Along the built edges, every item's node is reachable from the first
item's node by following parents, in at most its index many steps. -/
lemma outline_reaches {es : List GEdge}
    (Hpt : ∀ (k : Nat) (e : GEdge), es[k]? = some e →
      e.target = outlineNodeId (1 + k) ∧ ∃ i, i < 1 + k ∧ e.source = outlineNodeId i) :
    ∀ (j : Nat), j < es.length + 1 →
      reachesIn es (j+1) (outlineNodeId 0) (outlineNodeId j) = true := by
  intro j
  induction j using Nat.strong_induction_on with
  | _ j ih =>
    intro hj
    cases hj0 : j with
    | zero => exact reachesIn_refl es 1 (outlineNodeId 0)
    | succ j2 =>
      subst hj0
      have hk : j2 < es.length := by omega
      have he := List.getElem?_eq_getElem hk
      obtain ⟨htgt, i, hi, hsrc⟩ := Hpt j2 es[j2] he
      have htgt2 : es[j2].target = outlineNodeId (j2 + 1) := by
        rw [htgt]
        exact congrArg outlineNodeId (by omega)
      have hchild : outlineNodeId (j2 + 1) ∈ childrenOf es (outlineNodeId i) := by
        unfold childrenOf
        refine List.mem_map.mpr ⟨es[j2], ?_, htgt2⟩
        refine List.mem_filter.mpr ⟨List.getElem?_mem he, by simp [hsrc]⟩
      have hreach := ih i (by omega) (by omega)
      have hstep := reachesIn_snoc es (i+1) (outlineNodeId 0) (outlineNodeId i)
        (outlineNodeId (j2+1)) hreach hchild
      have hmono : ∀ (d : Nat), reachesIn es (i+2+d) (outlineNodeId 0)
          (outlineNodeId (j2+1)) = true := by
        intro d
        induction d with
        | zero => exact hstep
        | succ d2 ihd =>
          have := reachesIn_mono es (i+2+d2) _ _ ihd
          rw [show i+2+(d2+1) = i+2+d2+1 from by omega]
          exact this
      have := hmono (j2 - i)
      rw [show i+2+(j2-i) = j2+1+1 from by omega] at this
      exact this

lemma optSum_suff {f : Str → Option ℚ} :
    ∀ {l : List Str}, (∀ c ∈ l, ∃ v, f c = some v) → ∃ v, optSum f l = some v := by
  intro l
  induction l with
  | nil => intro _; exact ⟨0, rfl⟩
  | cons c cs ih =>
    intro hall
    obtain ⟨v, hv⟩ := hall c (List.mem_cons_self _ _)
    obtain ⟨s, hs⟩ := ih (fun x hx => hall x (List.mem_cons_of_mem _ hx))
    refine ⟨v + s, ?_⟩
    rw [optSum, hv]
    simp only [Option.some_bind]
    rw [hs]
    rfl

lemma optMax_suff {f : Str → Option ℚ} :
    ∀ {l : List Str}, (∀ c ∈ l, ∃ v, f c = some v) → ∃ v, optMax f l = some v := by
  intro l
  induction l with
  | nil => intro _; exact ⟨0, rfl⟩
  | cons c cs ih =>
    intro hall
    obtain ⟨v, hv⟩ := hall c (List.mem_cons_self _ _)
    obtain ⟨s, hs⟩ := ih (fun x hx => hall x (List.mem_cons_of_mem _ hx))
    refine ⟨max v s, ?_⟩
    rw [optMax, hv]
    simp only [Option.some_bind]
    rw [hs]
    rfl

lemma subtreeSpan_suff {cm : Str → List Str} {ρ : Str → Nat}
    (Hcm : ∀ id c, c ∈ cm id → ρ c < ρ id) :
    ∀ (fuel : Nat) (id : Str), ρ id < fuel → ∃ v, subtreeSpan cm fuel id = some v := by
  intro fuel
  induction fuel with
  | zero => intro id h; omega
  | succ k ih =>
    intro id h
    rw [subtreeSpan]
    cases hc : cm id with
    | nil => exact ⟨NODE_SLOT, rfl⟩
    | cons c cs =>
      have hall : ∀ x ∈ c :: cs, ∃ v, subtreeSpan cm k x = some v := by
        intro x hx
        apply ih
        have := Hcm id x (by rw [hc]; exact hx)
        omega
      obtain ⟨s, hs⟩ := optSum_suff hall
      show ∃ v, (optSum (subtreeSpan cm k) (c :: cs)).map
          (fun s2 => max NODE_SLOT (s2 + (((c :: cs).length : ℚ) - 1) * 12)) = some v
      rw [hs]
      exact ⟨_, rfl⟩

lemma getDepth_suff {cm : Str → List Str} {ρ : Str → Nat}
    (Hcm : ∀ id c, c ∈ cm id → ρ c < ρ id) :
    ∀ (fuel : Nat) (id : Str), ρ id < fuel → ∃ v, getDepth cm fuel id = some v := by
  intro fuel
  induction fuel with
  | zero => intro id h; omega
  | succ k ih =>
    intro id h
    rw [getDepth]
    cases hc : cm id with
    | nil => exact ⟨1, rfl⟩
    | cons c cs =>
      have hall : ∀ x ∈ c :: cs, ∃ v, getDepth cm k x = some v := by
        intro x hx
        apply ih
        have := Hcm id x (by rw [hc]; exact hx)
        omega
      obtain ⟨s, hs⟩ := optMax_suff hall
      show ∃ v, (optMax (getDepth cm k) (c :: cs)).map (fun d => 1 + d) = some v
      rw [hs]
      exact ⟨_, rfl⟩

lemma placeChildren_suff {cm : Str → List Str} {spanFuel : Nat}
    {f : Str → ℚ → ℚ → PlaceState → Option PlaceState} :
    ∀ (l : List Str), (∀ c ∈ l, (∃ v, subtreeSpan cm spanFuel c = some v) ∧
      ∀ px cy st, ∃ st', f c px cy st = some st') →
    ∀ px cursor st, ∃ st', placeChildren cm spanFuel f l px cursor st = some st' := by
  intro l
  induction l with
  | nil => intro _ px cursor st; exact ⟨st, rfl⟩
  | cons c cs ih =>
    intro hall px cursor st
    obtain ⟨⟨v, hv⟩, hf⟩ := hall c (List.mem_cons_self _ _)
    obtain ⟨st2, hst2⟩ := hf px (cursor + v / 2) st
    obtain ⟨st3, hst3⟩ := ih (fun x hx => hall x (List.mem_cons_of_mem _ hx)) px
      (cursor + v + 12) st2
    refine ⟨st3, ?_⟩
    rw [placeChildren, hv]
    simp only [Option.some_bind]
    rw [hst2]
    simp only [Option.some_bind]
    exact hst3

lemma placeSubtree_suff {cm : Str → List Str} {ρ : Str → Nat} {spanFuel : Nat}
    {xStep dir : ℚ}
    (Hcm : ∀ id c, c ∈ cm id → ρ c < ρ id) (Hsp : ∀ x, ρ x < spanFuel) :
    ∀ (fuel : Nat) (c : Str), ρ c < fuel → ∀ px cy st,
      ∃ st', placeSubtree cm spanFuel xStep dir fuel c px cy st = some st' := by
  intro fuel
  induction fuel with
  | zero => intro c h; omega
  | succ k ih =>
    intro c h px cy st
    cases hg : nodeMapGet st.nodes c with
    | none => exact ⟨st, by rw [placeSubtree, hg]⟩
    | some node =>
      cases hc : cm c with
      | nil => exact ⟨_, placeSubtree_found_leaf hg hc⟩
      | cons ch chs =>
        have hall : ∀ x ∈ ch :: chs, (∃ v, subtreeSpan cm spanFuel x = some v) ∧
            ∀ px2 cy2 st2, ∃ st2', placeSubtree cm spanFuel xStep dir k x px2 cy2 st2
              = some st2' := by
          intro x hx
          have hlt : ρ x < ρ c := Hcm c x (by rw [hc]; exact hx)
          exact ⟨subtreeSpan_suff Hcm spanFuel x (Hsp x),
            fun px2 cy2 st2 => ih x (by omega) px2 cy2 st2⟩
        obtain ⟨tot, htot⟩ := optSum_suff (fun x hx => (hall x hx).1)
        have htot2 : spanSum cm spanFuel (ch :: chs) = some tot := htot
        rw [placeSubtree_found_node hg hc, htot2]
        simp only [Option.some_bind]
        exact placeChildren_suff (ch :: chs) hall _ _ _

lemma placeBranches_suff {cm : Str → List Str} {ρ : Str → Nat} {spanFuel : Nat}
    {xStep dir : ℚ} {fuel : Nat}
    (Hcm : ∀ id c, c ∈ cm id → ρ c < ρ id) (Hsp : ∀ x, ρ x < spanFuel) :
    ∀ (l : List Str), (∀ b ∈ l, ρ b < fuel) → ∀ cx cursor st,
      ∃ st', placeBranches cm spanFuel xStep dir fuel l cx cursor st = some st' := by
  intro l
  induction l with
  | nil => intro _ cx cursor st; exact ⟨st, rfl⟩
  | cons b bs ih =>
    intro hall cx cursor st
    obtain ⟨v, hv⟩ := subtreeSpan_suff Hcm spanFuel b (Hsp b)
    obtain ⟨st2, hst2⟩ := placeSubtree_suff Hcm Hsp fuel b
      (hall b (List.mem_cons_self _ _)) cx (cursor + v / 2) st
    obtain ⟨st3, hst3⟩ := ih (fun x hx => hall x (List.mem_cons_of_mem _ hx)) cx
      (cursor + v + Y_STEP * (0.25 : ℚ)) st2
    refine ⟨st3, ?_⟩
    rw [placeBranches, hv]
    simp only [Option.some_bind]
    rw [hst2]
    simp only [Option.some_bind]
    exact hst3

lemma placeSide_suff {cm : Str → List Str} {ρ : Str → Nat} {spanFuel : Nat}
    {xStep dir : ℚ} {fuel : Nat}
    (Hcm : ∀ id c, c ∈ cm id → ρ c < ρ id) (Hsp : ∀ x, ρ x < spanFuel)
    (branchIds : List Str) (Hb : ∀ b ∈ branchIds, ρ b < fuel) (cx cy : ℚ)
    (st : PlaceState) :
    ∃ st', placeSide cm spanFuel xStep dir fuel branchIds cx cy st = some st' := by
  cases branchIds with
  | nil => exact ⟨st, rfl⟩
  | cons b bs =>
    have hall : ∀ x ∈ b :: bs, ∃ v, subtreeSpan cm spanFuel x = some v :=
      fun x _ => subtreeSpan_suff Hcm spanFuel x (Hsp x)
    obtain ⟨tot, htot⟩ := optSum_suff hall
    have htot2 : spanSum cm spanFuel (b :: bs) = some tot := htot
    show ∃ st', (spanSum cm spanFuel (b :: bs)).bind (fun totalSpan =>
      placeBranches cm spanFuel xStep dir fuel (b :: bs) cx
        (cy - (totalSpan + (((b :: bs).length : ℚ) - 1) * (Y_STEP * (0.25 : ℚ))) / 2) st)
      = some st'
    rw [htot2]
    simp only [Option.some_bind]
    exact placeBranches_suff Hcm Hsp (b :: bs) Hb cx _ st

/-- The largest index at or below the bound whose outlineNodeId is the
given string, zero when there is none. -/
def idIndex (s : Str) : Nat → Nat
  | 0 => 0
  | i + 1 => if s = outlineNodeId (i + 1) then i + 1 else idIndex s i

lemma idIndex_spec : ∀ {m j : Nat}, j ≤ m → idIndex (outlineNodeId j) m = j := by
  intro m
  induction m with
  | zero =>
    intro j hj
    have : j = 0 := by omega
    subst this
    rfl
  | succ k ih =>
    intro j hj
    rw [idIndex]
    by_cases he : j = k + 1
    · subst he
      rw [if_pos rfl]
    · have hne : outlineNodeId j ≠ outlineNodeId (k+1) :=
        fun hcon => he (outlineNodeId_inj hcon)
      rw [if_neg hne]
      exact ih (by omega)

lemma reachesIn_add (edges : List GEdge) : ∀ (d k : Nat) (a b : Str),
    reachesIn edges k a b = true → reachesIn edges (k + d) a b = true := by
  intro d
  induction d with
  | zero => intro k a b h; exact h
  | succ d2 ih =>
    intro k a b h
    rw [show k + (d2 + 1) = k + d2 + 1 from by omega]
    exact reachesIn_mono edges (k + d2) a b (ih k a b h)

lemma bind_isSome_gen {α β : Type} {X : Option α} {f : α → Option β}
    (hX : ∃ x, X = some x) (hf : ∀ x, ∃ p, f x = some p) : ∃ p, X.bind f = some p := by
  obtain ⟨x, hx⟩ := hX
  obtain ⟨p, hp⟩ := hf x
  refine ⟨p, ?_⟩
  rw [hx]
  simpa using hp

lemma map_isSome_gen {α β : Type} {X : Option α} {g : α → β}
    (hX : ∃ x, X = some x) : ∃ p, X.map g = some p := by
  obtain ⟨x, hx⟩ := hX
  exact ⟨g x, by rw [hx]; rfl⟩

lemma map_proj_comp {β : Type} (l : List MindNode) (g : MindNode → MindNode)
    (proj : MindNode → β) (h : ∀ n, proj (g n) = proj n) :
    (l.map g).map proj = l.map proj := by
  rw [List.map_map]
  exact List.map_congr_left (fun n _ => h n)

lemma outlineNodes_getElem (outline : List OutlineItem) (k : Nat) (it : OutlineItem)
    (h : outline[k]? = some it) :
    (outlineNodes outline)[k]? = some
      { id := outlineNodeId k, selected := k == 0,
        position := { x := (it.depth : ℚ) * 280 + 40, y := (k : ℚ) * 105 + 40 },
        data := { label := it.text, side := none } } := by
  unfold outlineNodes
  rw [List.getElem?_map, List.getElem?_enum, h]
  rfl

lemma getRootId_head {nds : List MindNode} {E : List GEdge} {m : MindNode}
    (h : nds[0]? = some m) (hm : hasIncoming E m.id = false) :
    getRootId nds E = some m.id := by
  unfold getRootId
  cases nds with
  | nil => simp at h
  | cons a t =>
    simp only [List.getElem?_cons_zero, Option.some.injEq] at h
    subst h
    rw [List.find?_cons_of_pos _ (by simp [hm])]

/-- C10: on every outline whose first item has depth 0 and whose later
items have depth at least 1 (the shape parseOutlineText guarantees),
outlineToGraph succeeds and returns a graph whose node ids are the
pairwise-distinct outlineNodeId scheme (the root id for the first item,
node-index for the rest), in which exactly the first node is selected,
the first node has no incoming edge, every other node has exactly one,
and the tree invariant holds; the empty outline yields the single
selected default root node and no edges. -/
theorem outlineToGraph_invariants (outline : List OutlineItem)
    (h0 : ∀ it, outline[0]? = some it → it.depth = 0)
    (h1 : ∀ (k : Nat) (it : OutlineItem), outline[k]? = some it → 1 ≤ k → 1 ≤ it.depth) :
    (outline = [] →
      outlineToGraph outline =
        some ([{ id := "root".toList, selected := true,
                 position := { x := 40, y := 40 },
                 data := { label := "Central Idea".toList, side := none } }], [])) ∧
    (outline ≠ [] → ∃ ns es, outlineToGraph outline = some (ns, es) ∧
      ns.map (fun n => n.id) = (List.range outline.length).map outlineNodeId ∧
      ns.map (fun n => n.selected) = (List.range outline.length).map (fun k => k == 0) ∧
      es.length + 1 = outline.length ∧
      incomingCount es (outlineNodeId 0) = 0 ∧
      (∀ i, 1 ≤ i → i < outline.length → incomingCount es (outlineNodeId i) = 1) ∧
      TreeInv ns es) := by
  constructor
  · intro he
    subst he
    rfl
  · intro hne
    cases houtline : outline with
    | nil => exact absurd houtline hne
    | cons it0 rest =>
      subst houtline
      have h0' : it0.depth = 0 := h0 it0 (by simp)
      have h1' : ∀ (k : Nat) (it : OutlineItem), rest[k]? = some it → 1 ≤ it.depth := by
        intro k it hk
        exact h1 (k+1) it (by simp [hk]) (by omega)
      obtain ⟨hElen, hEpt⟩ := outlineEdges_top it0 rest h0' h1'
      set nds := outlineNodes (it0 :: rest) with hnds
      set E := outlineEdges ((it0 :: rest).enum.map
        (fun p => (outlineNodeId p.1, p.2.depth))) [] with hEdef
      have hndslen : nds.length = rest.length + 1 := by
        rw [hnds]
        unfold outlineNodes
        simp
      have hids : nds.map (fun n => n.id) =
          (List.range (rest.length + 1)).map outlineNodeId := by
        rw [hnds, outlineNodes_ids]
        rfl
      have hsels : nds.map (fun n => n.selected) =
          (List.range (rest.length + 1)).map (fun k => k == 0) := by
        rw [hnds, outlineNodes_sels]
        rfl
      have hroot0 : hasIncoming E (outlineNodeId 0) = false := by
        apply hasIncoming_false_of_no_target
        intro e he htgt
        obtain ⟨k, hk⟩ := List.mem_iff_getElem?.mp he
        obtain ⟨ht2, _⟩ := hEpt k e hk
        rw [ht2] at htgt
        exact absurd (outlineNodeId_inj htgt) (by omega)
      have hnd0 : nds[0]? = some
          { id := outlineNodeId 0, selected := (0 : Nat) == 0,
            position := { x := (it0.depth : ℚ) * 280 + 40,
                          y := ((0 : Nat) : ℚ) * 105 + 40 },
            data := { label := it0.text, side := none } } := by
        rw [hnds]
        exact outlineNodes_getElem (it0 :: rest) 0 it0 (by simp)
      have hr2 : getRootId nds E = some (outlineNodeId 0) :=
        getRootId_head hnd0 hroot0
      obtain ⟨rn, hrn⟩ := nodeMapGet_isSome
        ⟨_, List.getElem?_mem hnd0, (rfl : _ = outlineNodeId 0)⟩
      have Hcm : ∀ id c, c ∈ childrenOf E id →
          rest.length + 1 - idIndex c (rest.length + 1) <
            rest.length + 1 - idIndex id (rest.length + 1) := by
        intro id c hc
        unfold childrenOf at hc
        obtain ⟨e, hef, het⟩ := List.mem_map.mp hc
        obtain ⟨heE, hes⟩ := List.mem_filter.mp hef
        obtain ⟨k, hk⟩ := List.mem_iff_getElem?.mp heE
        obtain ⟨htgt, i, hi, hsrc⟩ := hEpt k e hk
        obtain ⟨hkb, _⟩ := List.getElem?_eq_some.mp hk
        have hid : id = outlineNodeId i := by
          have hsi : e.source = id := by simpa using hes
          rw [← hsi, hsrc]
        have hcid2 : c = outlineNodeId (1 + k) := by rw [← het, htgt]
        rw [hid, hcid2, idIndex_spec (by omega), idIndex_spec (by omega)]
        omega
      have Hsp : ∀ x, rest.length + 1 - idIndex x (rest.length + 1) < E.length + 2 := by
        intro x
        omega
      have haux : ∃ p, positionTreeAux nds E none = some p := by
        rw [positionTreeAux_found hr2 hrn]
        simp only []
        apply bind_isSome_gen
        · exact getDepth_suff Hcm (E.length + 2) (outlineNodeId 0) (Hsp _)
        · intro d
          apply bind_isSome_gen
          · exact placeSide_suff Hcm Hsp _ (fun b _ => by omega) _ _ _
          · intro st1
            apply map_isSome_gen
            exact placeSide_suff Hcm Hsp _ (fun b _ => by omega) _ _ _
      obtain ⟨⟨ns0, visited⟩, haux0⟩ := haux
      have hana := haux0
      rw [positionTreeAux_found hr2 hrn] at hana
      simp only [] at hana
      rw [Option.bind_eq_some] at hana
      obtain ⟨d, hd, hana⟩ := hana
      rw [Option.bind_eq_some] at hana
      obtain ⟨st1, hs1, hana⟩ := hana
      rw [Option.map_eq_some'] at hana
      obtain ⟨st2, hs2, hpair⟩ := hana
      injection hpair with hns hvis
      have htgtb : ∀ b, (b ∈ (partitionSides nds ((childrenOf E) (outlineNodeId 0)).enum).1 ∨
          b ∈ (partitionSides nds ((childrenOf E) (outlineNodeId 0)).enum).2) →
          hasIncoming E b = true := by
        intro b hb
        obtain ⟨k, hk⟩ := partitionSides_mem hb
        exact childrenOf_hasIncoming (mem_enum_snd hk)
      have hpres := (placeSide_pres (outlineNodeId 0)
          (fun b hb => htgtb b (Or.inl hb)) hs1).trans
        (placeSide_pres (outlineNodeId 0) (fun b hb => htgtb b (Or.inr hb)) hs2)
      obtain ⟨hids_p, hsels_p, hlabs_p, _, _, _, _⟩ := hpres
      set fns := ns0.map (fun n =>
        { n with position := { x := n.position.x + 40, y := n.position.y + 40 } })
        with hfns
      have hotg : outlineToGraph (it0 :: rest) = some (fns, E) := by
        unfold outlineToGraph
        rw [if_neg (by simp)]
        simp only []
        rw [← hnds, ← hEdef]
        unfold positionTree
        rw [haux0]
        rfl
      have hfid : fns.map (fun n => n.id) = nds.map (fun n => n.id) := by
        rw [hfns, map_proj_comp ns0 (fun n =>
            { n with position := { x := n.position.x + 40, y := n.position.y + 40 } })
          (fun n => n.id) (fun n => rfl), ← hns,
          map_proj_comp st2.nodes (fallbackSide (outlineNodeId 0) st2.sideByNode)
            (fun n => n.id) (fun n => fallbackSide_id n), hids_p]
        exact updateLast_map (fun n => rfl)
      have hfsel : fns.map (fun n => n.selected) = nds.map (fun n => n.selected) := by
        rw [hfns, map_proj_comp ns0 (fun n =>
            { n with position := { x := n.position.x + 40, y := n.position.y + 40 } })
          (fun n => n.selected) (fun n => rfl), ← hns,
          map_proj_comp st2.nodes (fallbackSide (outlineNodeId 0) st2.sideByNode)
            (fun n => n.selected) (fun n => fallbackSide_sel n), hsels_p]
        exact updateLast_map (fun n => rfl)
      have hcid : fns.map (fun n => n.id) =
          (List.range (rest.length + 1)).map outlineNodeId := by
        rw [hfid]
        exact hids
      have hcsel : fns.map (fun n => n.selected) =
          (List.range (rest.length + 1)).map (fun k => k == 0) := by
        rw [hfsel]
        exact hsels
      have hfl : fns.length = rest.length + 1 := by
        have := congrArg List.length hcid
        simpa using this
      have hfnsid : ∀ (k : Nat) (m : MindNode), fns[k]? = some m →
          m.id = outlineNodeId k := by
        intro k m hk
        obtain ⟨hkb, _⟩ := List.getElem?_eq_some.mp hk
        have h1b : (fns.map (fun n => n.id))[k]? = some m.id := by
          rw [List.getElem?_map, hk]
          rfl
        rw [hcid, List.getElem?_map, List.getElem?_range (by omega)] at h1b
        simp only [Option.map_some', Option.some.injEq] at h1b
        exact h1b.symm
      have hic0 : incomingCount E (outlineNodeId 0) = 0 := by
        unfold incomingCount
        rw [show E.filter (fun e => e.target == outlineNodeId 0) = [] from
          List.filter_eq_nil_iff.mpr ?_]
        · rfl
        · intro e he hbeq
          obtain ⟨k, hk⟩ := List.mem_iff_getElem?.mp he
          obtain ⟨htgt, _⟩ := hEpt k e hk
          have : e.target = outlineNodeId 0 := by simpa using hbeq
          rw [htgt] at this
          exact absurd (outlineNodeId_inj this) (by omega)
      have hone : ∀ i, 1 ≤ i → i < rest.length + 1 →
          incomingCount E (outlineNodeId i) = 1 := by
        intro i hi1 hi2
        unfold incomingCount
        apply filter_length_one _ E (i - 1) (by omega)
        intro k e hk
        obtain ⟨hkb, _⟩ := List.getElem?_eq_some.mp hk
        obtain ⟨htgt, _⟩ := hEpt k e hk
        constructor
        · intro hbeq
          have hteq : e.target = outlineNodeId i := by simpa using hbeq
          rw [htgt] at hteq
          have := outlineNodeId_inj hteq
          omega
        · intro hke
          subst hke
          show (e.target == outlineNodeId i) = true
          rw [htgt, show 1 + (i - 1) = i from by omega]
          simp
      have hroot1 : (fns.filter (fun n => !hasIncoming E n.id)).length = 1 := by
        apply filter_length_one _ fns 0 (by omega)
        intro k m hk
        obtain ⟨hkb, _⟩ := List.getElem?_eq_some.mp hk
        have hmid := hfnsid k m hk
        constructor
        · intro hpred
          by_contra hkne
          have hkE : k - 1 < E.length := by omega
          have he := List.getElem?_eq_getElem hkE
          obtain ⟨htgt, _⟩ := hEpt (k-1) _ he
          have htgt2 : (E[k-1]).target = outlineNodeId k := by
            rw [htgt]
            exact congrArg outlineNodeId (by omega)
          have hinc := hasIncoming_true_of_target (List.getElem?_mem he) htgt2
          rw [hmid] at hpred
          rw [hinc] at hpred
          simp at hpred
        · intro hk0
          subst hk0
          show (!hasIncoming E m.id) = true
          rw [hmid, hroot0]
          rfl
      have hmemid : ∀ j, j < rest.length + 1 → ∃ m ∈ fns, m.id = outlineNodeId j := by
        intro j hj
        have hmm : outlineNodeId j ∈ fns.map (fun n => n.id) := by
          rw [hcid]
          exact List.mem_map.mpr ⟨j, List.mem_range.mpr hj, rfl⟩
        obtain ⟨m, hm, hmid⟩ := List.mem_map.mp hmm
        exact ⟨m, hm, hmid⟩
      refine ⟨fns, E, hotg, ?_, ?_, ?_, ?_, ?_, ?_⟩
      · simp only [List.length_cons]
        exact hcid
      · simp only [List.length_cons]
        exact hcsel
      · simp only [List.length_cons, hElen]
      · exact hic0
      · intro i hi1 hi2
        apply hone i hi1
        simpa using hi2
      · refine ⟨?_, ?_, ?_, ?_, ?_⟩
        · rw [hcid]
          exact (List.nodup_range _).map (fun a b h => outlineNodeId_inj h)
        · exact hroot1
        · intro m hm
          obtain ⟨k, hk⟩ := List.mem_iff_getElem?.mp hm
          obtain ⟨hkb, _⟩ := List.getElem?_eq_some.mp hk
          rw [hfnsid k m hk]
          by_cases hk0 : k = 0
          · subst hk0
            rw [hic0]
            omega
          · rw [hone k (by omega) (by omega)]
        · intro e he
          obtain ⟨k, hk⟩ := List.mem_iff_getElem?.mp he
          obtain ⟨hkb, _⟩ := List.getElem?_eq_some.mp hk
          obtain ⟨htgt, i, hi, hsrc⟩ := hEpt k e hk
          constructor
          · obtain ⟨m, hm, hmid⟩ := hmemid i (by omega)
            exact ⟨m, hm, by rw [hmid, hsrc]⟩
          · obtain ⟨m, hm, hmid⟩ := hmemid (1+k) (by omega)
            exact ⟨m, hm, by rw [hmid, htgt]⟩
        · intro r hr m hm
          obtain ⟨hrmem, hrpred⟩ := List.mem_filter.mp hr
          obtain ⟨kr, hkr⟩ := List.mem_iff_getElem?.mp hrmem
          obtain ⟨hkrb, _⟩ := List.getElem?_eq_some.mp hkr
          have hrid := hfnsid kr r hkr
          have hkr0 : kr = 0 := by
            by_contra hne2
            have hkE : kr - 1 < E.length := by omega
            have he := List.getElem?_eq_getElem hkE
            obtain ⟨htgt, _⟩ := hEpt (kr-1) _ he
            have htgt2 : (E[kr-1]).target = outlineNodeId kr := by
              rw [htgt]
              exact congrArg outlineNodeId (by omega)
            have hinc := hasIncoming_true_of_target (List.getElem?_mem he) htgt2
            rw [hrid] at hrpred
            rw [hinc] at hrpred
            simp at hrpred
          rw [hkr0] at hrid
          obtain ⟨km, hkm⟩ := List.mem_iff_getElem?.mp hm
          obtain ⟨hkmb, _⟩ := List.getElem?_eq_some.mp hkm
          have hmid := hfnsid km m hkm
          have hr1 := outline_reaches hEpt km (by omega)
          rw [hrid, hmid]
          have hr2b := reachesIn_add E (fns.length - (km+1)) (km+1)
            (outlineNodeId 0) (outlineNodeId km) hr1
          rw [show km + 1 + (fns.length - (km+1)) = fns.length from by omega] at hr2b
          exact hr2b

def c10Outline : List OutlineItem :=
  [{ text := "A".toList, depth := 0 }, { text := "B".toList, depth := 1 }]

theorem outlineToGraph_invariants_witness :
    (c10Outline = [] →
      outlineToGraph c10Outline =
        some ([{ id := "root".toList, selected := true,
                 position := { x := 40, y := 40 },
                 data := { label := "Central Idea".toList, side := none } }], [])) ∧
    (c10Outline ≠ [] → ∃ ns es, outlineToGraph c10Outline = some (ns, es) ∧
      ns.map (fun n => n.id) = (List.range c10Outline.length).map outlineNodeId ∧
      ns.map (fun n => n.selected) =
        (List.range c10Outline.length).map (fun k => k == 0) ∧
      es.length + 1 = c10Outline.length ∧
      incomingCount es (outlineNodeId 0) = 0 ∧
      (∀ i, 1 ≤ i → i < c10Outline.length → incomingCount es (outlineNodeId i) = 1) ∧
      TreeInv ns es) :=
  outlineToGraph_invariants c10Outline
    (by
      intro it h
      simp only [c10Outline, List.getElem?_cons_zero, Option.some.injEq] at h
      rw [← h])
    (by
      intro k it hk hk1
      have hkb : k < 2 := by
        obtain ⟨hlt, _⟩ := List.getElem?_eq_some.mp hk
        simpa [c10Outline] using hlt
      interval_cases k
      simp only [c10Outline, List.getElem?_cons_succ, List.getElem?_cons_zero,
        Option.some.injEq] at hk
      rw [← hk])

end ClaimC10

section ClaimC2

/-- The children loop of buildOutline, instrumented to keep the visited
node and its traversal depth instead of only the outline item. -/
def walkChildrenT (f : Str → Nat → Option (List (MindNode × Nat))) :
    List Str → Nat → Option (List (MindNode × Nat))
  | [], _ => some []
  | c :: cs, depth =>
    (f c depth).bind (fun l1 =>
      (walkChildrenT f cs depth).map (fun l2 => l1 ++ l2))

/-- The recursive walk of buildOutline, instrumented: it records the
visited node and the depth; projecting out label and depth recovers
walkOutline exactly. -/
def walkTrace (nm : Str → Option MindNode) (cm : Str → List Str) :
    Nat → Str → Nat → Option (List (MindNode × Nat))
  | 0, _, _ => none
  | fuel+1, nodeId, depth =>
    match nm nodeId with
    | none => some []
    | some node =>
      (walkChildrenT (walkTrace nm cm fuel) (cm nodeId) (depth + 1)).map
        (fun rest => (node, depth) :: rest)

lemma walkOutline_eq_trace {nm : Str → Option MindNode} {cm : Str → List Str} :
    ∀ (fuel : Nat) (id : Str) (d : Nat),
      walkOutline nm cm fuel id d = (walkTrace nm cm fuel id d).map
        (List.map (fun p => ({ text := p.1.data.label, depth := p.2 } : OutlineItem))) := by
  intro fuel
  induction fuel with
  | zero => intro id d; rfl
  | succ k ih =>
    intro id d
    rw [walkOutline, walkTrace]
    cases hn : nm id with
    | none => rfl
    | some node =>
      have hch : ∀ (l : List Str) (dd : Nat),
          walkChildren (walkOutline nm cm k) l dd =
          (walkChildrenT (walkTrace nm cm k) l dd).map
            (List.map (fun p => ({ text := p.1.data.label, depth := p.2 } : OutlineItem))) := by
        intro l
        induction l with
        | nil => intro dd; rfl
        | cons c cs ihl =>
          intro dd
          rw [walkChildren, walkChildrenT, ih c dd]
          cases ht : walkTrace nm cm k c dd with
          | none => rfl
          | some T1 =>
            simp only [Option.map_some', Option.some_bind]
            rw [ihl dd]
            cases ht2 : walkChildrenT (walkTrace nm cm k) cs dd with
            | none => rfl
            | some T2 =>
              simp only [Option.map_some', Option.some_bind]
              rw [List.map_append]
      rw [hch]
      cases ht : walkChildrenT (walkTrace nm cm k) (cm id) (d + 1) with
      | none => rfl
      | some T => rfl

/-- Least number of steps within the bound in which b is reachable from
a (the rank of b in the tree rooted at a). -/
def minReach (edges : List GEdge) (a b : Str) : Nat → Nat
  | 0 => 0
  | m+1 => if reachesIn edges m a b = true then minReach edges a b m else m + 1

lemma minReach_le (edges : List GEdge) (a b : Str) :
    ∀ m, minReach edges a b m ≤ m := by
  intro m
  induction m with
  | zero => exact Nat.le_refl 0
  | succ k ih =>
    rw [minReach]
    by_cases hk : reachesIn edges k a b = true
    · rw [if_pos hk]; omega
    · rw [if_neg hk]

lemma minReach_reaches (edges : List GEdge) (a b : Str) :
    ∀ m, reachesIn edges m a b = true →
      reachesIn edges (minReach edges a b m) a b = true := by
  intro m
  induction m with
  | zero => intro h; exact h
  | succ k ih =>
    intro h
    rw [minReach]
    by_cases hk : reachesIn edges k a b = true
    · rw [if_pos hk]; exact ih hk
    · rw [if_neg hk]; exact h

lemma minReach_min (edges : List GEdge) (a b : Str) :
    ∀ (m k : Nat), reachesIn edges k a b = true → k ≤ m →
      minReach edges a b m ≤ k := by
  intro m
  induction m with
  | zero => intro k _ _; exact Nat.zero_le k
  | succ j ih =>
    intro k h hk
    rw [minReach]
    by_cases hj : reachesIn edges j a b = true
    · rw [if_pos hj]
      by_cases hkj : k ≤ j
      · exact ih k h hkj
      · have := minReach_le edges a b j
        omega
    · rw [if_neg hj]
      by_cases hkj : k ≤ j
      · exfalso
        have hmono := reachesIn_add edges (j - k) k a b h
        rw [show k + (j - k) = j from by omega] at hmono
        exact hj hmono
      · omega

lemma reachesIn_last_step (edges : List GEdge) : ∀ (k : Nat) (a b : Str),
    reachesIn edges (k+1) a b = true →
    a = b ∨ ∃ p, b ∈ childrenOf edges p ∧ reachesIn edges k a p = true := by
  intro k
  induction k with
  | zero =>
    intro a b h
    rw [reachesIn] at h
    rcases Bool.or_eq_true_iff.mp h with h2 | h2
    · left; simpa using h2
    · obtain ⟨c, hc, hr⟩ := List.any_eq_true.mp h2
      have hcb : c = b := by
        rw [reachesIn] at hr
        simpa using hr
      subst hcb
      exact Or.inr ⟨a, hc, reachesIn_refl edges 0 a⟩
  | succ j ih =>
    intro a b h
    rw [reachesIn] at h
    rcases Bool.or_eq_true_iff.mp h with h2 | h2
    · left; simpa using h2
    · obtain ⟨c, hc, hr⟩ := List.any_eq_true.mp h2
      rcases ih c b hr with rfl | ⟨p, hp, hrp⟩
      · exact Or.inr ⟨a, hc, reachesIn_refl edges (j+1) a⟩
      · refine Or.inr ⟨p, hp, ?_⟩
        rw [reachesIn]
        refine Bool.or_eq_true_iff.mpr (Or.inr ?_)
        exact List.any_eq_true.mpr ⟨c, hc, hrp⟩

lemma parent_unique_cm {edges : List GEdge} {b p q : Str}
    (hcount : incomingCount edges b ≤ 1)
    (hp : b ∈ childrenOf edges p) (hq : b ∈ childrenOf edges q) : p = q := by
  unfold childrenOf at hp hq
  obtain ⟨e, hef, het⟩ := List.mem_map.mp hp
  obtain ⟨e2, hef2, het2⟩ := List.mem_map.mp hq
  obtain ⟨heE, hes⟩ := List.mem_filter.mp hef
  obtain ⟨heE2, hes2⟩ := List.mem_filter.mp hef2
  have hee : e = e2 := by
    apply length_le_one_eq hcount
    · exact List.mem_filter.mpr ⟨heE, by simp [het]⟩
    · exact List.mem_filter.mpr ⟨heE2, by simp [het2]⟩
  have h1 : e.source = p := by simpa using hes
  have h2 : e2.source = q := by simpa using hes2
  rw [← h1, ← h2, hee]

lemma getParentId_of_child {edges : List GEdge} {p b : Str}
    (hcount : incomingCount edges b ≤ 1)
    (h : b ∈ childrenOf edges p) : getParentId b edges = some p := by
  unfold childrenOf at h
  obtain ⟨e, hef, het⟩ := List.mem_map.mp h
  obtain ⟨heE, hes⟩ := List.mem_filter.mp hef
  unfold getParentId
  cases hf : edges.find? (fun x => x.target == b) with
  | none =>
    have := List.find?_eq_none.mp hf e heE
    simp [het] at this
  | some e0 =>
    have he0 := List.mem_of_find?_eq_some hf
    have he0t : e0.target = b := by simpa using List.find?_some hf
    have hee : e = e0 := by
      apply length_le_one_eq hcount
      · exact List.mem_filter.mpr ⟨heE, by simp [het]⟩
      · exact List.mem_filter.mpr ⟨he0, by simp [he0t]⟩
    simp only [Option.map_some', Option.some.injEq]
    have hsp : e.source = p := by simpa using hes
    rw [← hee, hsp]

/-- Iterated parent lookup. -/
def pIter (edges : List GEdge) : Nat → Str → Option Str
  | 0, v => some v
  | k+1, v => (getParentId v edges).bind (pIter edges k)

/-- The facts the tree invariants give about every parent-child pair:
the child has at most one incoming edge, both ends are reachable from
the root within the node count, and the child is not the root. -/
def EdgeCtx (edges : List GEdge) (rid : Str) (n : Nat) : Prop :=
  ∀ p b, b ∈ childrenOf edges p →
    incomingCount edges b ≤ 1 ∧ reachesIn edges n rid b = true ∧
    reachesIn edges n rid p = true ∧ rid ≠ b

lemma rank_child {edges : List GEdge} {rid : Str} {n : Nat}
    (H : EdgeCtx edges rid n) {a b : Str} (hab : b ∈ childrenOf edges a) :
    minReach edges rid b (n+1) = minReach edges rid a (n+1) + 1 := by
  obtain ⟨hcount, hrb, hra, hner⟩ := H a b hab
  have hka : minReach edges rid a (n+1) ≤ n :=
    minReach_min edges rid a (n+1) n hra (by omega)
  have hran1 : reachesIn edges (n+1) rid a = true := reachesIn_mono edges n _ _ hra
  have hrbn1 : reachesIn edges (n+1) rid b = true := reachesIn_mono edges n _ _ hrb
  have hreach_a := minReach_reaches edges rid a (n+1) hran1
  have h1 : reachesIn edges (minReach edges rid a (n+1) + 1) rid b = true :=
    reachesIn_snoc edges _ rid a b hreach_a hab
  have hle : minReach edges rid b (n+1) ≤ minReach edges rid a (n+1) + 1 :=
    minReach_min edges rid b (n+1) _ h1 (by omega)
  have hkb1 : 1 ≤ minReach edges rid b (n+1) := by
    by_contra h0
    have h00 : minReach edges rid b (n+1) = 0 := by omega
    have hzero := minReach_reaches edges rid b (n+1) hrbn1
    rw [h00] at hzero
    rw [reachesIn] at hzero
    exact hner (by simpa using hzero)
  have hkble := minReach_le edges rid b (n+1)
  obtain ⟨kb2, hkb2⟩ : ∃ kb2, minReach edges rid b (n+1) = kb2 + 1 :=
    ⟨minReach edges rid b (n+1) - 1, by omega⟩
  have hreach_b := minReach_reaches edges rid b (n+1) hrbn1
  rw [hkb2] at hreach_b
  rcases reachesIn_last_step edges kb2 rid b hreach_b with heq | ⟨p, hpb, hrp⟩
  · exact absurd heq hner
  · have hpa : p = a := parent_unique_cm hcount hpb hab
    rw [hpa] at hrp
    have hge : minReach edges rid a (n+1) ≤ kb2 :=
      minReach_min edges rid a (n+1) kb2 hrp (by omega)
    omega

/-- Along a path whose length exactly matches the rank difference, the
start is forced: it is the iterated parent of the end, so two subtrees
hanging off different children can share no node. -/
lemma reach_tight_pIter {edges : List GEdge} {rid : Str} {n : Nat}
    (H : EdgeCtx edges rid n) :
    ∀ (k : Nat) (u v : Str), reachesIn edges k u v = true →
      minReach edges rid u (n+1) + k = minReach edges rid v (n+1) →
      pIter edges k v = some u := by
  intro k
  induction k with
  | zero =>
    intro u v h _
    rw [reachesIn] at h
    have huv : u = v := by simpa using h
    rw [pIter, huv]
  | succ j ih =>
    intro u v h htight
    rcases reachesIn_last_step edges j u v h with heq | ⟨p, hpv, hrp⟩
    · subst heq
      omega
    · obtain ⟨hcount, _, _, _⟩ := H p v hpv
      have hrank := rank_child H hpv
      have hgp : getParentId v edges = some p := getParentId_of_child hcount hpv
      rw [pIter, hgp]
      simp only [Option.some_bind]
      exact ih u p hrp (by omega)

lemma walkChildrenT_suff {f : Str → Nat → Option (List (MindNode × Nat))} :
    ∀ (l : List Str), (∀ c ∈ l, ∀ d, ∃ T, f c d = some T) →
      ∀ d, ∃ T, walkChildrenT f l d = some T := by
  intro l
  induction l with
  | nil => intro _ d; exact ⟨[], rfl⟩
  | cons c cs ih =>
    intro hall d
    obtain ⟨T1, hT1⟩ := hall c (List.mem_cons_self _ _) d
    obtain ⟨T2, hT2⟩ := ih (fun x hx => hall x (List.mem_cons_of_mem _ hx)) d
    refine ⟨T1 ++ T2, ?_⟩
    rw [walkChildrenT, hT1]
    simp only [Option.some_bind]
    rw [hT2]
    rfl

lemma walkTrace_suff {nm : Str → Option MindNode} {cm : Str → List Str} {ρ : Str → Nat}
    (Hcm : ∀ id c, c ∈ cm id → ρ c < ρ id) :
    ∀ (fuel : Nat) (id : Str), ρ id < fuel → ∀ d,
      ∃ T, walkTrace nm cm fuel id d = some T := by
  intro fuel
  induction fuel with
  | zero => intro id h; omega
  | succ k ih =>
    intro id h d
    rw [walkTrace]
    cases hn : nm id with
    | none => exact ⟨[], rfl⟩
    | some node =>
      have hall : ∀ c ∈ cm id, ∀ dd, ∃ T, walkTrace nm cm k c dd = some T := by
        intro c hc dd
        exact ih c (by have := Hcm id c hc; omega) dd
      obtain ⟨T, hT⟩ := walkChildrenT_suff (cm id) hall (d+1)
      exact ⟨(node, d) :: T, by rw [hT]; rfl⟩

/-- Depth of the trace entry at a position (0 past the end). -/
def dOf (T : List (MindNode × Nat)) (i : Nat) : Nat :=
  match T[i]? with
  | some p => p.2
  | none => 0

/-- Depth of the outline item at a position (0 past the end). -/
def depOf (o : List OutlineItem) (i : Nat) : Nat :=
  match o[i]? with
  | some it => it.depth
  | none => 0

/-- First position of an id in a list of ids (length when absent). -/
def posIn : List Str → Str → Nat
  | [], _ => 0
  | a :: rest, v => if a = v then 0 else posIn rest v + 1

lemma posIn_getElem : ∀ {ids : List Str} {v : Str}, v ∈ ids →
    ids[posIn ids v]? = some v := by
  intro ids
  induction ids with
  | nil => intro v h; simp at h
  | cons a rest ih =>
    intro v h
    rw [posIn]
    by_cases he : a = v
    · rw [if_pos he]
      simp [he]
    · rw [if_neg he]
      rcases List.mem_cons.mp h with rfl | h2
      · exact absurd rfl he
      · simpa using ih h2

lemma posIn_unique : ∀ {ids : List Str} {v : Str} {i : Nat}, ids.Nodup →
    ids[i]? = some v → posIn ids v = i := by
  intro ids
  induction ids with
  | nil => intro v i _ h; simp at h
  | cons a rest ih =>
    intro v i hnodup h
    rw [List.nodup_cons] at hnodup
    rw [posIn]
    cases i with
    | zero =>
      simp only [List.getElem?_cons_zero, Option.some.injEq] at h
      rw [if_pos h]
    | succ j =>
      rw [List.getElem?_cons_succ] at h
      have hv : v ∈ rest := List.getElem?_mem h
      have hne : a ≠ v := by
        intro he
        rw [he] at hnodup
        exact hnodup.1 hv
      rw [if_neg hne, ih hnodup.2 h]

/-- The largest index below the bound whose depth is smaller than dj. -/
def mprevGo (D : Nat → Nat) (dj : Nat) : Nat → Nat
  | 0 => 0
  | i+1 => if D i < dj then i else mprevGo D dj i

lemma mprevGo_unique (D : Nat → Nat) (dj : Nat) :
    ∀ (j i : Nat), i < j → D i < dj → (∀ m, i < m → m < j → dj ≤ D m) →
      mprevGo D dj j = i := by
  intro j
  induction j with
  | zero => intro i h; omega
  | succ m ih =>
    intro i hi hDi hall
    rw [mprevGo]
    by_cases he : i = m
    · subst he
      rw [if_pos hDi]
    · have hm : dj ≤ D m := hall m (by omega) (by omega)
      rw [if_neg (by omega)]
      exact ih i (by omega) hDi (fun x h1 h2 => hall x h1 (by omega))

lemma dropWhile_head_false_nat {p : Nat → Bool} :
    ∀ {l : List Nat} {x : Nat} {xs : List Nat},
      l.dropWhile p = x :: xs → p x = false := by
  intro l
  induction l with
  | nil => intro x xs h; simp [List.dropWhile] at h
  | cons a t ih =>
    intro x xs h
    rw [List.dropWhile_cons] at h
    by_cases hp : p a = true
    · rw [if_pos hp] at h
      exact ih h
    · rw [if_neg hp] at h
      injection h with h1 h2
      rw [← h1]
      exact Bool.eq_false_iff.mpr hp

lemma dropWhile_pairs (D : Nat → Nat) (dt : Nat) :
    ∀ (I : List Nat),
      (I.map (fun i => (outlineNodeId i, D i))).dropWhile
          (fun q => decide (dt ≤ q.2)) =
        (I.dropWhile (fun i => decide (dt ≤ D i))).map
          (fun i => (outlineNodeId i, D i)) := by
  intro I
  induction I with
  | nil => rfl
  | cons a t ih =>
    rw [List.map_cons, List.dropWhile_cons, List.dropWhile_cons]
    by_cases hp : dt ≤ D a
    · rw [if_pos (show decide (dt ≤ D a) = true by simp [hp]),
        if_pos (show decide (dt ≤ D a) = true by simp [hp]), ih]
    · rw [if_neg (show ¬decide (dt ≤ D a) = true by simp [hp]),
        if_neg (show ¬decide (dt ≤ D a) = true by simp [hp]), List.map_cons]

/-- The stack loop of outlineToGraph, fully characterized: over position
ids with depths D (first depth 0, later depths at least 1), every step
emits exactly one edge whose source is the id at the largest earlier
position of smaller depth. -/
lemma outlineEdges_mprev (D : Nat → Nat) (hD0 : D 0 = 0)
    (hD1 : ∀ m, 1 ≤ m → 1 ≤ D m) :
    ∀ (len t : Nat) (I : List Nat),
      1 ≤ t →
      (∀ i ∈ I, i < t) →
      I.Pairwise (fun a b => b < a) →
      (∀ i, i < t → ((i ∈ I) ↔ (∀ m, i < m → m < t → D i < D m))) →
      outlineEdges ((List.range' t len).map (fun i => (outlineNodeId i, D i)))
          (I.map (fun i => (outlineNodeId i, D i))) =
        (List.range' t len).map (fun j =>
          { id := outlineNodeId (mprevGo D (D j) j) ++ '-' :: outlineNodeId j,
            source := outlineNodeId (mprevGo D (D j) j),
            target := outlineNodeId j }) := by
  intro len
  induction len with
  | zero => intro t I _ _ _ _; rfl
  | succ L ih =>
    intro t I ht hIlt hpair hchar
    have hDt : 1 ≤ D t := hD1 t (by omega)
    have h0I : 0 ∈ I := by
      rw [hchar 0 (by omega)]
      intro m hm1 hm2
      rw [hD0]
      exact hD1 m (by omega)
    have hDmono : ∀ i1 ∈ I, ∀ i2 ∈ I, i1 < i2 → D i1 < D i2 := by
      intro i1 h1 i2 h2 hlt
      exact (hchar i1 (hIlt i1 h1)).mp h1 i2 hlt (hIlt i2 h2)
    have hne : I.dropWhile (fun i => decide (D t ≤ D i)) ≠ [] := by
      intro hnil
      have hall := List.dropWhile_eq_nil_iff.mp hnil
      have h00 := hall 0 h0I
      rw [hD0] at h00
      simp at h00
      omega
    obtain ⟨istar, I'', hdw⟩ :
        ∃ a l, I.dropWhile (fun i => decide (D t ≤ D i)) = a :: l := by
      cases hc : I.dropWhile (fun i => decide (D t ≤ D i)) with
      | nil => exact absurd hc hne
      | cons a l => exact ⟨a, l, rfl⟩
    have hsub : List.Sublist (istar :: I'') I := by
      rw [← hdw]
      exact List.dropWhile_sublist _
    have histar_mem : istar ∈ I := hsub.subset (List.mem_cons_self _ _)
    have histar_lt : istar < t := hIlt istar histar_mem
    have histar_D : D istar < D t := by
      have := dropWhile_head_false_nat hdw
      simp at this
      exact this
    have hp' : (istar :: I'').Pairwise (fun a b => b < a) := hpair.sublist hsub
    have hmemI' : ∀ i, i ∈ istar :: I'' → i ∈ I := fun i hi => hsub.subset hi
    have hItop : ∀ i ∈ istar :: I'', D i < D t := by
      intro i hi
      rcases List.mem_cons.mp hi with rfl | hi2
      · exact histar_D
      · have hlt : i < istar := (List.pairwise_cons.mp hp').1 i hi2
        have := hDmono i (hmemI' i hi) istar histar_mem hlt
        omega
    have hbetween : ∀ m, istar < m → m < t → D t ≤ D m := by
      have key : ∀ dlt m, istar < m → m < t → t - m ≤ dlt → D t ≤ D m := by
        intro dlt
        induction dlt with
        | zero => intro m h1 h2 h3; omega
        | succ dd ihd =>
          intro m h1 h2 h3
          by_cases hmI : m ∈ I
          · have hsplitm : m ∈ I.takeWhile (fun i => decide (D t ≤ D i)) ∨
                m ∈ istar :: I'' := by
              rw [← hdw]
              have hsplit := List.takeWhile_append_dropWhile
                (fun i => decide (D t ≤ D i)) I
              rw [← hsplit] at hmI
              exact List.mem_append.mp hmI
            rcases hsplitm with hmp | hmd
            · have := List.mem_takeWhile_imp hmp
              simpa using this
            · have := hItop m hmd
              rcases List.mem_cons.mp hmd with rfl | hm2
              · omega
              · have := (List.pairwise_cons.mp hp').1 m hm2
                omega
          · have hnotall : ¬ (∀ m', m < m' → m' < t → D m < D m') := by
              intro hall
              exact hmI ((hchar m h2).mpr hall)
            push_neg at hnotall
            obtain ⟨m', hm'1, hm'2, hm'3⟩ := hnotall
            have := ihd m' (by omega) hm'2 (by omega)
            omega
      intro m h1 h2
      exact key (t - m) m h1 h2 (Nat.le_refl _)
    have histar_eq : mprevGo D (D t) t = istar :=
      mprevGo_unique D (D t) t istar histar_lt histar_D hbetween
    rw [List.range'_succ t L 1, List.map_cons, List.map_cons]
    have hstep : outlineEdges ((outlineNodeId t, D t) ::
        (List.range' (t+1) L).map (fun i => (outlineNodeId i, D i)))
        (I.map (fun i => (outlineNodeId i, D i))) =
        { id := outlineNodeId istar ++ '-' :: outlineNodeId t,
          source := outlineNodeId istar, target := outlineNodeId t } ::
        outlineEdges ((List.range' (t+1) L).map (fun i => (outlineNodeId i, D i)))
          ((t :: istar :: I'').map (fun i => (outlineNodeId i, D i))) := by
      rw [outlineEdges, dropWhile_pairs, hdw]
      rfl
    rw [hstep]
    have hmemI'2 : ∀ i, i ∈ istar :: I'' ↔ (i ∈ I ∧ D i < D t) := by
      intro i
      constructor
      · intro hi
        exact ⟨hmemI' i hi, hItop i hi⟩
      · intro ⟨hiI, hiD⟩
        have hsplitm : i ∈ I.takeWhile (fun x => decide (D t ≤ D x)) ∨
            i ∈ istar :: I'' := by
          rw [← hdw]
          have hsplit := List.takeWhile_append_dropWhile
            (fun x => decide (D t ≤ D x)) I
          rw [← hsplit] at hiI
          exact List.mem_append.mp hiI
        rcases hsplitm with hip | hid
        · have := List.mem_takeWhile_imp hip
          simp at this
          omega
        · exact hid
    have htail := ih (t+1) (t :: istar :: I'') (by omega)
      (by
        intro i hi
        rcases List.mem_cons.mp hi with rfl | hi2
        · omega
        · have := hIlt i (hmemI' i hi2)
          omega)
      (by
        rw [List.pairwise_cons]
        refine ⟨?_, hp'⟩
        intro i hi
        exact hIlt i (hmemI' i hi))
      (by
        intro i hilt
        by_cases hit : i = t
        · subst hit
          constructor
          · intro _ m hm1 hm2
            omega
          · intro _
            exact List.mem_cons_self _ _
        · have hilt2 : i < t := by omega
          constructor
          · intro hi m hm1 hm2
            rcases List.mem_cons.mp hi with rfl | hi2
            · omega
            · have hmem := (hmemI'2 i).mp hi2
              by_cases hmt : m = t
              · subst hmt
                exact hmem.2
              · exact (hchar i hilt2).mp hmem.1 m hm1 (by omega)
          · intro hall
            refine List.mem_cons_of_mem _ ((hmemI'2 i).mpr ⟨?_, ?_⟩)
            · exact (hchar i hilt2).mpr (fun m hm1 hm2 => hall m hm1 (by omega))
            · exact hall t (by omega) (by omega))
    rw [htail, histar_eq]

lemma reachesIn_cons (edges : List GEdge) {id c x : Str} {k : Nat}
    (hc : c ∈ childrenOf edges id) (h : reachesIn edges k c x = true) :
    reachesIn edges (k+1) id x = true := by
  rw [reachesIn]
  exact Bool.or_eq_true_iff.mpr (Or.inr (List.any_eq_true.mpr ⟨c, hc, h⟩))

lemma map_target_nodup {edges : List GEdge} :
    ∀ (l : List GEdge), List.Sublist l edges →
      (∀ b, b ∈ l.map (fun e => e.target) →
        (edges.filter (fun e => e.target == b)).length ≤ 1) →
      (l.map (fun e => e.target)).Nodup := by
  intro l
  induction l with
  | nil => intro _ _; exact List.nodup_nil
  | cons e es ih =>
    intro hsub hcnt
    rw [List.map_cons, List.nodup_cons]
    constructor
    · intro hmem
      obtain ⟨e2, he2, he2t⟩ := List.mem_map.mp hmem
      have hfsub : List.Sublist ((e :: es).filter (fun x => x.target == e.target))
          (edges.filter (fun x => x.target == e.target)) := hsub.filter _
      have hcons : (e :: es).filter (fun x => x.target == e.target) =
          e :: es.filter (fun x => x.target == e.target) := by
        rw [List.filter_cons, if_pos (by simp)]
      have he2f : e2 ∈ es.filter (fun x => x.target == e.target) :=
        List.mem_filter.mpr ⟨he2, by simp [he2t]⟩
      have h2le : 2 ≤ ((e :: es).filter (fun x => x.target == e.target)).length := by
        rw [hcons, List.length_cons]
        cases hfe : es.filter (fun x => x.target == e.target) with
        | nil => rw [hfe] at he2f; simp at he2f
        | cons x xs => rw [List.length_cons]; omega
      have hle1 := hcnt e.target (List.mem_map.mpr ⟨e, List.mem_cons_self _ _, rfl⟩)
      have := hfsub.length_le
      omega
    · apply ih
      · exact (List.sublist_cons_self e es).trans hsub
      · intro b hb
        exact hcnt b (List.mem_cons_of_mem _ hb)

lemma childrenOf_nodup {edges : List GEdge} {a : Str}
    (hcount : ∀ b, b ∈ childrenOf edges a → incomingCount edges b ≤ 1) :
    (childrenOf edges a).Nodup := by
  unfold childrenOf
  apply map_target_nodup _ (List.filter_sublist edges)
  intro b hb
  exact hcount b hb

lemma dOf_eq_of_getElem {T : List (MindNode × Nat)} {j : Nat} {p : MindNode × Nat}
    (h : T[j]? = some p) : dOf T j = p.2 := by
  unfold dOf
  rw [h]

lemma dOf_cons_succ (q : MindNode × Nat) (L : List (MindNode × Nat)) (k : Nat) :
    dOf (q :: L) (k+1) = dOf L k := by
  unfold dOf
  rw [List.getElem?_cons_succ]

lemma dOf_cons_zero (q : MindNode × Nat) (L : List (MindNode × Nat)) :
    dOf (q :: L) 0 = q.2 := by
  unfold dOf
  rw [List.getElem?_cons_zero]

lemma getElem?_append_left' {α : Type} {A B : List α} {i : Nat} (h : i < A.length) :
    (A ++ B)[i]? = A[i]? := by
  rw [List.getElem?_append]
  exact if_pos h

lemma getElem?_append_right' {α : Type} (A : List α) {B : List α} (k : Nat) :
    (A ++ B)[A.length + k]? = B[k]? := by
  rw [List.getElem?_append, if_neg (by omega)]
  rw [show A.length + k - A.length = k from by omega]

lemma dOf_append_left {A B : List (MindNode × Nat)} {i : Nat} (h : i < A.length) :
    dOf (A ++ B) i = dOf A i := by
  unfold dOf
  rw [getElem?_append_left' h]

lemma dOf_append_right (A : List (MindNode × Nat)) {B : List (MindNode × Nat)}
    (k : Nat) : dOf (A ++ B) (A.length + k) = dOf B k := by
  unfold dOf
  rw [getElem?_append_right' A k]

lemma walkTrace_none {nm : Str → Option MindNode} {cm : Str → List Str}
    {k : Nat} {id : Str} {d : Nat} (hn : nm id = none) :
    walkTrace nm cm (k+1) id d = some [] := by
  rw [walkTrace, hn]

lemma walkTrace_some {nm : Str → Option MindNode} {cm : Str → List Str}
    {k : Nat} {id : Str} {d : Nat} {node : MindNode} (hn : nm id = some node) :
    walkTrace nm cm (k+1) id d =
      (walkChildrenT (walkTrace nm cm k) (cm id) (d + 1)).map
        (fun rest => (node, d) :: rest) := by
  rw [walkTrace, hn]

/-- Structure of the instrumented buildOutline walk on a graph with the
tree invariants: members are present nodes at their rank depth, the head
is the subtree root, the first earlier smaller-depth position of any
later entry is its tree parent, ids are pairwise distinct, and every
child of a member is a member. -/
lemma walkTrace_struct {nodes : List MindNode} {edges : List GEdge} {rid : Str} {n : Nat}
    {nm : Str → Option MindNode}
    (hnm : ∀ i nd, nm i = some nd → nd.id = i ∧ nd ∈ nodes)
    (H : EdgeCtx edges rid n)
    (hpres : ∀ a b, b ∈ childrenOf edges a → ∃ nd, nm b = some nd) :
    ∀ (fuel : Nat) (id : Str) (d : Nat) (T : List (MindNode × Nat)),
      walkTrace nm (childrenOf edges) fuel id d = some T →
      minReach edges rid id (n+1) = d →
      (∀ p ∈ T, p.1 ∈ nodes) ∧
      (∀ p ∈ T, d ≤ p.2) ∧
      (∀ k, 1 ≤ k → k < T.length → d + 1 ≤ dOf T k) ∧
      (∀ q, T[0]? = some q → q.1.id = id ∧ q.2 = d) ∧
      (∀ p ∈ T, minReach edges rid p.1.id (n+1) = p.2) ∧
      (∀ p ∈ T, reachesIn edges (p.2 - d) id p.1.id = true) ∧
      (∀ p ∈ T, ∀ c ∈ childrenOf edges p.1.id, ∃ q ∈ T, q.1.id = c) ∧
      ((T.map (fun p => p.1.id)).Nodup) ∧
      (∀ j, 1 ≤ j → j < T.length → ∃ i, i < j ∧ dOf T i < dOf T j ∧
        (∀ m, i < m → m < j → dOf T j ≤ dOf T m) ∧
        ∃ pa pb, T[i]? = some pa ∧ T[j]? = some pb ∧
          pb.1.id ∈ childrenOf edges pa.1.id) := by
  intro fuel
  induction fuel with
  | zero =>
    intro id d T hT _
    rw [walkTrace] at hT
    exact absurd hT (by simp)
  | succ k ih =>
    intro id d T hT hrk
    cases hn : nm id with
    | none =>
      rw [walkTrace_none hn] at hT
      injection hT with hT
      subst hT
      refine ⟨?_, ?_, ?_, ?_, ?_, ?_, ?_, ?_, ?_⟩ <;>
        first
          | (intro p hp; simp at hp)
          | (intro q hq; simp at hq)
          | (intro j hj1 hj2; simp at hj2; omega)
          | (intro k1 hk1 hk2; simp at hk2)
          | simp
    | some node =>
      rw [walkTrace_some hn] at hT
      rw [Option.map_eq_some'] at hT
      obtain ⟨L, hL, hTL⟩ := hT
      subst hTL
      obtain ⟨hid_node, hnode_mem⟩ := hnm id node hn
      have hQ : ∀ (cs : List Str), cs.Nodup →
          (∀ c ∈ cs, c ∈ childrenOf edges id) →
          ∀ (M : List (MindNode × Nat)),
            walkChildrenT (walkTrace nm (childrenOf edges) k) cs (d+1) = some M →
          (∀ p ∈ M, p.1 ∈ nodes) ∧
          (∀ p ∈ M, d + 1 ≤ p.2) ∧
          (∀ p ∈ M, minReach edges rid p.1.id (n+1) = p.2) ∧
          (∀ p ∈ M, ∃ c ∈ cs, reachesIn edges (p.2 - (d+1)) c p.1.id = true) ∧
          (∀ c ∈ cs, ∃ q ∈ M, q.1.id = c) ∧
          (∀ p ∈ M, ∀ c2 ∈ childrenOf edges p.1.id, ∃ q ∈ M, q.1.id = c2) ∧
          ((M.map (fun p => p.1.id)).Nodup) ∧
          (∀ j, j < M.length →
            (dOf M j = d + 1 → ∃ pb, M[j]? = some pb ∧ pb.1.id ∈ cs) ∧
            (d + 1 < dOf M j → ∃ i, i < j ∧ dOf M i < dOf M j ∧
              (∀ m, i < m → m < j → dOf M j ≤ dOf M m) ∧
              ∃ pa pb, M[i]? = some pa ∧ M[j]? = some pb ∧
                pb.1.id ∈ childrenOf edges pa.1.id)) := by
        intro cs
        induction cs with
        | nil =>
          intro _ _ M hM
          rw [walkChildrenT] at hM
          injection hM with hM
          subst hM
          refine ⟨?_, ?_, ?_, ?_, ?_, ?_, ?_, ?_⟩ <;>
            first
              | (intro p hp; simp at hp)
              | (intro c hc; simp at hc)
              | (intro j hj; simp at hj)
              | simp
        | cons c cs' ihcs =>
          intro hnodup hsubm M hM
          rw [List.nodup_cons] at hnodup
          have hc_cm : c ∈ childrenOf edges id := hsubm c (List.mem_cons_self _ _)
          rw [walkChildrenT] at hM
          rw [Option.bind_eq_some] at hM
          obtain ⟨Tc, hTc, hM⟩ := hM
          rw [Option.map_eq_some'] at hM
          obtain ⟨L', hL', hLL⟩ := hM
          subst hLL
          have hrc : minReach edges rid c (n+1) = d + 1 := by
            have := rank_child H hc_cm
            rw [hrk] at this
            exact this
          obtain ⟨oc0, oc1, oc2, oc3, ocrank, oc7, oc5, oc8, oc4⟩ :=
            ih c (d+1) Tc hTc hrc
          obtain ⟨in0, in1, inrank, in7, in6, in5, in8, in4⟩ :=
            ihcs hnodup.2 (fun x hx => hsubm x (List.mem_cons_of_mem _ hx)) L' hL'
          obtain ⟨ndc, hndc⟩ := hpres id c hc_cm
          obtain ⟨qc, Tc2, hTceq⟩ : ∃ q Tc2, Tc = q :: Tc2 := by
            cases k with
            | zero =>
              rw [walkTrace] at hTc
              exact absurd hTc (by simp)
            | succ k2 =>
              rw [walkTrace_some hndc] at hTc
              rw [Option.map_eq_some'] at hTc
              obtain ⟨L2, _, hTc2⟩ := hTc
              exact ⟨_, _, hTc2.symm⟩
          have hq0 : Tc[0]? = some qc := by rw [hTceq]; simp
          obtain ⟨hqc_id, hqc_d⟩ := oc3 qc hq0
          have hqc_mem : qc ∈ Tc := List.getElem?_mem hq0
          have hTclen : 1 ≤ Tc.length := by rw [hTceq]; simp
          refine ⟨?_, ?_, ?_, ?_, ?_, ?_, ?_, ?_⟩
          · intro p hp
            rcases List.mem_append.mp hp with hp | hp
            · exact oc0 p hp
            · exact in0 p hp
          · intro p hp
            rcases List.mem_append.mp hp with hp | hp
            · exact oc1 p hp
            · exact in1 p hp
          · intro p hp
            rcases List.mem_append.mp hp with hp | hp
            · exact ocrank p hp
            · exact inrank p hp
          · intro p hp
            rcases List.mem_append.mp hp with hp | hp
            · exact ⟨c, List.mem_cons_self _ _, oc7 p hp⟩
            · obtain ⟨c', hc', hr'⟩ := in7 p hp
              exact ⟨c', List.mem_cons_of_mem _ hc', hr'⟩
          · intro x hx
            rcases List.mem_cons.mp hx with rfl | hx2
            · exact ⟨qc, List.mem_append.mpr (Or.inl hqc_mem), hqc_id⟩
            · obtain ⟨q, hq, hqid⟩ := in6 x hx2
              exact ⟨q, List.mem_append.mpr (Or.inr hq), hqid⟩
          · intro p hp c2 hc2
            rcases List.mem_append.mp hp with hp | hp
            · obtain ⟨q, hq, hqid⟩ := oc5 p hp c2 hc2
              exact ⟨q, List.mem_append.mpr (Or.inl hq), hqid⟩
            · obtain ⟨q, hq, hqid⟩ := in5 p hp c2 hc2
              exact ⟨q, List.mem_append.mpr (Or.inr hq), hqid⟩
          · rw [List.map_append, List.nodup_append]
            refine ⟨oc8, in8, ?_⟩
            intro x hx hx'
            obtain ⟨p, hp, hpid⟩ := List.mem_map.mp hx
            obtain ⟨q', hq', hqid⟩ := List.mem_map.mp hx'
            have hrp := ocrank p hp
            have hrq := inrank q' hq'
            rw [hpid] at hrp
            rw [hqid] at hrq
            have hq2p2 : q'.2 = p.2 := by rw [← hrq, ← hrp]
            have hp2d : d + 1 ≤ p.2 := oc1 p hp
            have hreachp := oc7 p hp
            rw [hpid] at hreachp
            have hpit1 : pIter edges (p.2 - (d+1)) x = some c :=
              reach_tight_pIter H (p.2 - (d+1)) c x hreachp (by omega)
            obtain ⟨c', hc', hr'⟩ := in7 q' hq'
            rw [hqid, hq2p2] at hr'
            have hrc' : minReach edges rid c' (n+1) = d + 1 := by
              have := rank_child H (hsubm c' (List.mem_cons_of_mem _ hc'))
              rw [hrk] at this
              exact this
            have hpit2 : pIter edges (p.2 - (d+1)) x = some c' :=
              reach_tight_pIter H (p.2 - (d+1)) c' x hr' (by omega)
            rw [hpit1] at hpit2
            injection hpit2 with hcc
            rw [← hcc] at hc'
            exact hnodup.1 hc'
          · intro j hj
            rw [List.length_append] at hj
            by_cases hjc : j < Tc.length
            · have hdj : dOf (Tc ++ L') j = dOf Tc j := dOf_append_left hjc
              constructor
              · intro hdep
                rw [hdj] at hdep
                have hj0 : j = 0 := by
                  by_contra hne0
                  have := oc2 j (by omega) hjc
                  omega
                subst hj0
                refine ⟨qc, ?_, ?_⟩
                · rw [getElem?_append_left' hjc]
                  exact hq0
                · rw [hqc_id]
                  exact List.mem_cons_self _ _
              · intro hdep
                rw [hdj] at hdep
                have hdc0 : dOf Tc 0 = d + 1 := by
                  rw [dOf_eq_of_getElem hq0, hqc_d]
                have hj1 : 1 ≤ j := by
                  by_contra h0
                  have hj0 : j = 0 := by omega
                  rw [hj0, hdc0] at hdep
                  omega
                obtain ⟨i, hi1, hi2, hi3, pa, pb, hpa, hpb, hedge⟩ := oc4 j hj1 hjc
                refine ⟨i, hi1, ?_, ?_, pa, pb, ?_, ?_, hedge⟩
                · rw [hdj, dOf_append_left (by omega)]
                  exact hi2
                · intro m hm1 hm2
                  rw [hdj, dOf_append_left (by omega)]
                  exact hi3 m hm1 hm2
                · rw [getElem?_append_left' (by omega)]
                  exact hpa
                · rw [getElem?_append_left' hjc]
                  exact hpb
            · obtain ⟨j', rfl⟩ : ∃ j', j = Tc.length + j' :=
                ⟨j - Tc.length, by omega⟩
              have hj'lt : j' < L'.length := by omega
              have hdj : dOf (Tc ++ L') (Tc.length + j') = dOf L' j' :=
                dOf_append_right Tc j'
              obtain ⟨hin41, hin42⟩ := in4 j' hj'lt
              constructor
              · intro hdep
                rw [hdj] at hdep
                obtain ⟨pb, hpb, hpbmem⟩ := hin41 hdep
                refine ⟨pb, ?_, List.mem_cons_of_mem _ hpbmem⟩
                rw [getElem?_append_right']
                exact hpb
              · intro hdep
                rw [hdj] at hdep
                obtain ⟨i', hi1, hi2, hi3, pa, pb, hpa, hpb, hedge⟩ := hin42 hdep
                refine ⟨Tc.length + i', by omega, ?_, ?_, pa, pb, ?_, ?_, hedge⟩
                · rw [hdj, dOf_append_right]
                  exact hi2
                · intro m hm1 hm2
                  obtain ⟨m', rfl⟩ : ∃ m', m = Tc.length + m' :=
                    ⟨m - Tc.length, by omega⟩
                  rw [hdj, dOf_append_right]
                  exact hi3 m' (by omega) (by omega)
                · rw [getElem?_append_right']
                  exact hpa
                · rw [getElem?_append_right']
                  exact hpb
      have hcsnd : (childrenOf edges id).Nodup :=
        childrenOf_nodup (fun b hb => (H id b hb).1)
      obtain ⟨q0, q1, qrank, q7, q6, q5, q8, q4⟩ :=
        hQ (childrenOf edges id) hcsnd (fun c hc => hc) L hL
      refine ⟨?_, ?_, ?_, ?_, ?_, ?_, ?_, ?_, ?_⟩
      · intro p hp
        rcases List.mem_cons.mp hp with rfl | hp2
        · exact hnode_mem
        · exact q0 p hp2
      · intro p hp
        rcases List.mem_cons.mp hp with rfl | hp2
        · exact Nat.le_refl d
        · have := q1 p hp2
          omega
      · intro k1 hk1 hklt
        obtain ⟨k2, rfl⟩ : ∃ k2, k1 = k2 + 1 := ⟨k1 - 1, by omega⟩
        rw [dOf_cons_succ]
        rw [List.length_cons] at hklt
        have hk2 : k2 < L.length := by omega
        have hpk := List.getElem?_eq_getElem hk2
        rw [dOf_eq_of_getElem hpk]
        exact q1 L[k2] (List.getElem?_mem hpk)
      · intro q hq
        simp only [List.getElem?_cons_zero, Option.some.injEq] at hq
        subst hq
        exact ⟨hid_node, rfl⟩
      · intro p hp
        rcases List.mem_cons.mp hp with rfl | hp2
        · show minReach edges rid node.id (n+1) = d
          rw [hid_node]
          exact hrk
        · exact qrank p hp2
      · intro p hp
        rcases List.mem_cons.mp hp with rfl | hp2
        · show reachesIn edges (d - d) id node.id = true
          rw [Nat.sub_self, hid_node]
          exact reachesIn_refl edges 0 id
        · obtain ⟨c, hccm, hre⟩ := q7 p hp2
          have hp2d := q1 p hp2
          rw [show p.2 - d = (p.2 - (d+1)) + 1 from by omega]
          exact reachesIn_cons edges hccm hre
      · intro p hp c hc
        rcases List.mem_cons.mp hp with rfl | hp2
        · have hcid : c ∈ childrenOf edges id := by
            show c ∈ childrenOf edges id
            rw [← hid_node]
            exact hc
          obtain ⟨q, hq, hqid⟩ := q6 c hcid
          exact ⟨q, List.mem_cons_of_mem _ hq, hqid⟩
        · obtain ⟨q, hq, hqid⟩ := q5 p hp2 c hc
          exact ⟨q, List.mem_cons_of_mem _ hq, hqid⟩
      · rw [List.map_cons, List.nodup_cons]
        refine ⟨?_, q8⟩
        intro hmem
        obtain ⟨p, hp, hpid⟩ := List.mem_map.mp hmem
        have := qrank p hp
        rw [hpid, hid_node, hrk] at this
        have := q1 p hp
        omega
      · intro j hj1 hjlt
        obtain ⟨j2, rfl⟩ : ∃ j2, j = j2 + 1 := ⟨j - 1, by omega⟩
        rw [List.length_cons] at hjlt
        have hj2 : j2 < L.length := by omega
        have hpj := List.getElem?_eq_getElem hj2
        have hdTj : dOf ((node, d) :: L) (j2 + 1) = dOf L j2 := dOf_cons_succ _ _ _
        have hdLj : dOf L j2 = L[j2].2 := dOf_eq_of_getElem hpj
        have hdge : d + 1 ≤ dOf L j2 := by
          rw [hdLj]
          exact q1 L[j2] (List.getElem?_mem hpj)
        by_cases hdeq : dOf L j2 = d + 1
        · obtain ⟨pb, hpb, hpbcs⟩ := (q4 j2 hj2).1 hdeq
          refine ⟨0, by omega, ?_, ?_, (node, d), pb, by simp, ?_, ?_⟩
          · rw [hdTj, dOf_cons_zero]
            show d < dOf L j2
            omega
          · intro m hm1 hm2
            obtain ⟨m2, rfl⟩ : ∃ m2, m = m2 + 1 := ⟨m - 1, by omega⟩
            rw [hdTj, dOf_cons_succ]
            have hm2lt : m2 < L.length := by omega
            have hpm := List.getElem?_eq_getElem hm2lt
            rw [dOf_eq_of_getElem hpm]
            have := q1 L[m2] (List.getElem?_mem hpm)
            omega
          · rw [List.getElem?_cons_succ]
            exact hpb
          · show pb.1.id ∈ childrenOf edges node.id
            rw [hid_node]
            exact hpbcs
        · obtain ⟨i, hi1, hi2, hi3, pa, pb, hpa, hpb, hedge⟩ :=
            (q4 j2 hj2).2 (by omega)
          refine ⟨i + 1, by omega, ?_, ?_, pa, pb, ?_, ?_, hedge⟩
          · rw [hdTj, dOf_cons_succ]
            exact hi2
          · intro m hm1 hm2
            obtain ⟨m2, rfl⟩ : ∃ m2, m = m2 + 1 := ⟨m - 1, by omega⟩
            rw [hdTj, dOf_cons_succ]
            exact hi3 m2 (by omega) (by omega)
          · rw [List.getElem?_cons_succ]
            exact hpa
          · rw [List.getElem?_cons_succ]
            exact hpb

lemma fallbackSide_lab {rootId : Str} {s : List (Str × Side)} (n : MindNode) :
    (fallbackSide rootId s n).data.label = n.data.label := by
  unfold fallbackSide
  by_cases h : mapHas s n.id = true
  · rw [if_pos h]
  · rw [if_neg h]

lemma outlineNodes_labels (outline : List OutlineItem) :
    (outlineNodes outline).map (fun n => n.data.label) =
      outline.map (fun it => it.text) := by
  unfold outlineNodes
  rw [List.map_map]
  rw [show ((fun n : MindNode => n.data.label) ∘ (fun p : Nat × OutlineItem =>
      ({ id := outlineNodeId p.1, selected := p.1 == 0,
         position := { x := (p.2.depth : ℚ) * 280 + 40, y := (p.1 : ℚ) * 105 + 40 },
         data := { label := p.2.text, side := none } } : MindNode))) =
      ((fun it : OutlineItem => it.text) ∘ Prod.snd) from rfl]
  rw [← List.map_map, List.enum_map_snd]

lemma filter_length_split {α : Type} (p : α → Bool) :
    ∀ (l : List α), (l.filter p).length + (l.filter (fun a => !p a)).length = l.length := by
  intro l
  induction l with
  | nil => rfl
  | cons a t ih =>
    by_cases h : p a = true
    · rw [List.filter_cons, List.filter_cons, if_pos h, if_neg (by rw [h]; simp),
        List.length_cons, List.length_cons]
      omega
    · have hf : p a = false := by
        cases hh : p a
        · rfl
        · exact absurd hh h
      rw [List.filter_cons, List.filter_cons, if_neg h, if_pos (by rw [hf]; rfl),
        List.length_cons, List.length_cons]
      omega

lemma incoming_erase {edges : List GEdge} {x y : Str} (hxy : x ≠ y) :
    incomingCount (edges.filter (fun e => !(e.target == y))) x = incomingCount edges x := by
  unfold incomingCount
  induction edges with
  | nil => rfl
  | cons e es ih =>
    by_cases h : e.target = y
    · rw [List.filter_cons, if_neg (by simp [h])]
      rw [show (e :: es).filter (fun e2 => e2.target == x) =
          es.filter (fun e2 => e2.target == x) from ?_]
      · exact ih
      · rw [List.filter_cons, if_neg ?_]
        intro hb
        have hex : e.target = x := by simpa using hb
        rw [h] at hex
        exact hxy hex.symm
    · rw [List.filter_cons, if_pos (by simp [h])]
      by_cases h2 : e.target = x
      · rw [List.filter_cons, if_pos (by simp [h2]),
          List.filter_cons, if_pos (by simp [h2]),
          List.length_cons, List.length_cons, ih]
      · rw [List.filter_cons, if_neg (by simp [h2]),
          List.filter_cons, if_neg (by simp [h2]), ih]

lemma sum_incoming :
    ∀ (nodes : List MindNode) (edges : List GEdge),
      (nodes.map (fun n => n.id)).Nodup →
      (∀ e ∈ edges, ∃ n ∈ nodes, n.id = e.target) →
      (nodes.map (fun n => incomingCount edges n.id)).sum = edges.length := by
  intro nodes
  induction nodes with
  | nil =>
    intro edges _ hp
    cases edges with
    | nil => rfl
    | cons e es =>
      obtain ⟨n, hn, _⟩ := hp e (List.mem_cons_self _ _)
      simp at hn
  | cons a rest ih =>
    intro edges hnodup hp
    rw [List.map_cons, List.nodup_cons] at hnodup
    rw [List.map_cons, List.sum_cons]
    have hsplit := filter_length_split (fun e => e.target == a.id) edges
    have hrest : rest.map (fun n => incomingCount edges n.id) =
        rest.map (fun n =>
          incomingCount (edges.filter (fun e => !(e.target == a.id))) n.id) := by
      apply List.map_congr_left
      intro n hn
      have hne : n.id ≠ a.id := by
        intro he
        exact hnodup.1 (by rw [← he]; exact List.mem_map_of_mem _ hn)
      exact (incoming_erase hne).symm
    have hp2 : ∀ e ∈ edges.filter (fun e => !(e.target == a.id)),
        ∃ n ∈ rest, n.id = e.target := by
      intro e he
      obtain ⟨heE, hcond⟩ := List.mem_filter.mp he
      obtain ⟨n, hn, hnid⟩ := hp e heE
      rcases List.mem_cons.mp hn with rfl | hn2
      · exfalso
        have hct : e.target ≠ n.id := by simpa using hcond
        exact hct hnid.symm
      · exact ⟨n, hn2, hnid⟩
    rw [hrest, ih (edges.filter (fun e => !(e.target == a.id))) hnodup.2 hp2]
    show (edges.filter (fun e => e.target == a.id)).length + _ = _
    omega

lemma sum_zero_one (p : MindNode → Bool) (f : MindNode → Nat) :
    ∀ (l : List MindNode),
      (∀ n ∈ l, (p n = true → f n = 0) ∧ (p n = false → f n = 1)) →
      (l.map f).sum + (l.filter p).length = l.length := by
  intro l
  induction l with
  | nil => intro _; rfl
  | cons a t ih =>
    intro h
    have ha := h a (List.mem_cons_self _ _)
    have ht := ih (fun n hn => h n (List.mem_cons_of_mem _ hn))
    rw [List.map_cons, List.sum_cons, List.filter_cons, List.length_cons]
    by_cases hpa : p a = true
    · rw [if_pos hpa, List.length_cons, ha.1 hpa]
      omega
    · have hfa : p a = false := by
        cases hq : p a
        · rfl
        · exact absurd hq hpa
      rw [if_neg hpa, ha.2 hfa]
      omega

lemma edges_count {nodes : List MindNode} {edges : List GEdge}
    (hinv : TreeInv nodes edges) : edges.length + 1 = nodes.length := by
  obtain ⟨hnodup, hroot1, hcount, hends, _⟩ := hinv
  have hsum := sum_incoming nodes edges hnodup (fun e he => (hends e he).2)
  have hzo := sum_zero_one (fun n => !hasIncoming edges n.id)
    (fun n => incomingCount edges n.id) nodes (by
      intro n hn
      constructor
      · intro hp
        have hp' : (!hasIncoming edges n.id) = true := hp
        have hfalse : hasIncoming edges n.id = false := by
          cases hq : hasIncoming edges n.id
          · rfl
          · rw [hq] at hp'
            exact absurd hp' (by simp)
        show incomingCount edges n.id = 0
        unfold incomingCount
        rw [show edges.filter (fun e => e.target == n.id) = [] from ?_]
        · rfl
        · rw [List.filter_eq_nil_iff]
          intro e he hbeq
          have htrue : hasIncoming edges n.id = true :=
            hasIncoming_true_of_target he (by simpa using hbeq)
          rw [hfalse] at htrue
          exact absurd htrue (by simp)
      · intro hp
        have hp' : (!hasIncoming edges n.id) = false := hp
        have htrue : hasIncoming edges n.id = true := by
          cases hq : hasIncoming edges n.id
          · rw [hq] at hp'
            simp at hp'
          · rfl
        obtain ⟨e, he, hbeq⟩ := List.any_eq_true.mp htrue
        have hmem : e ∈ edges.filter (fun e2 => e2.target == n.id) :=
          List.mem_filter.mpr ⟨he, hbeq⟩
        have h1 : 1 ≤ incomingCount edges n.id := by
          show 1 ≤ (edges.filter (fun e2 => e2.target == n.id)).length
          cases hf : edges.filter (fun e2 => e2.target == n.id) with
          | nil => rw [hf] at hmem; simp at hmem
          | cons x xs => rw [List.length_cons]; omega
        have h2 := hcount n hn
        show incomingCount edges n.id = 1
        omega)
  rw [hsum, hroot1] at hzo
  omega

lemma mprevGo_le (D : Nat → Nat) (dj : Nat) : ∀ i, mprevGo D dj (i+1) ≤ i := by
  intro i
  induction i with
  | zero =>
    rw [mprevGo]
    by_cases h : D 0 < dj
    · rw [if_pos h]
    · rw [if_neg h, mprevGo]
  | succ j ihj =>
    rw [mprevGo]
    by_cases h : D (j+1) < dj
    · rw [if_pos h]
    · rw [if_neg h]
      omega

/-- The depth profile of an outline viewed as a total function: depth 0
at the first position and the recorded depth (at least 1) later; on a
normalized outline it matches the items exactly. -/
def outlineD (o : List OutlineItem) (m : Nat) : Nat :=
  if m = 0 then 0 else max 1 (depOf o m)

lemma outlineD_zero (o : List OutlineItem) : outlineD o 0 = 0 := by
  unfold outlineD
  rw [if_pos rfl]

lemma outlineD_pos (o : List OutlineItem) (m : Nat) (h : 1 ≤ m) :
    outlineD o m = max 1 (depOf o m) := by
  unfold outlineD
  rw [if_neg (by omega)]

lemma outlineD_ge_one (o : List OutlineItem) : ∀ m, 1 ≤ m → 1 ≤ outlineD o m := by
  intro m hm
  rw [outlineD_pos o m hm]
  exact Nat.le_max_left _ _

lemma depOf_map_trace (T : List (MindNode × Nat)) (j : Nat) :
    depOf (T.map (fun p => ({ text := p.1.data.label, depth := p.2 } : OutlineItem))) j =
      dOf T j := by
  unfold depOf dOf
  rw [List.getElem?_map]
  cases T[j]? with
  | none => rfl
  | some p => rfl

lemma enumFrom_pairs_eq :
    ∀ (o : List OutlineItem) (t : Nat) (D : Nat → Nat),
      (∀ (k : Nat) (it : OutlineItem), o[k]? = some it → it.depth = D (t + k)) →
      (List.enumFrom t o).map (fun p => (outlineNodeId p.1, p.2.depth)) =
        (List.range' t o.length).map (fun i => (outlineNodeId i, D i)) := by
  intro o
  induction o with
  | nil => intro t D _; rfl
  | cons it rest ih =>
    intro t D h
    show ((t, it) :: List.enumFrom (t+1) rest).map _ = _
    rw [List.map_cons, show (it :: rest).length = rest.length + 1 from rfl,
      List.range'_succ t rest.length 1, List.map_cons]
    congr 1
    · have h0 := h 0 it (by simp)
      rw [Nat.add_zero] at h0
      rw [h0]
    · exact ih (t+1) D (by
        intro k it2 hk
        have hd := h (k+1) it2 (by simpa using hk)
        rw [show t + (k+1) = (t+1) + k from by omega] at hd
        exact hd)

lemma outlineEdges_nil_stack (a : Str) (d : Nat) (rest : List (Str × Nat)) :
    outlineEdges ((a, d) :: rest) [] = outlineEdges rest [(a, d)] := by
  rw [outlineEdges]
  rfl

lemma range'_get (s n k : Nat) (h : k < n) : (List.range' s n)[k]? = some (s + k) := by
  rw [List.getElem?_range' _ _ h, Nat.one_mul]

/-- C2: on every graph satisfying the tree invariants, outlineToGraph
after buildOutline succeeds and yields a graph with the same node count,
the same edge count, and the same parent-child relation up to the node
renaming sending each node id to the generated id at its traversal
position, with every node label preserved. -/
theorem outline_graph_roundtrip (nodes : List MindNode) (edges : List GEdge)
    (hinv : TreeInv nodes edges) :
    ∃ (outline : List OutlineItem) (ns : List MindNode) (es : List GEdge)
      (σ : Str → Str),
      buildOutline nodes edges = some outline ∧
      outlineToGraph outline = some (ns, es) ∧
      ns.length = nodes.length ∧
      es.length = edges.length ∧
      (∀ n1 ∈ nodes, ∀ n2 ∈ nodes, σ n1.id = σ n2.id → n1.id = n2.id) ∧
      (∀ n ∈ nodes, ∃ m ∈ ns, m.id = σ n.id ∧ m.data.label = n.data.label) ∧
      (∀ m ∈ ns, ∃ n ∈ nodes, m.id = σ n.id) ∧
      (∀ n1 ∈ nodes, ∀ n2 ∈ nodes,
        ((∃ e ∈ edges, e.source = n1.id ∧ e.target = n2.id) ↔
          (∃ e ∈ es, e.source = σ n1.id ∧ e.target = σ n2.id))) := by
  obtain ⟨hnodup, hroot1, hcount, hends, hreach⟩ := hinv
  have hec : edges.length + 1 = nodes.length :=
    edges_count ⟨hnodup, hroot1, hcount, hends, hreach⟩
  obtain ⟨r0, hfilter⟩ : ∃ r0,
      nodes.filter (fun n => !hasIncoming edges n.id) = [r0] := by
    cases hf : nodes.filter (fun n => !hasIncoming edges n.id) with
    | nil => rw [hf] at hroot1; simp at hroot1
    | cons a t =>
      cases t with
      | nil => exact ⟨a, rfl⟩
      | cons b t2 => rw [hf] at hroot1; simp at hroot1
  have hr0f : r0 ∈ nodes.filter (fun n => !hasIncoming edges n.id) := by
    rw [hfilter]
    exact List.mem_cons_self _ _
  have hr0mem : r0 ∈ nodes := (List.mem_filter.mp hr0f).1
  have hr0has : hasIncoming edges r0.id = false := by
    have h2 := (List.mem_filter.mp hr0f).2
    cases hq : hasIncoming edges r0.id
    · rfl
    · rw [hq] at h2
      exact absurd h2 (by simp)
  have H : EdgeCtx edges r0.id nodes.length := by
    intro p b hb
    have hb2 := hb
    unfold childrenOf at hb2
    obtain ⟨e, hef, het⟩ := List.mem_map.mp hb2
    obtain ⟨heE, hes⟩ := List.mem_filter.mp hef
    have hsrc : e.source = p := by simpa using hes
    obtain ⟨⟨nsrc, hnsrc, hsrcid⟩, ⟨ntgt, hntgt, htgtid⟩⟩ := hends e heE
    refine ⟨?_, ?_, ?_, ?_⟩
    · have hc := hcount ntgt hntgt
      rw [htgtid, het] at hc
      exact hc
    · have hr := hreach r0 hr0f ntgt hntgt
      rw [htgtid, het] at hr
      exact hr
    · have hr := hreach r0 hr0f nsrc hnsrc
      rw [hsrcid, hsrc] at hr
      exact hr
    · intro hrb
      have hinc : hasIncoming edges b = true :=
        hasIncoming_true_of_target heE het
      rw [← hrb, hr0has] at hinc
      exact absurd hinc (by simp)
  have hnm : ∀ i nd, nodeMapGet nodes i = some nd → nd.id = i ∧ nd ∈ nodes := by
    intro i nd h
    refine ⟨by simpa using List.find?_some h, ?_⟩
    exact List.mem_reverse.mp (List.mem_of_find?_eq_some h)
  have hpresence : ∀ a b, b ∈ childrenOf edges a →
      ∃ nd, nodeMapGet nodes b = some nd := by
    intro a b hb
    unfold childrenOf at hb
    obtain ⟨e, hef, het⟩ := List.mem_map.mp hb
    obtain ⟨heE, _⟩ := List.mem_filter.mp hef
    obtain ⟨_, ⟨ntgt, hntgt, htgtid⟩⟩ := hends e heE
    exact nodeMapGet_isSome ⟨ntgt, hntgt, by rw [htgtid, het]⟩
  have hrk0 : minReach edges r0.id r0.id (nodes.length + 1) = 0 := by
    have h0 := minReach_min edges r0.id r0.id (nodes.length + 1) 0
      (reachesIn_refl edges 0 r0.id) (by omega)
    omega
  have Hcm2 : ∀ id c, c ∈ childrenOf edges id →
      nodes.length + 1 - minReach edges r0.id c (nodes.length + 1) <
      nodes.length + 1 - minReach edges r0.id id (nodes.length + 1) := by
    intro id c hc
    have hrc := rank_child H hc
    obtain ⟨_, _, hrp, _⟩ := H id c hc
    have hle : minReach edges r0.id id (nodes.length + 1) ≤ nodes.length :=
      minReach_min edges r0.id id (nodes.length + 1) nodes.length hrp (by omega)
    omega
  obtain ⟨T, hT⟩ := @walkTrace_suff (nodeMapGet nodes) (childrenOf edges)
    (fun s => nodes.length + 1 - minReach edges r0.id s (nodes.length + 1))
    Hcm2 (nodes.length + 2) r0.id
    (by
      show nodes.length + 1 - minReach edges r0.id r0.id (nodes.length + 1) <
        nodes.length + 2
      rw [hrk0]
      omega) 0
  obtain ⟨p0, p1, p2, p3, prank, p7, p5, p8, p4⟩ :=
    walkTrace_struct hnm H hpresence (nodes.length + 2) r0.id 0 T hT hrk0
  obtain ⟨rn0, hrn0⟩ := nodeMapGet_isSome ⟨r0, hr0mem, rfl⟩
  obtain ⟨q0, Trest, hTeq⟩ : ∃ q T2, T = q :: T2 := by
    have hT2 := hT
    rw [walkTrace_some hrn0] at hT2
    rw [Option.map_eq_some'] at hT2
    obtain ⟨L2, _, h2⟩ := hT2
    exact ⟨_, _, h2.symm⟩
  have hq0 : T[0]? = some q0 := by rw [hTeq]; simp
  obtain ⟨hq0id, hq0d⟩ := p3 q0 hq0
  have hq0memT : q0 ∈ T := List.getElem?_mem hq0
  have hcover : ∀ (k : Nat) (x : Str), reachesIn edges k r0.id x = true →
      ∃ p ∈ T, p.1.id = x := by
    intro k
    induction k with
    | zero =>
      intro x h
      have hx : r0.id = x := by
        rw [reachesIn] at h
        simpa using h
      exact ⟨q0, hq0memT, by rw [hq0id, hx]⟩
    | succ j ihk =>
      intro x h
      rcases reachesIn_last_step edges j r0.id x h with heq | ⟨pp, hpx, hrp⟩
      · exact ⟨q0, hq0memT, by rw [hq0id, heq]⟩
      · obtain ⟨q, hqT, hqid⟩ := ihk pp hrp
        exact p5 q hqT x (by rw [hqid]; exact hpx)
  have hcovn : ∀ nd ∈ nodes, ∃ p ∈ T, p.1.id = nd.id := by
    intro nd hnd
    exact hcover nodes.length nd.id (hreach r0 hr0f nd hnd)
  have hmem_eq : ∀ (m1 m2 : MindNode), m1 ∈ nodes → m2 ∈ nodes →
      m1.id = m2.id → m1 = m2 := by
    intro m1 m2 h1 h2 h12
    exact List.inj_on_of_nodup_map hnodup h1 h2 h12
  have hTlen : T.length = nodes.length := by
    have ht1 : T.length ≤ nodes.length := by
      have hsub : ∀ x ∈ T.map (fun p => p.1.id), x ∈ nodes.map (fun nd => nd.id) := by
        intro x hx
        obtain ⟨p, hp, hpx⟩ := List.mem_map.mp hx
        exact List.mem_map.mpr ⟨p.1, p0 p hp, hpx⟩
      have hsp := (List.subperm_of_subset p8 hsub).length_le
      simpa using hsp
    have ht2 : nodes.length ≤ T.length := by
      have hsub : ∀ x ∈ nodes.map (fun nd => nd.id), x ∈ T.map (fun p => p.1.id) := by
        intro x hx
        obtain ⟨nd, hnd, hndx⟩ := List.mem_map.mp hx
        obtain ⟨p, hp, hpid⟩ := hcovn nd hnd
        exact List.mem_map.mpr ⟨p, hp, by rw [hpid, hndx]⟩
      have hsp := (List.subperm_of_subset hnodup hsub).length_le
      simpa using hsp
    omega
  have htid_get : ∀ (j : Nat) (p : MindNode × Nat), T[j]? = some p →
      (T.map (fun q => q.1.id))[j]? = some p.1.id := by
    intro j p hj
    rw [List.getElem?_map, hj]
    rfl
  have hmem_tids : ∀ nd ∈ nodes, nd.id ∈ T.map (fun q => q.1.id) := by
    intro nd hnd
    obtain ⟨p, hp, hpid⟩ := hcovn nd hnd
    exact List.mem_map.mpr ⟨p, hp, hpid⟩
  set outline := T.map (fun p =>
    ({ text := p.1.data.label, depth := p.2 } : OutlineItem)) with houtdef
  have holen : outline.length = T.length := by
    rw [houtdef, List.length_map]
  have hbuild : buildOutline nodes edges = some outline := by
    unfold buildOutline
    rw [hfilter, walkRoots, walkOutline_eq_trace (nodes.length + 2) r0.id 0, hT]
    simp only [Option.map_some', Option.some_bind]
    rw [walkRoots]
    simp only [Option.map_some', List.append_nil, houtdef]
  have hout0 : outline[0]? = some
      ({ text := q0.1.data.label, depth := q0.2 } : OutlineItem) := by
    rw [houtdef, List.getElem?_map, hq0]
    rfl
  have hdepOf : ∀ m, depOf outline m = dOf T m := by
    intro m
    rw [houtdef]
    exact depOf_map_trace T m
  have hd0 : outlineD outline 0 = 0 := outlineD_zero outline
  have hD1 := outlineD_ge_one outline
  have hDd : ∀ m, m < T.length → outlineD outline m = dOf T m := by
    intro m hm
    by_cases hm0 : m = 0
    · subst hm0
      rw [hd0, dOf_eq_of_getElem hq0, hq0d]
    · have hge := p2 m (by omega) hm
      rw [outlineD_pos outline m (by omega), hdepOf m]
      exact Nat.max_eq_right (by omega)
  have houtcons : outline = { text := q0.1.data.label, depth := q0.2 } ::
      Trest.map (fun p => ({ text := p.1.data.label, depth := p.2 } : OutlineItem)) := by
    rw [houtdef, hTeq, List.map_cons]
  have houtne : outline ≠ [] := by
    rw [houtcons]
    simp
  obtain ⟨Lm, hLm⟩ : ∃ Lm, outline.length = Lm + 1 := by
    rw [houtcons]
    exact ⟨_, by rw [List.length_cons]⟩
  set nds := outlineNodes outline with hndsdef
  set E := outlineEdges (outline.enum.map (fun p => (outlineNodeId p.1, p.2.depth))) []
    with hEdef
  have hfull : outline.enum.map (fun p => (outlineNodeId p.1, p.2.depth)) =
      (List.range' 0 outline.length).map
        (fun i => (outlineNodeId i, outlineD outline i)) := by
    exact enumFrom_pairs_eq outline 0 (outlineD outline) (by
      intro k it hk
      rw [Nat.zero_add]
      by_cases hk0 : k = 0
      · subst hk0
        rw [hout0] at hk
        injection hk with hk
        rw [← hk, hd0]
        exact hq0d
      · have hkb2 : k < outline.length := (List.getElem?_eq_some.mp hk).1
        have hklen : k < T.length := by omega
        have hdp : depOf outline k = it.depth := by
          unfold depOf
          rw [hk]
        rw [hDd k hklen, ← hdp]
        exact hdepOf k)
  have hEchar : E = (List.range' 1 Lm).map (fun j =>
      ({ id := outlineNodeId (mprevGo (outlineD outline) (outlineD outline j) j) ++
            '-' :: outlineNodeId j,
         source := outlineNodeId (mprevGo (outlineD outline) (outlineD outline j) j),
         target := outlineNodeId j } : GEdge)) := by
    rw [hEdef, hfull, hLm]
    rw [show (List.range' 0 (Lm + 1)).map
        (fun i => (outlineNodeId i, outlineD outline i)) =
        (outlineNodeId 0, (0 : Nat)) :: (List.range' 1 Lm).map
          (fun i => (outlineNodeId i, outlineD outline i)) from rfl]
    rw [outlineEdges_nil_stack]
    exact outlineEdges_mprev (outlineD outline) hd0 hD1 Lm 1 [0] (by omega)
      (by
        intro i hi
        simp at hi
        omega)
      (by simp)
      (by
        intro i hi
        have hi0 : i = 0 := by omega
        subst hi0
        constructor
        · intro _ m hm1 hm2
          omega
        · intro _
          simp)
  have hElen : E.length = Lm := by
    rw [hEchar, List.length_map, List.length_range']
  have hEk : ∀ k, k < Lm → E[k]? = some
      ({ id := outlineNodeId (mprevGo (outlineD outline)
            (outlineD outline (1 + k)) (1 + k)) ++ '-' :: outlineNodeId (1 + k),
         source := outlineNodeId (mprevGo (outlineD outline)
            (outlineD outline (1 + k)) (1 + k)),
         target := outlineNodeId (1 + k) } : GEdge) := by
    intro k hk
    rw [hEchar, List.getElem?_map, range'_get 1 Lm k hk]
    rfl
  have hEpt : ∀ (k : Nat) (e : GEdge), E[k]? = some e →
      e.target = outlineNodeId (1 + k) ∧
        ∃ i, i < 1 + k ∧ e.source = outlineNodeId i := by
    intro k e he
    have hkb : k < E.length := (List.getElem?_eq_some.mp he).1
    rw [hElen] at hkb
    rw [hEk k hkb] at he
    injection he with he
    rw [← he]
    constructor
    · rfl
    · refine ⟨mprevGo (outlineD outline) (outlineD outline (1 + k)) (1 + k), ?_, rfl⟩
      have hle : mprevGo (outlineD outline) (outlineD outline (1 + k)) (1 + k) ≤ k := by
        rw [show 1 + k = k + 1 from by omega]
        exact mprevGo_le (outlineD outline) (outlineD outline (k + 1)) k
      omega
  have hndslen : nds.length = outline.length := by
    rw [hndsdef]
    unfold outlineNodes
    simp
  have hids : nds.map (fun n => n.id) =
      (List.range outline.length).map outlineNodeId := by
    rw [hndsdef, outlineNodes_ids]
  have hsels : nds.map (fun n => n.selected) =
      (List.range outline.length).map (fun k => k == 0) := by
    rw [hndsdef, outlineNodes_sels]
  have hlabs : nds.map (fun n => n.data.label) = outline.map (fun it => it.text) := by
    rw [hndsdef, outlineNodes_labels]
  have hroot0 : hasIncoming E (outlineNodeId 0) = false := by
    apply hasIncoming_false_of_no_target
    intro e he htgt
    obtain ⟨k, hk⟩ := List.mem_iff_getElem?.mp he
    obtain ⟨ht2, _⟩ := hEpt k e hk
    rw [ht2] at htgt
    exact absurd (outlineNodeId_inj htgt) (by omega)
  have hnd0 := outlineNodes_getElem outline 0 _ hout0
  rw [← hndsdef] at hnd0
  have hr2 : getRootId nds E = some (outlineNodeId 0) :=
    getRootId_head hnd0 hroot0
  obtain ⟨rn, hrn⟩ := nodeMapGet_isSome
    ⟨_, List.getElem?_mem hnd0, (rfl : _ = outlineNodeId 0)⟩
  have HcmL : ∀ id c, c ∈ childrenOf E id →
      Lm + 1 - idIndex c (Lm + 1) < Lm + 1 - idIndex id (Lm + 1) := by
    intro id c hc
    unfold childrenOf at hc
    obtain ⟨e, hef, het⟩ := List.mem_map.mp hc
    obtain ⟨heE, hes⟩ := List.mem_filter.mp hef
    obtain ⟨k, hk⟩ := List.mem_iff_getElem?.mp heE
    obtain ⟨htgt, i, hi, hsrc⟩ := hEpt k e hk
    obtain ⟨hkb, _⟩ := List.getElem?_eq_some.mp hk
    rw [hElen] at hkb
    have hid : id = outlineNodeId i := by
      have hsi : e.source = id := by simpa using hes
      rw [← hsi, hsrc]
    have hcid2 : c = outlineNodeId (1 + k) := by rw [← het, htgt]
    rw [hid, hcid2, idIndex_spec (by omega), idIndex_spec (by omega)]
    omega
  have HspL : ∀ x, Lm + 1 - idIndex x (Lm + 1) < E.length + 2 := by
    intro x
    omega
  have haux : ∃ pr, positionTreeAux nds E none = some pr := by
    rw [positionTreeAux_found hr2 hrn]
    simp only []
    apply bind_isSome_gen
    · exact getDepth_suff HcmL (E.length + 2) (outlineNodeId 0) (HspL _)
    · intro d
      apply bind_isSome_gen
      · exact placeSide_suff HcmL HspL _ (fun b _ => by omega) _ _ _
      · intro st1
        apply map_isSome_gen
        exact placeSide_suff HcmL HspL _ (fun b _ => by omega) _ _ _
  obtain ⟨⟨ns0, visited⟩, haux0⟩ := haux
  have hana := haux0
  rw [positionTreeAux_found hr2 hrn] at hana
  simp only [] at hana
  rw [Option.bind_eq_some] at hana
  obtain ⟨dmax, hdm, hana⟩ := hana
  rw [Option.bind_eq_some] at hana
  obtain ⟨st1, hs1, hana⟩ := hana
  rw [Option.map_eq_some'] at hana
  obtain ⟨st2, hs2, hpair⟩ := hana
  injection hpair with hns hvis
  have htgtb : ∀ b, (b ∈ (partitionSides nds ((childrenOf E) (outlineNodeId 0)).enum).1 ∨
      b ∈ (partitionSides nds ((childrenOf E) (outlineNodeId 0)).enum).2) →
      hasIncoming E b = true := by
    intro b hb
    obtain ⟨k, hk⟩ := partitionSides_mem hb
    exact childrenOf_hasIncoming (mem_enum_snd hk)
  have hpresL := (placeSide_pres (outlineNodeId 0)
      (fun b hb => htgtb b (Or.inl hb)) hs1).trans
    (placeSide_pres (outlineNodeId 0) (fun b hb => htgtb b (Or.inr hb)) hs2)
  obtain ⟨hids_p, hsels_p, hlabs_p, _, _, _, _⟩ := hpresL
  set fns := ns0.map (fun n =>
    { n with position := { x := n.position.x + 40, y := n.position.y + 40 } })
    with hfns
  have hotg : outlineToGraph outline = some (fns, E) := by
    unfold outlineToGraph
    rw [if_neg houtne]
    simp only []
    rw [← hndsdef, ← hEdef]
    unfold positionTree
    rw [haux0]
    rfl
  have hfid : fns.map (fun n => n.id) = nds.map (fun n => n.id) := by
    rw [hfns, map_proj_comp ns0 (fun n =>
        { n with position := { x := n.position.x + 40, y := n.position.y + 40 } })
      (fun n => n.id) (fun n => rfl), ← hns,
      map_proj_comp st2.nodes (fallbackSide (outlineNodeId 0) st2.sideByNode)
        (fun n => n.id) (fun n => fallbackSide_id n), hids_p]
    exact updateLast_map (fun n => rfl)
  have hflab : fns.map (fun n => n.data.label) = nds.map (fun n => n.data.label) := by
    rw [hfns, map_proj_comp ns0 (fun n =>
        { n with position := { x := n.position.x + 40, y := n.position.y + 40 } })
      (fun n => n.data.label) (fun n => rfl), ← hns,
      map_proj_comp st2.nodes (fallbackSide (outlineNodeId 0) st2.sideByNode)
        (fun n => n.data.label) (fun n => fallbackSide_lab n), hlabs_p]
    exact updateLast_map (fun n => rfl)
  have hcid : fns.map (fun n => n.id) =
      (List.range outline.length).map outlineNodeId := by
    rw [hfid]
    exact hids
  have hclab : fns.map (fun n => n.data.label) = outline.map (fun it => it.text) := by
    rw [hflab]
    exact hlabs
  have hfl : fns.length = outline.length := by
    have hcg := congrArg List.length hcid
    simpa using hcg
  have hfnsid : ∀ (k : Nat) (m : MindNode), fns[k]? = some m →
      m.id = outlineNodeId k := by
    intro k m hk
    obtain ⟨hkb, _⟩ := List.getElem?_eq_some.mp hk
    have h1b : (fns.map (fun n => n.id))[k]? = some m.id := by
      rw [List.getElem?_map, hk]
      rfl
    rw [hcid, List.getElem?_map, List.getElem?_range (by omega)] at h1b
    simp only [Option.map_some', Option.some.injEq] at h1b
    exact h1b.symm
  have hfnslab : ∀ (k : Nat) (m : MindNode) (it : OutlineItem),
      fns[k]? = some m → outline[k]? = some it → m.data.label = it.text := by
    intro k m it hk hit
    have h1b : (fns.map (fun n => n.data.label))[k]? = some m.data.label := by
      rw [List.getElem?_map, hk]
      rfl
    rw [hclab, List.getElem?_map, hit] at h1b
    simp only [Option.map_some', Option.some.injEq] at h1b
    exact h1b.symm
  have hmgo : ∀ j, 1 ≤ j → j < T.length →
      ∃ pa pb, T[mprevGo (outlineD outline) (outlineD outline j) j]? = some pa ∧
        T[j]? = some pb ∧ pb.1.id ∈ childrenOf edges pa.1.id ∧
        mprevGo (outlineD outline) (outlineD outline j) j < j := by
    intro j hj1 hjb
    obtain ⟨i, hij, hdij, hbet, pa, pb, hpa, hpb, hedge⟩ := p4 j hj1 hjb
    have hmu : mprevGo (outlineD outline) (outlineD outline j) j = i := by
      apply mprevGo_unique
      · exact hij
      · rw [hDd i (by omega), hDd j hjb]
        exact hdij
      · intro m hm1 hm2
        rw [hDd m (by omega), hDd j hjb]
        exact hbet m hm1 hm2
    rw [hmu]
    exact ⟨pa, pb, hpa, hpb, hedge, hij⟩
  refine ⟨outline, fns, E,
    fun s => outlineNodeId (posIn (T.map (fun p => p.1.id)) s),
    hbuild, hotg, ?_, ?_, ?_, ?_, ?_, ?_⟩
  · omega
  · omega
  · intro n1 h1 n2 h2 hσ
    have hinj := outlineNodeId_inj hσ
    have hg1 := posIn_getElem (hmem_tids n1 h1)
    have hg2 := posIn_getElem (hmem_tids n2 h2)
    rw [hinj] at hg1
    rw [hg2] at hg1
    injection hg1 with hg1
    exact hg1.symm
  · intro nd hnd
    obtain ⟨p, hpT, hpid⟩ := hcovn nd hnd
    obtain ⟨j, hjT⟩ := List.mem_iff_getElem?.mp hpT
    have hjb : j < T.length := (List.getElem?_eq_some.mp hjT).1
    have hposj : posIn (T.map (fun p => p.1.id)) nd.id = j := by
      apply posIn_unique p8
      rw [← hpid]
      exact htid_get j p hjT
    have hjfns : j < fns.length := by omega
    obtain ⟨m, hm⟩ : ∃ m, fns[j]? = some m := ⟨_, List.getElem?_eq_getElem hjfns⟩
    refine ⟨m, List.getElem?_mem hm, ?_, ?_⟩
    · rw [hfnsid j m hm]
      show outlineNodeId j = outlineNodeId (posIn (T.map (fun p => p.1.id)) nd.id)
      rw [hposj]
    · have hout_j : outline[j]? = some
          ({ text := p.1.data.label, depth := p.2 } : OutlineItem) := by
        rw [houtdef, List.getElem?_map, hjT]
        rfl
      have hlab := hfnslab j m _ hm hout_j
      rw [hlab]
      have hpeq : p.1 = nd := hmem_eq p.1 nd (p0 p hpT) hnd hpid
      rw [hpeq]
  · intro m hm
    obtain ⟨k, hk⟩ := List.mem_iff_getElem?.mp hm
    have hkb : k < fns.length := (List.getElem?_eq_some.mp hk).1
    have hkT : k < T.length := by omega
    obtain ⟨p, hpT⟩ : ∃ p, T[k]? = some p := ⟨_, List.getElem?_eq_getElem hkT⟩
    refine ⟨p.1, p0 p (List.getElem?_mem hpT), ?_⟩
    have hposk : posIn (T.map (fun q => q.1.id)) p.1.id = k :=
      posIn_unique p8 (htid_get k p hpT)
    rw [hfnsid k m hk]
    show outlineNodeId k = outlineNodeId (posIn (T.map (fun q => q.1.id)) p.1.id)
    rw [hposk]
  · intro n1 h1 n2 h2
    constructor
    · rintro ⟨e, heE, hesrc, hetgt⟩
      have hchild : n2.id ∈ childrenOf edges n1.id := by
        unfold childrenOf
        exact List.mem_map.mpr ⟨e, List.mem_filter.mpr ⟨heE, by simp [hesrc]⟩, hetgt⟩
      obtain ⟨pc, hpcT, hpcid⟩ := hcovn n2 h2
      obtain ⟨j, hjT⟩ := List.mem_iff_getElem?.mp hpcT
      have hjb : j < T.length := (List.getElem?_eq_some.mp hjT).1
      have hj1 : 1 ≤ j := by
        by_contra h0
        have hj0 : j = 0 := by omega
        rw [hj0, hq0] at hjT
        injection hjT with hjT
        have hn2r : n2.id = r0.id := by
          rw [← hpcid, ← hjT]
          exact hq0id
        have hinc : hasIncoming edges n2.id = true :=
          hasIncoming_true_of_target heE hetgt
        rw [hn2r, hr0has] at hinc
        exact absurd hinc (by simp)
      obtain ⟨pa, pb, hpa, hpb, hedge2, hmlt⟩ := hmgo j hj1 hjb
      rw [hjT] at hpb
      injection hpb with hpb
      have hpbid : pb.1.id = n2.id := by
        rw [← hpb]
        exact hpcid
      rw [hpbid] at hedge2
      have hpan1 : pa.1.id = n1.id :=
        parent_unique_cm (hcount n2 h2) hedge2 hchild
      have hposj : posIn (T.map (fun p => p.1.id)) n2.id = j := by
        apply posIn_unique p8
        rw [← hpcid]
        exact htid_get j pc hjT
      have hposi : posIn (T.map (fun p => p.1.id)) n1.id =
          mprevGo (outlineD outline) (outlineD outline j) j := by
        apply posIn_unique p8
        rw [← hpan1]
        exact htid_get _ pa hpa
      have hjE : j - 1 < Lm := by omega
      have hEj := hEk (j - 1) hjE
      rw [show 1 + (j - 1) = j from by omega] at hEj
      refine ⟨_, List.getElem?_mem hEj, ?_, ?_⟩
      · show outlineNodeId (mprevGo (outlineD outline) (outlineD outline j) j) =
          outlineNodeId (posIn (T.map (fun p => p.1.id)) n1.id)
        rw [hposi]
      · show outlineNodeId j = outlineNodeId (posIn (T.map (fun p => p.1.id)) n2.id)
        rw [hposj]
    · rintro ⟨e, heE, hesrc, hetgt⟩
      obtain ⟨k, hkE⟩ := List.mem_iff_getElem?.mp heE
      have hkb : k < E.length := (List.getElem?_eq_some.mp hkE).1
      rw [hElen] at hkb
      have hEj := hEk k hkb
      rw [hkE] at hEj
      injection hEj with hEj
      have hj1 : (1 : Nat) ≤ 1 + k := by omega
      have hjb : 1 + k < T.length := by omega
      have htgt2 : e.target = outlineNodeId (1 + k) := by rw [hEj]
      have hsrc2 : e.source = outlineNodeId (mprevGo (outlineD outline)
          (outlineD outline (1 + k)) (1 + k)) := by rw [hEj]
      have hposj : posIn (T.map (fun p => p.1.id)) n2.id = 1 + k := by
        have h := hetgt
        rw [htgt2] at h
        exact (outlineNodeId_inj h).symm
      obtain ⟨pa, pb, hpa, hpb, hedge2, hmlt⟩ := hmgo (1 + k) hj1 hjb
      have hpbid : pb.1.id = n2.id := by
        have hg2 := posIn_getElem (hmem_tids n2 h2)
        rw [hposj] at hg2
        have hg3 := htid_get (1 + k) pb hpb
        rw [hg3] at hg2
        exact Option.some.inj hg2
      have hposi : posIn (T.map (fun p => p.1.id)) n1.id =
          mprevGo (outlineD outline) (outlineD outline (1 + k)) (1 + k) := by
        have h := hesrc
        rw [hsrc2] at h
        exact (outlineNodeId_inj h).symm
      have hpaid : pa.1.id = n1.id := by
        have hg1 := posIn_getElem (hmem_tids n1 h1)
        rw [hposi] at hg1
        have hg3 := htid_get _ pa hpa
        rw [hg3] at hg1
        exact Option.some.inj hg1
      rw [hpaid, hpbid] at hedge2
      unfold childrenOf at hedge2
      obtain ⟨e2, hef2, het2⟩ := List.mem_map.mp hedge2
      obtain ⟨heE2, hes2⟩ := List.mem_filter.mp hef2
      exact ⟨e2, heE2, by simpa using hes2, het2⟩

/-- A three-node tree (root with two children) for instantiating C2. -/
def c2Nodes : List MindNode :=
  [{ id := "root".toList, selected := true, position := { x := 0, y := 0 },
     data := { label := "Root".toList, side := none } },
   { id := "a".toList, selected := false, position := { x := 10, y := 20 },
     data := { label := "A".toList, side := none } },
   { id := "b".toList, selected := false, position := { x := 10, y := 40 },
     data := { label := "B".toList, side := none } }]

/-- The two edges of the three-node tree. -/
def c2Edges : List GEdge :=
  [{ id := "root-a".toList, source := "root".toList, target := "a".toList },
   { id := "root-b".toList, source := "root".toList, target := "b".toList }]

/-- Concrete instantiation of the C2 round-trip theorem on the three-node
tree, the tree invariants checked by evaluation. -/
theorem outline_graph_roundtrip_witness :
    TreeInv c2Nodes c2Edges ∧
    (∃ (outline : List OutlineItem) (ns : List MindNode) (es : List GEdge)
      (σ : Str → Str),
      buildOutline c2Nodes c2Edges = some outline ∧
      outlineToGraph outline = some (ns, es) ∧
      ns.length = c2Nodes.length ∧
      es.length = c2Edges.length ∧
      (∀ n1 ∈ c2Nodes, ∀ n2 ∈ c2Nodes, σ n1.id = σ n2.id → n1.id = n2.id) ∧
      (∀ n ∈ c2Nodes, ∃ m ∈ ns, m.id = σ n.id ∧ m.data.label = n.data.label) ∧
      (∀ m ∈ ns, ∃ n ∈ c2Nodes, m.id = σ n.id) ∧
      (∀ n1 ∈ c2Nodes, ∀ n2 ∈ c2Nodes,
        ((∃ e ∈ c2Edges, e.source = n1.id ∧ e.target = n2.id) ↔
          (∃ e ∈ es, e.source = σ n1.id ∧ e.target = σ n2.id)))) :=
  ⟨by decide, outline_graph_roundtrip c2Nodes c2Edges (by decide)⟩

end ClaimC2

end MindMaps
